import Mathlib

/-!
# dir-simulator: the directory tree and its operations

A shallow embedding of `filesystem.go` and of the handlers of
`command_handler.go` that the properties below talk about.

## Representation

* A Go `string` is a Lean `String`. Go orders strings lexicographically
  byte by byte; here they are ordered lexicographically character by
  character (`s.data < t.data`). On UTF-8 text the two orders agree, and the
  development only uses that the order on names is a linear order.
* A `*dir` is an `Option Nat`: `none` is `nil`, `some p` is the address `p`.
  The allocated `dir` objects are the entries of `filesystem.heap`, the
  address of an object being its index; `&dir{...}` appends a new entry.
* A `[]*dir` is a `List Nat`. Every `subs` slice has its own backing array
  (a slice is only ever assigned from an `append` on itself or from a
  re-slice of itself), so slices are values, except inside the loop of
  `moveDirectory`, which ranges over a slice while shifting its backing
  array; that loop is embedded with the backing array explicit
  (`removeLoop`).
* A function that can dereference `nil`, or slice out of bounds, returns an
  `Option`: `none` is the Go run-time panic.
* `sort.Slice` is embedded as insertion sort with the same `less` function.
  The names handed to it are pairwise distinct wherever the invariant
  `Inv` holds, and then every comparison sort returns the same slice.
-/

namespace DirSimulator

/-! ## filesystem.go -/

/-- The errors declared in `filesystem.go`. -/
inductive FsError where
  | ErrSubdirAlreadyExists
  | ErrCannotMoveUpFromRoot
  | ErrSubdirDoesNotExist
deriving DecidableEq, Repr

/-- The message of an error, `err.Error()`. -/
def FsError.Error : FsError → String
  | .ErrSubdirAlreadyExists => "Subdirectory already exists"
  | .ErrCannotMoveUpFromRoot => "Cannot move up from root directory"
  | .ErrSubdirDoesNotExist => "Subdirectory does not exist"

/-- The struct `dir`: its name, the pointer to its parent, the pointers to
its subdirectories. -/
structure dir where
  name : String
  parent : Option Nat
  subs : List Nat
deriving DecidableEq, Repr

/-- The struct `filesystem`, together with the allocated `dir` objects. -/
structure filesystem where
  heap : List dir
  current : Option Nat
  root : Option Nat
deriving DecidableEq, Repr

/-- The comparison `s < t` of two Go strings: lexicographic, character by
character. -/
def strLess (s t : String) : Prop :=
  s.data < t.data

instance : DecidableRel strLess :=
  fun s t => inferInstanceAs (Decidable (s.data < t.data))

instance : IsTrans String strLess :=
  ⟨fun _ _ _ hab hbc => @lt_trans (List Char) _ _ _ _ hab hbc⟩

instance : IsIrrefl String strLess :=
  ⟨fun s => lt_irrefl s.data⟩

instance : IsAntisymm String strLess :=
  ⟨fun _ _ hab hba => absurd hba (@lt_asymm (List Char) _ _ _ hab)⟩

/-- The object at address `p` (`*p`). -/
def deref (heap : List dir) (p : Nat) : dir :=
  heap.getD p { name := "", parent := none, subs := [] }

/-- The heap after the object at address `p` is overwritten with `d`. -/
def store (heap : List dir) (p : Nat) (d : dir) : List dir :=
  heap.set p d

/-- The names of the subdirectories of the directory at `p`, in the order of
its `subs` slice. -/
def childNames (heap : List dir) (p : Nat) : List String :=
  (deref heap p).subs.map (fun q => (deref heap q).name)

/-- The `less` function given to `sort.Slice`: compare the names of the
directories pointed to. -/
def nameLess (heap : List dir) (a b : Nat) : Prop :=
  strLess (deref heap a).name (deref heap b).name

instance (heap : List dir) : DecidableRel (nameLess heap) :=
  fun a b => inferInstanceAs (Decidable (strLess (deref heap a).name (deref heap b).name))

instance (heap : List dir) : IsTrans Nat (nameLess heap) :=
  ⟨fun _ _ _ hab hbc => @lt_trans (List Char) _ _ _ _ hab hbc⟩

instance (heap : List dir) : IsIrrefl Nat (nameLess heap) :=
  ⟨fun a => lt_irrefl (deref heap a).name.data⟩

instance (heap : List dir) : IsAntisymm Nat (nameLess heap) :=
  ⟨fun _ _ hab hba => absurd hba (@lt_asymm (List Char) _ _ _ hab)⟩

/-- The call `sort.Slice(subs, less)` with `less` comparing names. -/
def sortSlice (heap : List dir) (subs : List Nat) : List Nat :=
  List.insertionSort (nameLess heap) subs

/-- The loop `for _, subdir := range subs { if subdir.name == name ... }`:
the first subdirectory with the given name, if any. -/
def findSub (heap : List dir) (name : String) : List Nat → Option Nat
  | [] => none
  | q :: qs => if (deref heap q).name = name then some q else findSub heap name qs

/-- The function `CreateFilesystem`: one object, the root, which is also
the current directory. -/
def CreateFilesystem : filesystem :=
  { heap := [{ name := "root", parent := none, subs := [] }]
    current := some 0
    root := some 0 }

/-- The method `AddSubdir`. -/
def AddSubdir (fs : filesystem) (subName : String) : Option (filesystem × Option FsError) :=
  match fs.current with
  | none => none
  | some c =>
    match findSub fs.heap subName (deref fs.heap c).subs with
    | some _ => some (fs, some .ErrSubdirAlreadyExists)
    | none =>
      let n := fs.heap.length
      let heap1 := fs.heap ++ [{ name := subName, parent := some c, subs := [] }]
      let heap2 := store heap1 c { deref heap1 c with subs := (deref heap1 c).subs ++ [n] }
      let heap3 := store heap2 c { deref heap2 c with subs := sortSlice heap2 (deref heap2 c).subs }
      some ({ fs with heap := heap3 }, none)

/-- The method `Up`. -/
def Up (fs : filesystem) : Option (filesystem × Option FsError) :=
  if fs.current = fs.root then some (fs, some .ErrCannotMoveUpFromRoot)
  else
    match fs.current with
    | none => none
    | some c => some ({ fs with current := (deref fs.heap c).parent }, none)

/-- The method `Cd`. -/
def Cd (fs : filesystem) (dirName : String) : Option (filesystem × Option FsError) :=
  match fs.current with
  | none => none
  | some c =>
    match findSub fs.heap dirName (deref fs.heap c).subs with
    | some s => some ({ fs with current := some s }, none)
    | none => some (fs, some .ErrSubdirDoesNotExist)

/-- The loop of `moveDirectory`, `for i, subdir := range parent.subs`, that
cuts `dirToMove` out of its parent's slice. The range reads cell `i` of the
backing array `arr` at each iteration while the body shifts the cells
`i+1 .. len-1` one place down and shortens `parent.subs` (whose length is
`len`) by one; `k` is the number of iterations left. The result is the final
`parent.subs`, or `none` when `parent.subs[i+1:]` is out of bounds. -/
def removeLoop (dirToMove : Nat) : Nat → Nat → List Nat → Nat → Option (List Nat)
  | 0, _, arr, len => some (arr.take len)
  | k + 1, i, arr, len =>
    if arr.getD i 0 = dirToMove then
      if i + 1 ≤ len then
        removeLoop dirToMove k (i + 1)
          (arr.take i ++ (arr.drop (i + 1)).take (len - (i + 1)) ++ arr.drop (len - 1))
          (len - 1)
      else none
    else removeLoop dirToMove k (i + 1) arr len

/-- The function `moveDirectory`. -/
def moveDirectory (heap : List dir) (dirToMove destination : Nat) : Option (List dir) :=
  match (deref heap dirToMove).parent with
  | none => none
  | some p =>
    let subs := (deref heap p).subs
    match removeLoop dirToMove subs.length 0 subs subs.length with
    | none => none
    | some newSubs =>
      let heap1 := store heap p { deref heap p with subs := newSubs }
      let heap2 := store heap1 dirToMove { deref heap1 dirToMove with parent := some destination }
      let heap3 := store heap2 destination
        { deref heap2 destination with subs := (deref heap2 destination).subs ++ [dirToMove] }
      some (store heap3 destination
        { deref heap3 destination with subs := sortSlice heap3 (deref heap3 destination).subs })

/-- The separator-splitting of `strings.Split(s, sep)` for a one-character
separator, on the characters of the string. -/
def splitChars (sep : Char) : List Char → List (List Char)
  | [] => [[]]
  | c :: cs =>
    if c = sep then [] :: splitChars sep cs
    else
      match splitChars sep cs with
      | [] => [[c]]
      | t :: ts => (c :: t) :: ts

/-- The call `strings.Split(s, "\\")`. -/
def Split (s : String) : List String :=
  (splitChars '\\' s.data).map String.mk

/-- The part of `Mv` from the label `StepsLoop` on: the loop over the
remaining `steps` of the destination path, then the code after the loop. -/
def stepsLoop (fs : filesystem) (dirToMove : Nat) :
    List String → Nat → Option (filesystem × Option FsError)
  | [], destination =>
    if destination = dirToMove ∨ some destination = fs.current then some (fs, none)
    else
      match findSub fs.heap (deref fs.heap dirToMove).name (deref fs.heap destination).subs with
      | some _ => some (fs, some .ErrSubdirAlreadyExists)
      | none =>
        match moveDirectory fs.heap dirToMove destination with
        | none => none
        | some heap1 => some ({ fs with heap := heap1 }, none)
  | step :: rest, destination =>
    if step = "." then stepsLoop fs dirToMove rest destination
    else if step = ".." then
      match (deref fs.heap destination).parent with
      | none => some (fs, some .ErrSubdirDoesNotExist)
      | some p => stepsLoop fs dirToMove rest p
    else
      match findSub fs.heap step (deref fs.heap destination).subs with
      | some s => stepsLoop fs dirToMove rest s
      | none =>
        if rest = [] then
          let heap1 := store fs.heap dirToMove { deref fs.heap dirToMove with name := step }
          match moveDirectory heap1 dirToMove destination with
          | none => none
          | some heap2 => some ({ fs with heap := heap2 }, none)
        else some (fs, some .ErrSubdirDoesNotExist)

/-- The method `Mv`. -/
def Mv (fs : filesystem) (src dst : String) : Option (filesystem × Option FsError) :=
  match fs.current with
  | none => none
  | some c =>
    match findSub fs.heap src (deref fs.heap c).subs with
    | none => some (fs, some .ErrSubdirDoesNotExist)
    | some dirToMove => stepsLoop fs dirToMove (Split dst) c

/-! ## command_handler.go -/

/-- The function `handleMv`: the new filesystem and the output lines. -/
def handleMv (fs : filesystem) (src dst : String) : Option (filesystem × List String) :=
  match Mv fs src dst with
  | none => none
  | some (fs1, some err) => some (fs1, [err.Error])
  | some (fs1, none) => some (fs1, [])

/-! ## States, invariant and runs -/

/-- The directory `q` can be reached from `p` by following `subs`
pointers. -/
inductive Reachable (heap : List dir) (p : Nat) : Nat → Prop where
  | refl : Reachable heap p p
  | step {q r : Nat} : Reachable heap p q → r ∈ (deref heap q).subs → Reachable heap p r

/-- The pointer structure that the operations maintain on all allocated
directories: every listed subdirectory is allocated and points back to the
directory that lists it, every directory is listed by the directory its
`parent` points to, and every `subs` slice is strictly sorted by name. -/
structure HeapInv (heap : List dir) : Prop where
  child : ∀ p q, q ∈ (deref heap p).subs → q < heap.length ∧ (deref heap q).parent = some p
  parent : ∀ q p, (deref heap q).parent = some p → q ∈ (deref heap p).subs
  sorted : ∀ p, List.Sorted (nameLess heap) (deref heap p).subs

/-- The `n`-th ancestor of the directory `p`: the directory reached by
following `parent` pointers `n` times, if there are that many. -/
def ancestor (heap : List dir) : Nat → Nat → Option Nat
  | 0, p => some p
  | n + 1, p =>
    match (deref heap p).parent with
    | none => none
    | some q => ancestor heap n q

/-- The invariant of the filesystem: `HeapInv`, the root and the current
directory are allocated, the root is the one allocated directory without a
parent, and the root is an ancestor of the current directory. -/
structure Inv (fs : filesystem) : Prop where
  heapInv : HeapInv fs.heap
  root : ∃ r, fs.root = some r ∧ r < fs.heap.length ∧ (deref fs.heap r).parent = none
  current : ∃ c, fs.current = some c ∧ c < fs.heap.length
  nonroot : ∀ q, q < fs.heap.length → (deref fs.heap q).parent = none → fs.root = some q
  rooted : ∀ c, fs.current = some c → ∃ n, ancestor fs.heap n c = fs.root

/-- What `moveDirectory` needs of the heap it is called on (by `Mv`, after a
possible renaming of `X`): the pointer structure of `HeapInv`, with the slice
of `X`'s parent `P` only required to be sorted once `X` is taken out, and the
name of `X` new in the destination `D`. -/
structure MoveReady (heap : List dir) (X D P : Nat) : Prop where
  child : ∀ p q, q ∈ (deref heap p).subs → q < heap.length ∧ (deref heap q).parent = some p
  parent : ∀ q p, (deref heap q).parent = some p → q ∈ (deref heap p).subs
  sorted : ∀ p, p ≠ P → List.Sorted (nameLess heap) (deref heap p).subs
  sortedP : List.Sorted (nameLess heap) ((deref heap P).subs.erase X)
  nodupP : (deref heap P).subs.Nodup
  memP : X ∈ (deref heap P).subs
  dest : D < heap.length
  fresh : ∀ q ∈ (deref heap D).subs, q ≠ X → (deref heap q).name ≠ (deref heap X).name

/-- The directory at address `q` after `moveDirectory` has moved `X`, a
subdirectory of `P`, into `D`. -/
def movedDir (heap : List dir) (X D P q : Nat) : dir :=
  { name := (deref heap q).name
    parent := if q = X then some D else (deref heap q).parent
    subs :=
      if q = D then
        sortSlice heap
          ((if D = P then (deref heap P).subs.erase X else (deref heap D).subs) ++ [X])
      else if q = P then (deref heap P).subs.erase X
      else (deref heap q).subs }

/-- The directory at address `q` after `AddSubdir` has added a subdirectory
named `subName` to the directory `c`. -/
def addedDir (heap : List dir) (c : Nat) (subName : String) (q : Nat) : dir :=
  if q = heap.length then { name := subName, parent := some c, subs := [] }
  else if q = c then
    { deref heap c with
      subs := sortSlice (heap ++ [{ name := subName, parent := some c, subs := [] }])
        ((deref heap c).subs ++ [heap.length]) }
  else deref heap q

/-- Path resolution as the specification words it, one token: from the
directory `d`, `"."` stays, `".."` goes to the parent, any other token goes
to the subdirectory of that name; `none` when the token cannot be followed (a
`".."` at a directory without parent, a name that is no subdirectory). -/
def resolveStep (heap : List dir) (t : String) (d : Nat) : Option Nat :=
  if t = "." then some d
  else if t = ".." then (deref heap d).parent
  else findSub heap t (deref heap d).subs

/-- Path resolution as the specification words it: the tokens of a relative
path are followed in order from the directory `d`; the result is the
directory reached, or `none` when a token cannot be followed. It is compared
with the loop of `Mv` in `resolveSteps_found_iff` and
`resolveSteps_notFound_iff`. -/
def resolvePath (heap : List dir) : List String → Nat → Option Nat
  | [], d => some d
  | t :: ts, d =>
    match resolveStep heap t d with
    | none => none
    | some d1 => resolvePath heap ts d1

/-- The specification's condition for a relative path that cannot be
resolved from `d`: its tokens up to some token `t` can be followed, to a
directory `e`, and there either `t` is `".."` and `e` has no parent, or `t`
is a name, is not the last token, and names no subdirectory of `e`. -/
def PathNotFound (heap : List dir) (steps : List String) (d : Nat) : Prop :=
  ∃ pre t post e, steps = pre ++ t :: post ∧ resolvePath heap pre d = some e ∧
    ((t = ".." ∧ (deref heap e).parent = none) ∨
      (t ≠ "." ∧ t ≠ ".." ∧ post ≠ [] ∧ t ∉ childNames heap e))

/-- The three ways the loop `StepsLoop` of `Mv` ends: with the error
`ErrSubdirDoesNotExist`, in the renaming branch (last step not found in
`destination`), or after the last step with the `destination` reached. -/
inductive Resolution where
  | notFound
  | rename (destination : Nat) (step : String)
  | found (destination : Nat)
deriving DecidableEq, Repr

/-- The way the loop `StepsLoop` of `Mv` ends on the remaining `steps`,
from the current `destination`. -/
def resolveSteps (heap : List dir) : List String → Nat → Resolution
  | [], destination => .found destination
  | step :: rest, destination =>
    if step = "." then resolveSteps heap rest destination
    else if step = ".." then
      match (deref heap destination).parent with
      | none => .notFound
      | some p => resolveSteps heap rest p
    else
      match findSub heap step (deref heap destination).subs with
      | some s => resolveSteps heap rest s
      | none => if rest = [] then .rename destination step else .notFound

/-- What `Mv` does once the loop `StepsLoop` has ended. -/
def finishMv (fs : filesystem) (dirToMove : Nat) : Resolution → Option (filesystem × Option FsError)
  | .notFound => some (fs, some .ErrSubdirDoesNotExist)
  | .rename destination step =>
    match moveDirectory (store fs.heap dirToMove { deref fs.heap dirToMove with name := step })
        dirToMove destination with
    | none => none
    | some heap2 => some ({ fs with heap := heap2 }, none)
  | .found destination =>
    if destination = dirToMove ∨ some destination = fs.current then some (fs, none)
    else
      match findSub fs.heap (deref fs.heap dirToMove).name (deref fs.heap destination).subs with
      | some _ => some (fs, some .ErrSubdirAlreadyExists)
      | none =>
        match moveDirectory fs.heap dirToMove destination with
        | none => none
        | some heap1 => some ({ fs with heap := heap1 }, none)

/-- One call of the filesystem's interface. -/
inductive Op where
  | AddSubdir (subName : String)
  | Up
  | Cd (dirName : String)
  | Mv (src dst : String)
deriving DecidableEq, Repr

/-- The effect of one call: the new state and the error returned. -/
def applyOp (fs : filesystem) : Op → Option (filesystem × Option FsError)
  | .AddSubdir subName => AddSubdir fs subName
  | .Up => Up fs
  | .Cd dirName => Cd fs dirName
  | .Mv src dst => Mv fs src dst

/-- A sequence of calls, each made on the state the one before left, whether
it returned an error or not; `none` when a call panics. -/
def runOps : filesystem → List Op → Option filesystem
  | fs, [] => some fs
  | fs, op :: ops =>
    match applyOp fs op with
    | none => none
    | some (fs1, _) => runOps fs1 ops

/-- The calls that build `exampleState`. -/
def exampleOps : List Op :=
  [.AddSubdir "sub1", .AddSubdir "sub2", .Cd "sub2", .AddSubdir "sub1", .Up]

/-- An example state: the root holds `sub1` and `sub2`, `sub2` holds another
`sub1`, and the current directory is the root. -/
def exampleState : filesystem :=
  { heap := [{ name := "root", parent := none, subs := [1, 2] },
             { name := "sub1", parent := some 0, subs := [] },
             { name := "sub2", parent := some 0, subs := [3] },
             { name := "sub1", parent := some 2, subs := [] }]
    current := some 0
    root := some 0 }

/-- An example state: the root holds `sub1` and `sub2`, both empty, and is
the current directory. -/
def siblingsState : filesystem :=
  { heap := [{ name := "root", parent := none, subs := [1, 2] },
             { name := "sub1", parent := some 0, subs := [] },
             { name := "sub2", parent := some 0, subs := [] }]
    current := some 0
    root := some 0 }

/-- The state `siblingsState` after `sub1` has been moved into `sub2`. -/
def siblingsMovedState : filesystem :=
  { heap := [{ name := "root", parent := none, subs := [2] },
             { name := "sub1", parent := some 2, subs := [] },
             { name := "sub2", parent := some 0, subs := [1] }]
    current := some 0
    root := some 0 }

/-- An example state: the root holds a directory named `..` and a directory
named `a\b`, and is the current directory. -/
def oddNamesState : filesystem :=
  { heap := [{ name := "root", parent := none, subs := [1, 2] },
             { name := "..", parent := some 0, subs := [] },
             { name := "a\\b", parent := some 0, subs := [] }]
    current := some 0
    root := some 0 }

/-! ## command_handler.go: listing, tree and dispatch

The handlers below can panic, and `handleDir`, `handleTree` and
`getTreeBranches` loop or recurse along `parent` and `subs` pointers: they
take a bound `fuel` on the number of iterations, or on the recursion depth,
and return an `Except Fault`. -/

/-- Why a handler gives no result: a Go run-time panic (or a call of
`panic`), the bound on iterations reached, or a directory name that is not
UTF-8 text, which the filesystem of the embedding cannot hold (`mkdir` with
an argument that `input[8:]` has cut out of a character); the last is no
fault of the program, which goes on. -/
inductive Fault where
  | panic
  | outOfFuel
  | notText
deriving DecidableEq, Repr

/-- The length `len(s)` of a Go string: its number of bytes. -/
def len (s : String) : Nat :=
  s.utf8ByteSize

/-- The call `fmt.Sprintf("%-*s", width, s)`, for a `width` from 0 to
1000000: `s` padded with spaces on its right up to `width` characters; `fmt`
counts a width in code points, not in bytes. -/
def padRight (width : Nat) (s : String) : String :=
  s ++ String.mk (List.replicate (width - s.length) ' ')

/-- The loop `for current != fs.root` of `handleDir` and `handleTree`, which
walks up to the root and prepends the names met to `current_path`; the
result is the final `current` and `current_path`. -/
def currentPath (heap : List dir) (root : Option Nat) :
    Nat → Nat → String → Except Fault (Nat × String)
  | 0, current, current_path =>
    if some current = root then .ok (current, current_path) else .error .outOfFuel
  | fuel + 1, current, current_path =>
    if some current = root then .ok (current, current_path)
    else
      match (deref heap current).parent with
      | none => .error .panic
      | some p => currentPath heap root fuel p ((deref heap p).name ++ "\\" ++ current_path)

/-- The loop `for _, subdir := range fs.current.subs[1:]` of `handleDir`, on
the subdirectories left, with the lines `subdirs` built so far and the index
`lineCounter` of the line being filled. -/
def dirLoop (heap : List dir) : List Nat → List String → Nat → Except Fault (List String)
  | [], subdirs, _ => .ok subdirs
  | subdir :: rest, subdirs, lineCounter =>
    match subdirs[lineCounter]? with
    | none => .error .panic
    | some line =>
      let paddingLength := 8 - len line % 8
      if len line + len (deref heap subdir).name + paddingLength > 80 then
        dirLoop heap rest (subdirs ++ [(deref heap subdir).name]) (lineCounter + 1)
      else
        let padding := paddingLength + len line
        dirLoop heap rest
          (subdirs.set lineCounter (padRight padding line ++ (deref heap subdir).name))
          lineCounter

/-- The function `handleDir`. -/
def handleDir (fuel : Nat) (fs : filesystem) : Except Fault (List String) :=
  match fs.current with
  | none => .error .panic
  | some c =>
    match currentPath fs.heap fs.root fuel c ((deref fs.heap c).name ++ ":") with
    | .error f => .error f
    | .ok (current, current_path) =>
      if (deref fs.heap current).subs.length = 0 then
        .ok ["Directory of " ++ current_path, "No subdirectories"]
      else
        match (deref fs.heap c).subs with
        | [] => .error .panic
        | first :: rest =>
          match dirLoop fs.heap rest [(deref fs.heap first).name] 0 with
          | .error f => .error f
          | .ok subdirs => .ok (("Directory of " ++ current_path) :: subdirs)

/-- The call `strings.Replace(s, " ", "│", 1)`: the first space of `s`
replaced, on the characters of `s`. -/
def replaceFirstSpace : List Char → List Char
  | [] => []
  | ch :: cs => if ch = ' ' then '│' :: cs else ch :: replaceFirstSpace cs

/-- The loop `for i, subdir := range current.subs` of `getTreeBranches`, on
the subdirectories left, `i` being the index of the first of them and `n`
the number `len(current.subs)`; `recurse` is the recursive call. -/
def treeLoop (heap : List dir) (recurse : Nat → Except Fault (List String)) (n : Nat) :
    List Nat → Nat → List String → Except Fault (List String)
  | [], _, branches => .ok branches
  | subdir :: rest, i, branches =>
    let line := (if i = n - 1 then "└── " else "├── ") ++ (deref heap subdir).name
    match recurse subdir with
    | .error f => .error f
    | .ok subBranches =>
      treeLoop heap recurse n rest (i + 1)
        (branches ++ [line] ++ subBranches.map (fun subBranch =>
          if i = n - 1 then "    " ++ subBranch
          else String.mk (replaceFirstSpace ("    " ++ subBranch).data)))

/-- The function `getTreeBranches`, with the recursion depth bounded by
`fuel`; the argument `level` of the source is not used by it. -/
def getTreeBranches (heap : List dir) : Nat → Nat → Except Fault (List String)
  | 0, _ => .error .outOfFuel
  | fuel + 1, current =>
    treeLoop heap (getTreeBranches heap fuel) (deref heap current).subs.length
      (deref heap current).subs 0 []

/-- The function `handleTree`. -/
def handleTree (fuel : Nat) (fs : filesystem) : Except Fault (List String) :=
  match fs.current with
  | none => .error .panic
  | some c =>
    match currentPath fs.heap fs.root fuel c ((deref fs.heap c).name ++ ":") with
    | .error f => .error f
    | .ok (_, current_path) =>
      match getTreeBranches fs.heap fuel c with
      | .error f => .error f
      | .ok branches => .ok (["Tree of " ++ current_path, "."] ++ branches)

/-- An example state, reached by `mkdir sub1` and `cd sub1`: the current
directory is the empty `sub1` under the root. -/
def emptySubdirState : filesystem :=
  { heap := [{ name := "root", parent := none, subs := [1] },
             { name := "sub1", parent := some 0, subs := [] }]
    current := some 1
    root := some 0 }

/-- The chain of directories from the `n`-th ancestor of `p` down to `p`. -/
def chain (heap : List dir) : Nat → Nat → List Nat
  | 0, p => [p]
  | n + 1, p =>
    match (deref heap p).parent with
    | none => [p]
    | some q => chain heap n q ++ [p]

/-- The path of the specification for the directory `p` at depth `n`: the
names of the directories on the chain from its `n`-th ancestor down to `p`,
joined by a single backslash. -/
def pathOf (heap : List dir) (n p : Nat) : String :=
  "\\".intercalate ((chain heap n p).map (fun q => (deref heap q).name))

/-- The lines that the loop of `handleDir` builds, told without indices:
`done` are the lines completed, `line` is the line being filled and the list
holds the names still to place. It is compared with `dirLoop` in
`dirLoop_eq_packLines`. -/
def packLines : List String → List String → String → List String
  | [], done, line => done ++ [line]
  | name :: names, done, line =>
    if len line + len name + (8 - len line % 8) > 80 then
      packLines names (done ++ [line]) name
    else
      packLines names done (padRight (8 - len line % 8 + len line) line ++ name)

/-- An example state: the root holds `é` (two bytes) and a directory whose
name is `ê` followed by seventy `a` (72 bytes), and is the current
directory. -/
def wideNamesState : filesystem :=
  { heap := [{ name := "root", parent := none, subs := [1, 2] },
             { name := "é", parent := some 0, subs := [] },
             { name := "ê" ++ String.mk (List.replicate 70 'a'), parent := some 0, subs := [] }]
    current := some 0
    root := some 0 }

/-- The layout of one line of the listing of `dir`, as the specification
words it: `LineOf names line` when `line` holds the `names` from left to
right, the first at offset 0, each further one after between 1 and 8 spaces
that bring its byte offset to a multiple of 8, and nothing after the last
name. -/
inductive LineOf : List String → String → Prop where
  | single (name : String) : LineOf [name] name
  | snoc {names : List String} {line : String} (p : Nat) (name : String) :
      LineOf names line → 1 ≤ p → p ≤ 8 → (len line + p) % 8 = 0 →
      LineOf (names ++ [name]) (line ++ String.mk (List.replicate p ' ') ++ name)

/-- The part of the layout of a line of `dir` that holds for names of any
characters: `SpacedLine names line` when `line` holds the `names` from left
to right, the first at offset 0, each further one after at least one space,
and nothing after the last name. -/
inductive SpacedLine : List String → String → Prop where
  | single (name : String) : SpacedLine [name] name
  | snoc {names : List String} {line : String} (p : Nat) (name : String) :
      SpacedLine names line → 1 ≤ p →
      SpacedLine (names ++ [name]) (line ++ String.mk (List.replicate p ' ') ++ name)

/-- An example state: the root holds `é` and `ê`, of two bytes each, and is
the current directory. -/
def accentsState : filesystem :=
  { heap := [{ name := "root", parent := none, subs := [1, 2] },
             { name := "é", parent := some 0, subs := [] },
             { name := "ê", parent := some 0, subs := [] }]
    current := some 0
    root := some 0 }

/-- The names `éa`, `éb`, ..., `éj`: ten names of three bytes each. -/
def tenAccentNames : List String :=
  ["éa", "éb", "éc", "éd", "ée", "éf", "ég", "éh", "éi", "éj"]

/-- An example state: the root holds the ten directories of
`tenAccentNames` and is the current directory. -/
def tenAccentsState : filesystem :=
  { heap := [{ name := "root", parent := none, subs := [1, 2, 3, 4, 5, 6, 7, 8, 9, 10] },
             { name := "éa", parent := some 0, subs := [] },
             { name := "éb", parent := some 0, subs := [] },
             { name := "éc", parent := some 0, subs := [] },
             { name := "éd", parent := some 0, subs := [] },
             { name := "ée", parent := some 0, subs := [] },
             { name := "éf", parent := some 0, subs := [] },
             { name := "ég", parent := some 0, subs := [] },
             { name := "éh", parent := some 0, subs := [] },
             { name := "éi", parent := some 0, subs := [] },
             { name := "éj", parent := some 0, subs := [] }]
    current := some 0
    root := some 0 }

/-- The rendering of a list of sibling directories as the specification
words it: `Rendered heap cs lines` when `lines` lists, for each directory `c`
of `cs` in order, the line of `c` (the branch `└── ` if `c` is the last one,
else `├── `, followed by the name of `c`), followed by every line of the
rendering of the children of `c`, prefixed with four spaces if `c` is the
last one and with `│` and three spaces otherwise. A rendering exists when the
tree under the directories is finite. -/
inductive Rendered (heap : List dir) : List Nat → List String → Prop where
  | nil : Rendered heap [] []
  | cons {c : Nat} {cs : List Nat} {sub rest : List String} :
      Rendered heap (deref heap c).subs sub → Rendered heap cs rest →
      Rendered heap (c :: cs)
        (((if cs = [] then "└── " else "├── ") ++ (deref heap c).name) ::
          sub.map (fun l => (if cs = [] then "    " else "│   ") ++ l) ++ rest)

/-- The directories of the trees under a list of sibling directories, in
pre-order: each directory, then the directories under its children, then the
directories of the siblings after it. -/
inductive PreOrder (heap : List dir) : List Nat → List Nat → Prop where
  | nil : PreOrder heap [] []
  | cons {c : Nat} {cs ds rest : List Nat} :
      PreOrder heap (deref heap c).subs ds → PreOrder heap cs rest →
      PreOrder heap (c :: cs) (c :: ds ++ rest)

/-- The error of command_handler.go. -/
inductive CmdError where
  | ErrWrongNumberOfArguments
  deriving DecidableEq, Repr

/-- The method `Error` of the error of command_handler.go. -/
def CmdError.Error : CmdError → String
  | .ErrWrongNumberOfArguments => "command has wrong number of arguments"

/-- The class `\s` of Go's `regexp`: tab, newline, form feed, carriage
return and space. -/
def isRegexSpace (c : Char) : Bool :=
  c = '\t' || c = '\n' || c = '\x0c' || c = '\r' || c = ' '

/-- The call `spaces.ReplaceAllString(input, " ")` for the expression `\s+`,
on the characters of the input: every maximal run of characters of the class
`\s` is replaced by one space. `inRun` tells that the character before the
ones left belongs to such a run. -/
def replaceAllSpaces : Bool → List Char → List Char
  | _, [] => []
  | inRun, c :: cs =>
    if isRegexSpace c then
      if inRun then replaceAllSpaces true cs else ' ' :: replaceAllSpaces true cs
    else c :: replaceAllSpaces false cs

/-- The two lines `s := spaces.ReplaceAllString(input, " ")` and
`chunks := strings.Split(s, " ")` that `getCommand`, `getArgs` and
`getCommandEcho` start with. -/
def chunksOf (input : String) : List String :=
  (splitChars ' ' (replaceAllSpaces false input.data)).map String.mk

/-- The function `getCommand`; `chunks[0]` panics on an empty slice. -/
def getCommand (input : String) : Except Fault String :=
  match chunksOf input with
  | [] => .error .panic
  | command :: _ => .ok command

/-- The UTF-8 encoding of a character: the bytes that a Go string holds for
it. -/
def utf8Bytes (c : Char) : List Nat :=
  if c.val ≤ 0x7F then [c.toNat]
  else if c.val ≤ 0x7FF then [0xC0 + c.toNat / 0x40, 0x80 + c.toNat % 0x40]
  else if c.val ≤ 0xFFFF then
    [0xE0 + c.toNat / 0x1000, 0x80 + c.toNat / 0x40 % 0x40, 0x80 + c.toNat % 0x40]
  else
    [0xF0 + c.toNat / 0x40000, 0x80 + c.toNat / 0x1000 % 0x40,
      0x80 + c.toNat / 0x40 % 0x40, 0x80 + c.toNat % 0x40]

/-- The bytes of a Go string that holds the text `cs`. -/
def bytesOf : List Char → List Nat
  | [] => []
  | c :: cs => utf8Bytes c ++ bytesOf cs

/-- The slice `s[n:]` of a string of text, `n` counting bytes: a panic when
the string has less than `n` bytes; else the bytes from the offset `n` on,
given as the last bytes of the character that the offset cuts (none when the
offset falls between two characters), then the characters after them. -/
def sliceFrom : List Char → Nat → Except Fault (List Nat × List Char)
  | cs, 0 => .ok ([], cs)
  | [], _ + 1 => .error .panic
  | c :: cs, n + 1 =>
    if c.utf8Size ≤ n + 1 then sliceFrom cs (n + 1 - c.utf8Size)
    else .ok ((utf8Bytes c).drop (n + 1), cs)

/-- The function `unicode.IsSpace` of Go's library: the characters with the
Unicode property White_Space. -/
def isSpace (c : Char) : Bool :=
  (9 ≤ c.toNat && c.toNat ≤ 13) || c.toNat = 0x20 || c.toNat = 0x85 || c.toNat = 0xA0 ||
    c.toNat = 0x1680 || (0x2000 ≤ c.toNat && c.toNat ≤ 0x200A) || c.toNat = 0x2028 ||
    c.toNat = 0x2029 || c.toNat = 0x202F || c.toNat = 0x205F || c.toNat = 0x3000

/-- The function `strings.TrimSpace` of Go's library, on the characters of
the string: the characters of `unicode.IsSpace` are dropped at both ends. -/
def TrimSpace (s : List Char) : List Char :=
  ((s.dropWhile isSpace).reverse.dropWhile isSpace).reverse

/-- The function `strings.TrimSpace` of Go's library, on a string given as
the last bytes `stray` of a cut character, then the text `text` (the result
of `sliceFrom`). A byte that is no start of a character decodes as the
invalid character U+FFFD, of width one byte, which is no space: with stray
bytes nothing is dropped on the left, and on the right the spaces at the end
of the text are dropped, not the stray bytes. -/
def TrimSpaceCut : List Nat → List Char → List Nat × List Char
  | [], text => ([], TrimSpace text)
  | b :: stray, text => (b :: stray, (text.reverse.dropWhile isSpace).reverse)

/-- The function `getArg`: the argument and the error. The argument is a Go
string that need not be text: it is given as the stray bytes it starts with
(the last bytes of a character that `input[8:]` has cut; none when the byte
offset 8 falls between two characters) and the text after them. -/
def getArg (input : String) : Except Fault (List Nat × String × Option CmdError) :=
  if len input < 9 then .ok ([], "", some .ErrWrongNumberOfArguments)
  else
    match sliceFrom input.data 8 with
    | .error f => .error f
    | .ok (stray, rest) =>
      let arg := TrimSpaceCut stray rest
      if arg.1.length + len (String.mk arg.2) = 0 then
        .ok ([], "", some .ErrWrongNumberOfArguments)
      else .ok (arg.1, String.mk arg.2, none)

/-- The function `getArgs`: the two arguments and the error. -/
def getArgs (input : String) : Except Fault (String × String × Option CmdError) :=
  match chunksOf input with
  | [_, arg1, arg2] => .ok (arg1, arg2, none)
  | _ => .ok ("", "", some .ErrWrongNumberOfArguments)

/-- The function `handleMkdir`: the new filesystem and the output lines. -/
def handleMkdir (fs : filesystem) (arg : String) : Option (filesystem × List String) :=
  match AddSubdir fs arg with
  | none => none
  | some (fs1, some err) => some (fs1, [err.Error])
  | some (fs1, none) => some (fs1, [])

/-- The function `handleUp`: the new filesystem and the output lines. -/
def handleUp (fs : filesystem) : Option (filesystem × List String) :=
  match Up fs with
  | none => none
  | some (fs1, some err) => some (fs1, [err.Error])
  | some (fs1, none) => some (fs1, [])

/-- The function `handleCd`: the new filesystem and the output lines. -/
def handleCd (fs : filesystem) (arg : String) : Option (filesystem × List String) :=
  match Cd fs arg with
  | none => none
  | some (fs1, some err) => some (fs1, [err.Error])
  | some (fs1, none) => some (fs1, [])

/-- The function `handleCd` for an argument that is no text: the loop of `Cd`
over `fs.current.subs` finds no subdirectory of that name, the names of the
directories of the embedding being text, and `Cd` returns
`ErrSubdirDoesNotExist`. -/
def handleCdNoText (fs : filesystem) : Option (filesystem × List String) :=
  match fs.current with
  | none => none
  | some _ => some (fs, [FsError.ErrSubdirDoesNotExist.Error])

/-- A panic of a filesystem method, as a fault of the command. -/
def orPanic {α : Type} : Option α → Except Fault α
  | none => .error .panic
  | some a => .ok a

/-- The function `handleCommand`: the new filesystem and the output lines,
or the fault. The handlers `dir` and `tree` only read the filesystem; a panic
on a wrong number of arguments or on an unknown command is raised before any
method of the filesystem is called. For `mkdir` with an argument that is no
text (it starts with stray bytes) the code goes on and creates a directory of
that name, which the filesystem of the embedding cannot hold: `notText`. -/
def handleCommand (fuel : Nat) (input : String) (fs : filesystem) :
    Except Fault (filesystem × List String) :=
  match getCommand input with
  | .error f => .error f
  | .ok command =>
    if command = "dir" then
      match handleDir fuel fs with
      | .error f => .error f
      | .ok lines => .ok (fs, lines)
    else if command = "mkdir" then
      match getArg input with
      | .error f => .error f
      | .ok (_, _, some _) => .error .panic
      | .ok ([], arg, none) => orPanic (handleMkdir fs arg)
      | .ok (_ :: _, _, none) => .error .notText
    else if command = "up" then orPanic (handleUp fs)
    else if command = "cd" then
      match getArg input with
      | .error f => .error f
      | .ok (_, _, some _) => .error .panic
      | .ok ([], arg, none) => orPanic (handleCd fs arg)
      | .ok (_ :: _, _, none) => orPanic (handleCdNoText fs)
    else if command = "tree" then
      match handleTree fuel fs with
      | .error f => .error f
      | .ok lines => .ok (fs, lines)
    else if command = "mv" then
      match getArgs input with
      | .error f => .error f
      | .ok (_, _, some _) => .error .panic
      | .ok (arg1, arg2, none) => orPanic (handleMv fs arg1 arg2)
    else if command = "" then .ok (fs, [])
    else .error .panic

/-- The names of the commands that the specification lists. -/
def commands : List String := ["dir", "mkdir", "up", "cd", "tree", "mv"]

/-- The characters of an input line before its first whitespace character,
for `ws` the notion of a whitespace character; for the class `\s` it is the
chunk that `getCommand` returns (`getCommand_eq`). It is empty when the line
starts with whitespace; for a line that does not, it is the first
whitespace-delimited token of the line (`tokens_head`). -/
def firstKeyword (ws : Char → Bool) (input : String) : String :=
  String.mk (input.data.takeWhile (fun c => !ws c))

/-- The pieces of a line cut at every whitespace character, for `ws` the
notion of a whitespace character (specification side). -/
def splitBy (ws : Char → Bool) : List Char → List (List Char)
  | [] => [[]]
  | c :: cs =>
    if ws c then [] :: splitBy ws cs
    else
      match splitBy ws cs with
      | [] => [[c]]
      | t :: ts => (c :: t) :: ts

/-- The whitespace-delimited tokens of a line, as the specification has
them: the pieces between whitespace characters that are not empty. -/
def tokens (ws : Char → Bool) (input : String) : List String :=
  ((splitBy ws input.data).filter (fun t => !t.isEmpty)).map String.mk

/-- The line starts with a whitespace character (specification side). -/
def startsWithSpace (ws : Char → Bool) : List Char → Bool
  | [] => false
  | c :: _ => ws c

/-- The line ends with a whitespace character (specification side). -/
def endsWithSpace (ws : Char → Bool) : List Char → Bool
  | [] => false
  | [c] => ws c
  | _ :: c :: cs => endsWithSpace ws (c :: cs)

/-- The pieces without the empty ones, the last piece being kept as it is
(used to relate the chunks of the code to the pieces of `splitBy`). -/
def squeeze : List (List Char) → List (List Char)
  | [] => []
  | [p] => [p]
  | p :: q :: rest => if p.isEmpty then squeeze (q :: rest) else p :: squeeze (q :: rest)

/-- The pieces without the empty ones, the first and the last piece being
kept as they are. -/
def keepFirst : List (List Char) → List (List Char)
  | [] => []
  | p :: rest => p :: squeeze rest

/-- The function `getCommandEcho`; `chunks[0]` panics on an empty slice. The
calls `fmt.Sprintf("%-17s%s", echo, chunks[1])` and
`fmt.Sprintf("%-25s%s", echo, chunks[2])` pad `echo` as `padRight` does. -/
def getCommandEcho (input : String) : Except Fault String :=
  if len input = 0 then .ok ""
  else
    match chunksOf input with
    | [] => .error .panic
    | command :: args =>
      let echo := "Command: " ++ command
      let echo :=
        match args with
        | [] => echo
        | arg1 :: _ => padRight 17 echo ++ arg1
      let echo :=
        match args with
        | _ :: arg2 :: _ => padRight 25 echo ++ arg2
        | _ => echo
      .ok echo

/-! ## Reading and writing the heap -/

theorem length_store (heap : List dir) (p : Nat) (d : dir) :
    (store heap p d).length = heap.length := by
  simp [store]

theorem deref_store (heap : List dir) (p : Nat) (d : dir) (q : Nat) :
    deref (store heap p d) q = if q = p ∧ p < heap.length then d else deref heap q := by
  unfold deref store
  rw [List.getD_eq_getElem?_getD, List.getD_eq_getElem?_getD, List.getElem?_set]
  by_cases hqp : p = q
  · subst hqp
    by_cases hlt : p < heap.length
    · simp [hlt]
    · simp [hlt, List.getElem?_eq_none (Nat.le_of_not_lt hlt)]
  · have hqp2 : ¬ q = p := fun h => hqp h.symm
    simp [hqp, hqp2]

theorem deref_store_same (heap : List dir) (p : Nat) (d : dir) (h : p < heap.length) :
    deref (store heap p d) p = d := by
  simp [deref_store, h]

theorem deref_store_other (heap : List dir) (p : Nat) (d : dir) (q : Nat) (h : q ≠ p) :
    deref (store heap p d) q = deref heap q := by
  simp [deref_store, h]

theorem deref_of_length_le (heap : List dir) (q : Nat) (h : heap.length ≤ q) :
    deref heap q = { name := "", parent := none, subs := [] } := by
  unfold deref
  rw [List.getD_eq_getElem?_getD, List.getElem?_eq_none h]
  rfl

theorem deref_append_of_lt (heap l : List dir) (q : Nat) (h : q < heap.length) :
    deref (heap ++ l) q = deref heap q := by
  unfold deref
  rw [List.getD_eq_getElem?_getD, List.getD_eq_getElem?_getD, List.getElem?_append_left h]

theorem deref_append_length (heap : List dir) (d : dir) :
    deref (heap ++ [d]) heap.length = d := by
  unfold deref
  rw [List.getD_eq_getElem?_getD]
  simp

/-- A directory with a subdirectory, or with a parent, is an allocated one. -/
theorem lt_length_of_subs_ne_nil (heap : List dir) (p : Nat) (h : (deref heap p).subs ≠ []) :
    p < heap.length := by
  by_contra hlt
  rw [deref_of_length_le heap p (Nat.le_of_not_lt hlt)] at h
  exact h rfl

/-! ## Looking a name up among subdirectories -/

theorem findSub_some {heap : List dir} {name : String} {subs : List Nat} {q : Nat}
    (h : findSub heap name subs = some q) : q ∈ subs ∧ (deref heap q).name = name := by
  induction subs with
  | nil => simp [findSub] at h
  | cons a l ih =>
    unfold findSub at h
    split_ifs at h with ha
    · cases h
      exact ⟨List.mem_cons_self _ _, ha⟩
    · exact ⟨List.mem_cons_of_mem _ (ih h).1, (ih h).2⟩

theorem findSub_eq_none_iff {heap : List dir} {name : String} {subs : List Nat} :
    findSub heap name subs = none ↔ ∀ q ∈ subs, (deref heap q).name ≠ name := by
  induction subs with
  | nil => simp [findSub]
  | cons a l ih =>
    unfold findSub
    split_ifs with ha
    · simp [ha]
    · simp [ha, ih]

theorem findSub_isSome_iff {heap : List dir} {name : String} {subs : List Nat} :
    (∃ q, findSub heap name subs = some q) ↔ ∃ q ∈ subs, (deref heap q).name = name := by
  constructor
  · rintro ⟨q, hq⟩
    exact ⟨q, findSub_some hq⟩
  · rintro ⟨q, hq, hn⟩
    cases hf : findSub heap name subs with
    | none => exact absurd hn (findSub_eq_none_iff.mp hf q hq)
    | some s => exact ⟨s, rfl⟩

/-- The result of a lookup only depends on the names of the directories
looked at. -/
theorem findSub_congr {heap1 heap2 : List dir} (name : String) (subs : List Nat)
    (h : ∀ q ∈ subs, (deref heap1 q).name = (deref heap2 q).name) :
    findSub heap1 name subs = findSub heap2 name subs := by
  induction subs with
  | nil => rfl
  | cons a l ih =>
    unfold findSub
    rw [h a (List.mem_cons_self _ _), ih (fun q hq => h q (List.mem_cons_of_mem _ hq))]

/-! ## Sorting by name -/

theorem strLess_irrefl (s : String) : ¬ strLess s s :=
  lt_irrefl s.data

theorem nameLess_irrefl (heap : List dir) (a : Nat) : ¬ nameLess heap a a :=
  strLess_irrefl _

theorem nameLess_trans {heap : List dir} {a b c : Nat}
    (hab : nameLess heap a b) (hbc : nameLess heap b c) : nameLess heap a c :=
  lt_trans hab hbc

theorem nameLess_asymm {heap : List dir} {a b : Nat}
    (hab : nameLess heap a b) : ¬ nameLess heap b a :=
  lt_asymm hab

theorem nameLess_of_not_of_ne {heap : List dir} {a b : Nat}
    (hab : ¬ nameLess heap a b) (hne : (deref heap a).name ≠ (deref heap b).name) :
    nameLess heap b a := by
  unfold nameLess strLess at *
  rcases lt_trichotomy (deref heap a).name.data (deref heap b).name.data with h | h | h
  · exact absurd h hab
  · exact absurd (String.ext h) hne
  · exact h

theorem nameLess_ne {heap : List dir} {a b : Nat} (hab : nameLess heap a b) :
    (deref heap a).name ≠ (deref heap b).name := by
  intro h
  unfold nameLess at hab
  rw [h] at hab
  exact strLess_irrefl _ hab

/-- Comparing by name only depends on the names. -/
theorem nameLess_congr {heap1 heap2 : List dir} {a b : Nat}
    (ha : (deref heap1 a).name = (deref heap2 a).name)
    (hb : (deref heap1 b).name = (deref heap2 b).name) :
    nameLess heap1 a b ↔ nameLess heap2 a b := by
  unfold nameLess
  rw [ha, hb]

theorem sorted_congr {heap1 heap2 : List dir} {l : List Nat}
    (h : ∀ q ∈ l, (deref heap1 q).name = (deref heap2 q).name)
    (hs : List.Sorted (nameLess heap1) l) : List.Sorted (nameLess heap2) l := by
  unfold List.Sorted at *
  exact hs.imp_of_mem (fun ha hb hab => (nameLess_congr (h _ ha) (h _ hb)).mp hab)

theorem orderedInsert_congr {heap1 heap2 : List dir} (a : Nat) (l : List Nat)
    (ha : (deref heap1 a).name = (deref heap2 a).name)
    (h : ∀ q ∈ l, (deref heap1 q).name = (deref heap2 q).name) :
    l.orderedInsert (nameLess heap1) a = l.orderedInsert (nameLess heap2) a := by
  induction l with
  | nil => rfl
  | cons b l ih =>
    have hb := h b (List.mem_cons_self _ _)
    have ih2 := ih (fun q hq => h q (List.mem_cons_of_mem _ hq))
    simp only [List.orderedInsert]
    by_cases hab : nameLess heap1 a b
    · rw [if_pos hab, if_pos ((nameLess_congr ha hb).mp hab)]
    · rw [if_neg hab, if_neg (fun h2 => hab ((nameLess_congr ha hb).mpr h2)), ih2]

theorem sortSlice_congr {heap1 heap2 : List dir} (l : List Nat)
    (h : ∀ q ∈ l, (deref heap1 q).name = (deref heap2 q).name) :
    sortSlice heap1 l = sortSlice heap2 l := by
  unfold sortSlice
  induction l with
  | nil => rfl
  | cons a l ih =>
    have ih2 := ih (fun q hq => h q (List.mem_cons_of_mem _ hq))
    simp only [List.insertionSort]
    rw [ih2]
    apply orderedInsert_congr a _ (h a (List.mem_cons_self _ _))
    intro q hq
    exact h q (List.mem_cons_of_mem _ ((List.mem_insertionSort _).mp hq))

theorem perm_sortSlice (heap : List dir) (l : List Nat) : (sortSlice heap l).Perm l :=
  List.perm_insertionSort _ l

theorem mem_sortSlice {heap : List dir} {l : List Nat} {x : Nat} :
    x ∈ sortSlice heap l ↔ x ∈ l :=
  (perm_sortSlice heap l).mem_iff

/-- Inserting a directory whose name is new keeps a slice strictly sorted. -/
theorem sorted_orderedInsert {heap : List dir} (a : Nat) (l : List Nat)
    (hs : List.Sorted (nameLess heap) l)
    (hne : ∀ b ∈ l, (deref heap b).name ≠ (deref heap a).name) :
    List.Sorted (nameLess heap) (l.orderedInsert (nameLess heap) a) := by
  induction l with
  | nil => simp
  | cons b l ih =>
    have hbl := List.sorted_cons.mp hs
    simp only [List.orderedInsert]
    by_cases hab : nameLess heap a b
    · rw [if_pos hab]
      refine List.sorted_cons.mpr ⟨?_, hs⟩
      intro c hc
      rcases List.mem_cons.mp hc with rfl | hc
      · exact hab
      · exact nameLess_trans hab (hbl.1 c hc)
    · rw [if_neg hab]
      have hba : nameLess heap b a :=
        nameLess_of_not_of_ne hab (fun h => hne b (List.mem_cons_self _ _) h.symm)
      refine List.sorted_cons.mpr ⟨?_, ih hbl.2 (fun c hc => hne c (List.mem_cons_of_mem _ hc))⟩
      intro c hc
      rcases (List.mem_orderedInsert _).mp hc with rfl | hc
      · exact hba
      · exact hbl.1 c hc

/-- On pairwise distinct names the sort returns a strictly sorted slice. -/
theorem sorted_sortSlice {heap : List dir} (l : List Nat)
    (hnd : l.Pairwise (fun a b => (deref heap a).name ≠ (deref heap b).name)) :
    List.Sorted (nameLess heap) (sortSlice heap l) := by
  unfold sortSlice
  induction l with
  | nil => simp
  | cons a l ih =>
    have h := List.pairwise_cons.mp hnd
    simp only [List.insertionSort]
    apply sorted_orderedInsert a _ (ih h.2)
    intro b hb
    exact fun hba => h.1 b ((List.mem_insertionSort _).mp hb) hba.symm

/-- Two strictly sorted slices with the same elements are equal. -/
theorem eq_of_perm_of_sorted_nameLess {heap : List dir} {l1 l2 : List Nat}
    (hp : l1.Perm l2) (h1 : List.Sorted (nameLess heap) l1)
    (h2 : List.Sorted (nameLess heap) l2) : l1 = l2 :=
  List.eq_of_perm_of_sorted hp h1 h2

theorem pairwise_ne_of_sorted {heap : List dir} {l : List Nat}
    (hs : List.Sorted (nameLess heap) l) :
    l.Pairwise (fun a b => (deref heap a).name ≠ (deref heap b).name) := by
  unfold List.Sorted at hs
  exact hs.imp (fun hab => nameLess_ne hab)

theorem nodup_of_sorted {heap : List dir} {l : List Nat}
    (hs : List.Sorted (nameLess heap) l) : l.Nodup :=
  List.Sorted.nodup hs

/-- In a strictly sorted slice a name determines the subdirectory. -/
theorem eq_of_sorted_of_name_eq {heap : List dir} {l : List Nat} {a b : Nat}
    (hs : List.Sorted (nameLess heap) l) (ha : a ∈ l) (hb : b ∈ l)
    (h : (deref heap a).name = (deref heap b).name) : a = b := by
  induction l with
  | nil => cases ha
  | cons c l ih =>
    have hcl := List.sorted_cons.mp hs
    rcases List.mem_cons.mp ha with rfl | ha2
    · rcases List.mem_cons.mp hb with rfl | hb2
      · rfl
      · exact absurd h (nameLess_ne (hcl.1 b hb2))
    · rcases List.mem_cons.mp hb with rfl | hb2
      · exact absurd h.symm (nameLess_ne (hcl.1 a ha2))
      · exact ih hcl.2 ha2 hb2

/-! ## The removal loop of `moveDirectory` -/

/-- While no cell to come holds `dirToMove`, the loop changes nothing. -/
theorem removeLoop_of_forall_ne (d : Nat) (k : Nat) : ∀ (i : Nat) (arr : List Nat) (len : Nat),
    (∀ j, i ≤ j → j < i + k → arr.getD j 0 ≠ d) →
    removeLoop d k i arr len = some (arr.take len) := by
  induction k with
  | zero => intro i arr len _; rfl
  | succ k ih =>
    intro i arr len h
    unfold removeLoop
    rw [if_neg (h i (Nat.le_refl i) (by omega))]
    exact ih (i + 1) arr len (fun j h1 h2 => h j (by omega) (by omega))

theorem removeLoop_scan (d : Nat) : ∀ (rest scanned : List Nat),
    d ∉ scanned → rest.Nodup →
    removeLoop d rest.length scanned.length (scanned ++ rest) (scanned ++ rest).length
      = some ((scanned ++ rest).erase d) := by
  intro rest
  induction rest with
  | nil =>
    intro scanned hs _
    simp [removeLoop, List.erase_of_not_mem hs]
  | cons a rest ih =>
    intro scanned hs hnd
    have hnd2 := List.nodup_cons.mp hnd
    have hget : (scanned ++ a :: rest).getD scanned.length 0 = a := by
      rw [List.getD_eq_getElem?_getD, List.getElem?_append_right (Nat.le_refl _)]
      simp
    simp only [List.length_cons]
    unfold removeLoop
    rw [hget]
    by_cases had : a = d
    · subst had
      rw [if_pos rfl, if_pos (by simp)]
      have h1 : (scanned ++ a :: rest).take scanned.length = scanned := by simp
      have h2 : (scanned ++ a :: rest).drop (scanned.length + 1) = rest := by
        rw [List.drop_append_eq_append_drop]
        simp
      have h3 : (scanned ++ a :: rest).length - (scanned.length + 1) = rest.length := by
        simp only [List.length_append, List.length_cons]
        omega
      have h4 : (scanned ++ a :: rest).drop ((scanned ++ a :: rest).length - 1)
          = (a :: rest).drop rest.length := by
        rw [List.drop_append_eq_append_drop]
        have e1 : (scanned ++ a :: rest).length - 1 = scanned.length + rest.length := by
          simp
        have e2 : scanned.length + rest.length - scanned.length = rest.length := by omega
        rw [e1, List.drop_of_length_le (Nat.le_add_right _ _), e2]
        simp
      rw [h1, h2, h3, h4, List.take_length]
      rw [removeLoop_of_forall_ne]
      · have e3 : (scanned ++ a :: rest).length - 1 = (scanned ++ rest).length := by simp
        rw [e3, List.append_assoc, ← List.append_assoc scanned rest, List.take_left]
        rw [List.erase_append_right _ hs, List.erase_cons_head]
      · intro j hj1 hj2
        cases rest with
        | nil =>
          simp only [List.length_nil] at hj2
          omega
        | cons b r =>
          have hsub : ∀ x ∈ (b :: r) ++ (a :: b :: r).drop (b :: r).length, x ≠ a := by
            intro x hx hxa
            subst hxa
            rcases List.mem_append.mp hx with hx | hx
            · exact hnd2.1 hx
            · have : (x :: b :: r).drop (b :: r).length = (b :: r).drop r.length := by simp
              rw [this] at hx
              exact hnd2.1 (List.mem_of_mem_drop hx)
          rw [List.append_assoc, List.getD_eq_getElem?_getD,
            List.getElem?_append_right (by omega)]
          have hlt : j - scanned.length < ((b :: r) ++ (a :: b :: r).drop (b :: r).length).length := by
            simp at hj2 ⊢
            omega
          rw [List.getElem?_eq_getElem hlt]
          exact hsub _ (List.getElem_mem _)
    · rw [if_neg had]
      have hs2 : d ∉ scanned ++ [a] := by
        simp only [List.mem_append, List.mem_singleton, not_or]
        exact ⟨hs, fun h => had h.symm⟩
      have := ih (scanned ++ [a]) hs2 hnd2.2
      simp only [List.length_append, List.length_singleton, List.append_assoc,
        List.singleton_append, List.length_cons] at this ⊢
      exact this

/-- On a slice without repetition the loop of `moveDirectory` erases
`dirToMove` and never slices out of bounds. -/
theorem removeLoop_eq_erase (d : Nat) (subs : List Nat) (h : subs.Nodup) :
    removeLoop d subs.length 0 subs subs.length = some (subs.erase d) := by
  have := removeLoop_scan d subs [] (List.not_mem_nil d) h
  simpa using this

/-! ## What `moveDirectory` does -/

theorem moveDirectory_eq (heap : List dir) (X D P : Nat)
    (hP : (deref heap X).parent = some P) (hnd : (deref heap P).subs.Nodup)
    (hXlt : X < heap.length) (hPlt : P < heap.length) (hDlt : D < heap.length) :
    ∃ heap1, moveDirectory heap X D = some heap1 ∧ heap1.length = heap.length ∧
      ∀ q, deref heap1 q = movedDir heap X D P q := by
  unfold moveDirectory
  rw [hP]
  simp only
  rw [removeLoop_eq_erase X _ hnd]
  simp only
  refine ⟨_, rfl, by simp [length_store], ?_⟩
  intro q
  rw [@sortSlice_congr _ heap]
  · unfold movedDir
    simp only [deref_store, length_store, hPlt, hXlt, hDlt, and_true]
    by_cases hqD : q = D <;> by_cases hqP : q = P <;> by_cases hqX : q = X <;>
      by_cases hDP : D = P <;> by_cases hDX : D = X <;> by_cases hXP : X = P <;>
      simp_all
  · intro a _
    simp only [deref_store, length_store, hPlt, hXlt, hDlt, and_true]
    split_ifs <;> simp_all

theorem MoveReady.parentX {heap : List dir} {X D P : Nat} (h : MoveReady heap X D P) :
    X < heap.length ∧ (deref heap X).parent = some P :=
  h.child P X h.memP

theorem MoveReady.not_mem_of_ne {heap : List dir} {X D P : Nat} (h : MoveReady heap X D P)
    {p : Nat} (hp : p ≠ P) : X ∉ (deref heap p).subs := by
  intro hX
  have h1 := (h.child p X hX).2
  rw [h.parentX.2] at h1
  exact hp (Option.some.inj h1).symm

/-- The slice that `X` is appended to: the subdirectories of the destination
without `X`. -/
theorem MoveReady.destSubs {heap : List dir} {X D P : Nat} (h : MoveReady heap X D P) :
    let L := if D = P then (deref heap P).subs.erase X else (deref heap D).subs
    X ∉ L ∧ List.Sorted (nameLess heap) L ∧ (∀ q, q ∈ L ↔ q ∈ (deref heap D).subs ∧ q ≠ X) := by
  intro L
  by_cases hDP : D = P
  · have hL : L = (deref heap P).subs.erase X := if_pos hDP
    rw [hL]
    refine ⟨fun hm => (h.nodupP.mem_erase_iff.mp hm).1 rfl, h.sortedP, ?_⟩
    intro q
    rw [h.nodupP.mem_erase_iff, hDP]
    exact And.comm
  · have hL : L = (deref heap D).subs := if_neg hDP
    rw [hL]
    refine ⟨h.not_mem_of_ne hDP, h.sorted D hDP, ?_⟩
    intro q
    constructor
    · intro hq
      exact ⟨hq, fun hqX => h.not_mem_of_ne hDP (hqX ▸ hq)⟩
    · exact fun hq => hq.1

theorem moveDirectory_heapInv {heap : List dir} {X D P : Nat} (h : MoveReady heap X D P) :
    ∃ heap1, moveDirectory heap X D = some heap1 ∧ heap1.length = heap.length ∧
      (∀ q, deref heap1 q = movedDir heap X D P q) ∧ HeapInv heap1 := by
  have hPlt : P < heap.length := lt_length_of_subs_ne_nil heap P (List.ne_nil_of_mem h.memP)
  obtain ⟨heap1, hmv, hlen, hderef⟩ :=
    moveDirectory_eq heap X D P h.parentX.2 h.nodupP h.parentX.1 hPlt h.dest
  refine ⟨heap1, hmv, hlen, hderef, ?_⟩
  obtain ⟨hXL, hLs, hLmem⟩ := h.destSubs
  have hname : ∀ q, (deref heap1 q).name = (deref heap q).name := by
    intro q
    rw [hderef q]
    rfl
  have hsubsD : (deref heap1 D).subs = sortSlice heap
      ((if D = P then (deref heap P).subs.erase X else (deref heap D).subs) ++ [X]) := by
    rw [hderef D]
    simp [movedDir]
  have hsubsP : D ≠ P → (deref heap1 P).subs = (deref heap P).subs.erase X := by
    intro hDP
    rw [hderef P]
    simp [movedDir, Ne.symm hDP]
  have hsubs : ∀ p, p ≠ D → p ≠ P → (deref heap1 p).subs = (deref heap p).subs := by
    intro p h1 h2
    rw [hderef p]
    simp [movedDir, h1, h2]
  have hparX : (deref heap1 X).parent = some D := by
    rw [hderef X]
    simp [movedDir]
  have hpar : ∀ q, q ≠ X → (deref heap1 q).parent = (deref heap q).parent := by
    intro q hq
    rw [hderef q]
    simp [movedDir, hq]
  have hmemD : ∀ q, q ∈ (deref heap1 D).subs ↔ (q ∈ (deref heap D).subs ∧ q ≠ X) ∨ q = X := by
    intro q
    rw [hsubsD, mem_sortSlice, List.mem_append, List.mem_singleton, hLmem q]
  constructor
  · -- every listed subdirectory points back
    intro p q hq
    rw [hlen]
    by_cases hpD : p = D
    · subst hpD
      rcases (hmemD q).mp hq with ⟨hq1, hq2⟩ | rfl
      · rw [hpar q hq2]
        exact h.child p q hq1
      · exact ⟨h.parentX.1, hparX⟩
    · by_cases hpP : p = P
      · subst hpP
        rw [hsubsP (Ne.symm hpD)] at hq
        have hq2 := h.nodupP.mem_erase_iff.mp hq
        rw [hpar q hq2.1]
        exact h.child p q hq2.2
      · rw [hsubs p hpD hpP] at hq
        have hqX : q ≠ X := fun hqX => h.not_mem_of_ne hpP (hqX ▸ hq)
        rw [hpar q hqX]
        exact h.child p q hq
  · -- every directory is listed by its parent
    intro q p hq
    by_cases hqX : q = X
    · subst hqX
      rw [hparX] at hq
      cases hq
      exact (hmemD q).mpr (Or.inr rfl)
    · rw [hpar q hqX] at hq
      have hq1 := h.parent q p hq
      by_cases hpD : p = D
      · subst hpD
        exact (hmemD q).mpr (Or.inl ⟨hq1, hqX⟩)
      · by_cases hpP : p = P
        · subst hpP
          rw [hsubsP (Ne.symm hpD)]
          exact h.nodupP.mem_erase_iff.mpr ⟨hqX, hq1⟩
        · rw [hsubs p hpD hpP]
          exact hq1
  · -- every slice is strictly sorted
    intro p
    apply @sorted_congr heap _ _ (fun q _ => (hname q).symm)
    by_cases hpD : p = D
    · subst hpD
      rw [hsubsD]
      apply sorted_sortSlice
      rw [List.pairwise_append]
      refine ⟨pairwise_ne_of_sorted hLs, List.pairwise_singleton _ _, ?_⟩
      intro a ha b hb
      rw [List.mem_singleton.mp hb]
      have ha2 := (hLmem a).mp ha
      exact h.fresh a ha2.1 ha2.2
    · by_cases hpP : p = P
      · subst hpP
        rw [hsubsP (Ne.symm hpD)]
        exact h.sortedP
      · rw [hsubs p hpD hpP]
        exact h.sorted p hpP

theorem sorted_erase {heap : List dir} {l : List Nat} (x : Nat)
    (hs : List.Sorted (nameLess heap) l) : List.Sorted (nameLess heap) (l.erase x) :=
  List.Pairwise.sublist (List.erase_sublist x l) hs

/-- A directory is a subdirectory of one directory only. -/
theorem HeapInv.parent_unique {heap : List dir} (h : HeapInv heap) {p1 p2 q : Nat}
    (h1 : q ∈ (deref heap p1).subs) (h2 : q ∈ (deref heap p2).subs) : p1 = p2 := by
  have e1 := (h.child p1 q h1).2
  rw [(h.child p2 q h2).2] at e1
  exact (Option.some.inj e1).symm

theorem HeapInv.lt_of_parent {heap : List dir} (h : HeapInv heap) {q p : Nat}
    (hq : (deref heap q).parent = some p) : p < heap.length :=
  lt_length_of_subs_ne_nil heap p (List.ne_nil_of_mem (h.parent q p hq))

/-- Without renaming: `Mv` calls `moveDirectory` on a heap that is ready. -/
theorem moveReady_of_heapInv {heap : List dir} {X D P : Nat} (h : HeapInv heap)
    (hX : X ∈ (deref heap P).subs) (hD : D < heap.length)
    (hfresh : ∀ q ∈ (deref heap D).subs, (deref heap q).name ≠ (deref heap X).name) :
    MoveReady heap X D P :=
  { child := h.child
    parent := h.parent
    sorted := fun p _ => h.sorted p
    sortedP := sorted_erase X (h.sorted P)
    nodupP := nodup_of_sorted (h.sorted P)
    memP := hX
    dest := hD
    fresh := fun q hq _ => hfresh q hq }

/-- With renaming: after `dirToMove.name = step`, for a `step` that names no
subdirectory of the destination, the heap is ready for `moveDirectory`. -/
theorem moveReady_rename {heap : List dir} {X D P : Nat} (step : String) (h : HeapInv heap)
    (hX : X ∈ (deref heap P).subs) (hD : D < heap.length)
    (hfresh : ∀ q ∈ (deref heap D).subs, (deref heap q).name ≠ step) :
    MoveReady (store heap X { deref heap X with name := step }) X D P := by
  have hXlt : X < heap.length := (h.child P X hX).1
  have hsubs : ∀ q, (deref (store heap X { deref heap X with name := step }) q).subs
      = (deref heap q).subs := by
    intro q
    rw [deref_store]
    split_ifs with hq
    · rw [hq.1]
    · rfl
  have hpar : ∀ q, (deref (store heap X { deref heap X with name := step }) q).parent
      = (deref heap q).parent := by
    intro q
    rw [deref_store]
    split_ifs with hq
    · rw [hq.1]
    · rfl
  have hname : ∀ q, q ≠ X → (deref heap q).name
      = (deref (store heap X { deref heap X with name := step }) q).name := by
    intro q hq
    rw [deref_store_other _ _ _ _ hq]
  have hnameX : (deref (store heap X { deref heap X with name := step }) X).name = step := by
    rw [deref_store_same _ _ _ hXlt]
  have hnd := nodup_of_sorted (h.sorted P)
  constructor
  · intro p q hq
    rw [hsubs] at hq
    rw [hpar, length_store]
    exact h.child p q hq
  · intro q p hq
    rw [hpar] at hq
    rw [hsubs]
    exact h.parent q p hq
  · intro p hp
    rw [hsubs]
    apply @sorted_congr heap _ _ _ (h.sorted p)
    intro q hq
    exact hname q (fun hqX => hp (h.parent_unique (hqX ▸ hq) hX))
  · rw [hsubs]
    apply @sorted_congr heap _ _ _ (sorted_erase X (h.sorted P))
    intro q hq
    exact hname q (hnd.mem_erase_iff.mp hq).1
  · rw [hsubs]
    exact hnd
  · rw [hsubs]
    exact hX
  · rw [length_store]
    exact hD
  · intro q hq hqX
    rw [hsubs] at hq
    rw [hnameX, ← hname q hqX]
    exact hfresh q hq

/-! ## The loop of `Mv` -/

/-- The loop of `Mv` is its outcome followed by the code after the loop. -/
theorem stepsLoop_eq (fs : filesystem) (X : Nat) (steps : List String) :
    ∀ d, stepsLoop fs X steps d = finishMv fs X (resolveSteps fs.heap steps d) := by
  induction steps with
  | nil => intro d; rfl
  | cons step rest ih =>
    intro d
    unfold stepsLoop resolveSteps
    by_cases h1 : step = "."
    · rw [if_pos h1, if_pos h1]
      exact ih d
    · rw [if_neg h1, if_neg h1]
      by_cases h2 : step = ".."
      · rw [if_pos h2, if_pos h2]
        cases hp : (deref fs.heap d).parent with
        | none => rfl
        | some p => exact ih p
      · rw [if_neg h2, if_neg h2]
        cases hf : findSub fs.heap step (deref fs.heap d).subs with
        | some s => exact ih s
        | none =>
          by_cases h3 : rest = []
          · simp only [h3, if_true]
            rfl
          · simp only [h3, if_false]
            rfl

theorem Mv_eq (fs : filesystem) (src dst : String) (c : Nat) (hc : fs.current = some c) :
    Mv fs src dst =
      match findSub fs.heap src (deref fs.heap c).subs with
      | none => some (fs, some .ErrSubdirDoesNotExist)
      | some X => finishMv fs X (resolveSteps fs.heap (Split dst) c) := by
  unfold Mv
  rw [hc]
  simp only
  cases findSub fs.heap src (deref fs.heap c).subs with
  | none => rfl
  | some X => exact stepsLoop_eq fs X (Split dst) c

/-- The directory the loop ends at is an allocated one, and in the renaming
branch the last step names none of its subdirectories. -/
theorem resolveSteps_spec {heap : List dir} (h : HeapInv heap) (steps : List String) :
    ∀ d, d < heap.length →
      (∀ D, resolveSteps heap steps d = .found D → D < heap.length) ∧
      (∀ D step, resolveSteps heap steps d = .rename D step →
        D < heap.length ∧ findSub heap step (deref heap D).subs = none) := by
  induction steps with
  | nil =>
    intro d hd
    constructor
    · intro D hD
      cases hD
      exact hd
    · intro D step hD
      cases hD
  | cons step rest ih =>
    intro d hd
    unfold resolveSteps
    by_cases h1 : step = "."
    · rw [if_pos h1]
      exact ih d hd
    · rw [if_neg h1]
      by_cases h2 : step = ".."
      · rw [if_pos h2]
        cases hp : (deref heap d).parent with
        | none =>
          refine ⟨fun D hD => ?_, fun D s hD => ?_⟩ <;> cases hD
        | some p => exact ih p (h.lt_of_parent hp)
      · rw [if_neg h2]
        cases hf : findSub heap step (deref heap d).subs with
        | some s => exact ih s (h.child d s (findSub_some hf).1).1
        | none =>
          by_cases h3 : rest = []
          · simp only [h3, if_true]
            constructor
            · intro D hD
              cases hD
            · intro D s hD
              cases hD
              exact ⟨hd, hf⟩
          · simp only [h3, if_false]
            refine ⟨fun D hD => ?_, fun D s hD => ?_⟩ <;> cases hD

/-! ## What `AddSubdir` does -/

theorem AddSubdir_eq (fs : filesystem) (subName : String) (c : Nat)
    (hc : fs.current = some c) (hlt : c < fs.heap.length)
    (hf : findSub fs.heap subName (deref fs.heap c).subs = none) :
    ∃ heap1, AddSubdir fs subName = some ({ fs with heap := heap1 }, none) ∧
      heap1.length = fs.heap.length + 1 ∧
      ∀ q, deref heap1 q = addedDir fs.heap c subName q := by
  unfold AddSubdir
  rw [hc]
  simp only
  rw [hf]
  simp only
  refine ⟨_, rfl, by simp [length_store], ?_⟩
  intro q
  have hlt2 : c < (fs.heap ++ [({ name := subName, parent := some c, subs := [] } : dir)]).length := by
    simp
    omega
  have hne : c ≠ fs.heap.length := by omega
  rw [@sortSlice_congr _ (fs.heap ++ [{ name := subName, parent := some c, subs := [] }])]
  · unfold addedDir
    simp only [deref_store, length_store, hlt2, and_true, deref_append_of_lt _ _ _ hlt]
    by_cases hqc : q = c
    · subst hqc
      simp [hne]
    · by_cases hql : q = fs.heap.length
      · subst hql
        simp [hqc, deref_append_length]
      · simp only [hqc, hql, if_false]
        by_cases hq : q < fs.heap.length
        · exact deref_append_of_lt _ _ _ hq
        · rw [deref_of_length_le _ _ (Nat.le_of_not_lt hq), deref_of_length_le]
          simp
          omega
  · intro a _
    simp only [deref_store, length_store, hlt2, and_true]
    split_ifs <;> simp_all

theorem addedDir_heapInv {heap heap1 : List dir} {c : Nat} {subName : String}
    (h : HeapInv heap) (hlt : c < heap.length)
    (hf : findSub heap subName (deref heap c).subs = none)
    (hlen : heap1.length = heap.length + 1)
    (hderef : ∀ q, deref heap1 q = addedDir heap c subName q) : HeapInv heap1 := by
  have hcne : c ≠ heap.length := by omega
  have hnew : deref heap1 heap.length = { name := subName, parent := some c, subs := [] } := by
    rw [hderef]
    simp [addedDir]
  have hname : ∀ q, q ≠ heap.length → (deref heap1 q).name = (deref heap q).name := by
    intro q hq
    rw [hderef]
    unfold addedDir
    rw [if_neg hq]
    split_ifs with hqc
    · rw [hqc]
    · rfl
  have hpar : ∀ q, q ≠ heap.length → (deref heap1 q).parent = (deref heap q).parent := by
    intro q hq
    rw [hderef]
    unfold addedDir
    rw [if_neg hq]
    split_ifs with hqc
    · rw [hqc]
    · rfl
  have hsubs : ∀ q, q ≠ heap.length → q ≠ c → (deref heap1 q).subs = (deref heap q).subs := by
    intro q hq hqc
    rw [hderef]
    unfold addedDir
    rw [if_neg hq, if_neg hqc]
  have hsubsc : (deref heap1 c).subs
      = sortSlice (heap ++ [{ name := subName, parent := some c, subs := [] }])
          ((deref heap c).subs ++ [heap.length]) := by
    rw [hderef]
    unfold addedDir
    rw [if_neg hcne, if_pos rfl]
  have hmemc : ∀ q, q ∈ (deref heap1 c).subs ↔ q ∈ (deref heap c).subs ∨ q = heap.length := by
    intro q
    rw [hsubsc, mem_sortSlice, List.mem_append, List.mem_singleton]
  have hold : ∀ p q, q ∈ (deref heap p).subs → q ≠ heap.length := by
    intro p q hq
    exact Nat.ne_of_lt (h.child p q hq).1
  have hnameN : ∀ q, (deref (heap ++ [{ name := subName, parent := some c, subs := [] }]) q).name
      = (deref heap1 q).name := by
    intro q
    by_cases hq : q < heap.length
    · rw [deref_append_of_lt _ _ _ hq, hname q (Nat.ne_of_lt hq)]
    · by_cases hq2 : q = heap.length
      · rw [hq2, deref_append_length, hnew]
      · rw [hname q hq2, deref_of_length_le _ _ (Nat.le_of_not_lt hq), deref_of_length_le]
        simp
        omega
  constructor
  · intro p q hq
    rw [hlen]
    by_cases hpl : p = heap.length
    · rw [hpl, hnew] at hq
      cases hq
    · by_cases hpc : p = c
      · subst hpc
        rcases (hmemc q).mp hq with hq1 | rfl
        · rw [hpar q (hold p q hq1)]
          exact ⟨Nat.lt_succ_of_lt (h.child p q hq1).1, (h.child p q hq1).2⟩
        · rw [hnew]
          exact ⟨Nat.lt_succ_self _, rfl⟩
      · rw [hsubs p hpl hpc] at hq
        rw [hpar q (hold p q hq)]
        exact ⟨Nat.lt_succ_of_lt (h.child p q hq).1, (h.child p q hq).2⟩
  · intro q p hq
    by_cases hql : q = heap.length
    · rw [hql, hnew] at hq
      cases hq
      exact (hmemc q).mpr (Or.inr hql)
    · rw [hpar q hql] at hq
      have hq1 := h.parent q p hq
      have hpl : p ≠ heap.length := Nat.ne_of_lt (h.lt_of_parent hq)
      by_cases hpc : p = c
      · subst hpc
        exact (hmemc q).mpr (Or.inl hq1)
      · rw [hsubs p hpl hpc]
        exact hq1
  · intro p
    by_cases hpl : p = heap.length
    · rw [hpl, hnew]
      exact List.sorted_nil
    · by_cases hpc : p = c
      · subst hpc
        rw [hsubsc]
        apply sorted_congr (fun q _ => hnameN q)
        apply sorted_sortSlice
        rw [List.pairwise_append]
        refine ⟨?_, List.pairwise_singleton _ _, ?_⟩
        · apply (pairwise_ne_of_sorted (h.sorted p)).imp_of_mem
          intro a b ha hb hab
          rw [hnameN a, hnameN b, hname a (hold p a ha), hname b (hold p b hb)]
          exact hab
        · intro a ha b hb
          rw [List.mem_singleton.mp hb, hnameN a, hnameN, hname a (hold p a ha), hnew]
          exact findSub_eq_none_iff.mp hf a ha
      · rw [hsubs p hpl hpc]
        apply sorted_congr _ (h.sorted p)
        intro q hq
        exact (hname q (hold p q hq)).symm

/-! ## Ancestors -/

theorem ancestor_succ_of_parent {heap : List dir} {p q : Nat} (n : Nat)
    (h : (deref heap p).parent = some q) : ancestor heap (n + 1) p = ancestor heap n q := by
  conv_lhs => unfold ancestor
  rw [h]

/-- Ancestors only depend on the `parent` pointers met on the way. -/
theorem ancestor_congr {heap1 heap2 : List dir} (S : Nat → Prop)
    (hS : ∀ q, S q → (deref heap2 q).parent = (deref heap1 q).parent)
    (hclosed : ∀ q p, S q → (deref heap1 q).parent = some p → S p) (n : Nat) :
    ∀ p, S p → ancestor heap2 n p = ancestor heap1 n p := by
  induction n with
  | zero => intro p _; rfl
  | succ n ih =>
    intro p hp
    unfold ancestor
    rw [hS p hp]
    cases hq : (deref heap1 p).parent with
    | none => rfl
    | some q => exact ih q (hclosed p q hp hq)

/-- When `X`, a subdirectory of `c`, gets a new parent, a chain of parents
from `p` up to the parentless `r` either does not meet `X`, and is a chain of
the new heap, or goes through `c`, from where a shorter chain leads to `r`. -/
theorem ancestor_moved_or_shorter {heap1 heap2 : List dir} {X D c r : Nat}
    (hpar : ∀ q, (deref heap2 q).parent = if q = X then some D else (deref heap1 q).parent)
    (hX : (deref heap1 X).parent = some c) (n : Nat) :
    ∀ p, ancestor heap1 n p = some r →
      (∃ m, ancestor heap2 m p = some r) ∨ (∃ k, k < n ∧ ancestor heap1 k c = some r) := by
  induction n with
  | zero =>
    intro p hp
    exact Or.inl ⟨0, hp⟩
  | succ n ih =>
    intro p hp
    cases hq : (deref heap1 p).parent with
    | none =>
      unfold ancestor at hp
      rw [hq] at hp
      cases hp
    | some q =>
      rw [ancestor_succ_of_parent n hq] at hp
      by_cases hpX : p = X
      · subst hpX
        rw [hX] at hq
        cases hq
        exact Or.inr ⟨n, Nat.lt_succ_self n, hp⟩
      · rcases ih q hp with ⟨m, hm⟩ | ⟨k, hk, hc⟩
        · have hq2 : (deref heap2 p).parent = some q := by
            rw [hpar, if_neg hpX, hq]
          exact Or.inl ⟨m + 1, by rw [ancestor_succ_of_parent m hq2]; exact hm⟩
        · exact Or.inr ⟨k, Nat.lt_succ_of_lt hk, hc⟩

/-- The root stays an ancestor of the directory `c` when a subdirectory of
`c` gets a new parent. -/
theorem ancestor_moved {heap1 heap2 : List dir} {X D c r : Nat}
    (hpar : ∀ q, (deref heap2 q).parent = if q = X then some D else (deref heap1 q).parent)
    (hX : (deref heap1 X).parent = some c) (n : Nat) :
    ancestor heap1 n c = some r → ∃ m, ancestor heap2 m c = some r := by
  induction n using Nat.strong_induction_on with
  | _ n ih =>
    intro hn
    rcases ancestor_moved_or_shorter hpar hX n c hn with hm | ⟨k, hk, hc⟩
    · exact hm
    · exact ih k hk hc

/-- A directory whose ancestors include a parentless directory is not its
own parent. -/
theorem parent_ne_self_of_ancestor {heap : List dir} {c r : Nat} (n : Nat)
    (hn : ancestor heap n c = some r) (hr : (deref heap r).parent = none) :
    (deref heap c).parent ≠ some c := by
  intro hc
  have hall : ∀ m, ancestor heap m c = some c := by
    intro m
    induction m with
    | zero => rfl
    | succ m ih => rw [ancestor_succ_of_parent m hc, ih]
  rw [hall n] at hn
  cases hn
  rw [hr] at hc
  cases hc

/-- Under the pointer structure of `HeapInv` a directory is reachable from
each of its ancestors. -/
theorem reachable_of_ancestor {heap : List dir} (h : HeapInv heap) {r : Nat} (n : Nat) :
    ∀ c, ancestor heap n c = some r → Reachable heap r c := by
  induction n with
  | zero =>
    intro c hc
    cases hc
    exact Reachable.refl
  | succ n ih =>
    intro c hc
    cases hq : (deref heap c).parent with
    | none =>
      unfold ancestor at hc
      rw [hq] at hc
      cases hc
    | some q =>
      rw [ancestor_succ_of_parent n hq] at hc
      exact Reachable.step (ih q hc) (h.parent c q hq)

/-! ## The invariant is kept by every call -/

theorem Inv_CreateFilesystem : Inv CreateFilesystem := by
  have hd : ∀ q, (deref CreateFilesystem.heap q).subs = [] ∧
      (deref CreateFilesystem.heap q).parent = none := by
    intro q
    cases q with
    | zero => exact ⟨rfl, rfl⟩
    | succ q => exact ⟨rfl, rfl⟩
  refine ⟨⟨?_, ?_, ?_⟩, ⟨0, rfl, by decide, rfl⟩, ⟨0, rfl, by decide⟩, ?_, ?_⟩
  · intro p q hq
    rw [(hd p).1] at hq
    cases hq
  · intro q p hq
    rw [(hd q).2] at hq
    cases hq
  · intro p
    rw [(hd p).1]
    exact List.sorted_nil
  · intro q hq _
    have : q = 0 := by
      simp [CreateFilesystem] at hq
      exact hq
    rw [this]
    rfl
  · intro c hc
    exact ⟨0, hc.symm⟩

theorem addedDir_parent (heap : List dir) (c : Nat) (subName : String) (q : Nat)
    (hq : q ≠ heap.length) : (addedDir heap c subName q).parent = (deref heap q).parent := by
  unfold addedDir
  rw [if_neg hq]
  split_ifs with hqc
  · rw [hqc]
  · rfl

theorem addedDir_name (heap : List dir) (c : Nat) (subName : String) (q : Nat)
    (hq : q ≠ heap.length) : (addedDir heap c subName q).name = (deref heap q).name := by
  unfold addedDir
  rw [if_neg hq]
  split_ifs with hqc
  · rw [hqc]
  · rfl

theorem AddSubdir_inv (fs : filesystem) (subName : String) (h : Inv fs) :
    ∃ fs1 e, AddSubdir fs subName = some (fs1, e) ∧ Inv fs1 := by
  obtain ⟨c, hc, hlt⟩ := h.current
  cases hf : findSub fs.heap subName (deref fs.heap c).subs with
  | some s =>
    refine ⟨fs, some .ErrSubdirAlreadyExists, ?_, h⟩
    unfold AddSubdir
    rw [hc]
    simp only
    rw [hf]
  | none =>
    obtain ⟨heap1, hadd, hlen, hderef⟩ := AddSubdir_eq fs subName c hc hlt hf
    refine ⟨_, none, hadd, ?_⟩
    obtain ⟨r, hr, hrlt, hrp⟩ := h.root
    refine ⟨addedDir_heapInv h.heapInv hlt hf hlen hderef, ⟨r, hr, ?_, ?_⟩, ⟨c, hc, ?_⟩, ?_, ?_⟩
    · show r < heap1.length
      omega
    · show (deref heap1 r).parent = none
      rw [hderef, addedDir_parent _ _ _ _ (Nat.ne_of_lt hrlt)]
      exact hrp
    · show c < heap1.length
      omega
    · intro q hq hqp
      change q < heap1.length at hq
      change (deref heap1 q).parent = none at hqp
      show fs.root = some q
      by_cases hql : q = fs.heap.length
      · rw [hderef, hql] at hqp
        simp [addedDir] at hqp
      · rw [hderef, addedDir_parent _ _ _ _ hql] at hqp
        exact h.nonroot q (by omega) hqp
    · intro c2 hc2
      change fs.current = some c2 at hc2
      obtain ⟨n, hn⟩ := h.rooted c2 hc2
      refine ⟨n, ?_⟩
      show ancestor heap1 n c2 = fs.root
      rw [← hn]
      apply ancestor_congr (fun q => q < fs.heap.length)
      · intro q hq
        rw [hderef, addedDir_parent _ _ _ _ (Nat.ne_of_lt hq)]
      · intro q p _ hqp
        exact h.heapInv.lt_of_parent hqp
      · rw [hc] at hc2
        cases hc2
        exact hlt

theorem Up_inv (fs : filesystem) (h : Inv fs) :
    ∃ fs1 e, Up fs = some (fs1, e) ∧ Inv fs1 := by
  obtain ⟨c, hc, hlt⟩ := h.current
  unfold Up
  by_cases hcr : fs.current = fs.root
  · rw [if_pos hcr]
    exact ⟨fs, _, rfl, h⟩
  · rw [if_neg hcr, hc]
    refine ⟨_, none, rfl, ?_⟩
    cases hp : (deref fs.heap c).parent with
    | none => exact absurd (hc.trans (h.nonroot c hlt hp).symm) hcr
    | some p =>
      refine ⟨h.heapInv, h.root, ⟨p, rfl, h.heapInv.lt_of_parent hp⟩, h.nonroot, ?_⟩
      intro p2 hp2
      cases hp2
      obtain ⟨n, hn⟩ := h.rooted c hc
      cases n with
      | zero => exact absurd (hc.trans hn) hcr
      | succ n =>
        rw [ancestor_succ_of_parent n hp] at hn
        exact ⟨n, hn⟩

theorem Cd_inv (fs : filesystem) (dirName : String) (h : Inv fs) :
    ∃ fs1 e, Cd fs dirName = some (fs1, e) ∧ Inv fs1 := by
  obtain ⟨c, hc, hlt⟩ := h.current
  unfold Cd
  rw [hc]
  simp only
  cases hf : findSub fs.heap dirName (deref fs.heap c).subs with
  | none => exact ⟨fs, _, rfl, h⟩
  | some s =>
    refine ⟨_, none, rfl, ?_⟩
    have hs := h.heapInv.child c s (findSub_some hf).1
    refine ⟨h.heapInv, h.root, ⟨s, rfl, hs.1⟩, h.nonroot, ?_⟩
    intro s2 hs2
    cases hs2
    obtain ⟨n, hn⟩ := h.rooted c hc
    exact ⟨n + 1, by rw [ancestor_succ_of_parent n hs.2]; exact hn⟩

/-- The invariant of the filesystem after `moveDirectory`: only `X`, which
has a parent, gets a new parent. -/
theorem inv_of_moved {fs : filesystem} {heap2 : List dir} {X D : Nat} (h : Inv fs)
    (hlen : heap2.length = fs.heap.length) (hinv : HeapInv heap2)
    (hX : fs.current.isSome ∧ (deref fs.heap X).parent = fs.current)
    (hpar : ∀ q, (deref heap2 q).parent = if q = X then some D else (deref fs.heap q).parent) :
    Inv { fs with heap := heap2 } := by
  obtain ⟨r, hr, hrlt, hrp⟩ := h.root
  obtain ⟨c, hc, hlt⟩ := h.current
  have hXc : (deref fs.heap X).parent = some c := hX.2.trans hc
  refine ⟨hinv, ⟨r, hr, ?_, ?_⟩, ⟨c, hc, ?_⟩, ?_, ?_⟩
  · show r < heap2.length
    omega
  · show (deref heap2 r).parent = none
    rw [hpar]
    split_ifs with hrX
    · rw [hrX, hXc] at hrp
      cases hrp
    · exact hrp
  · show c < heap2.length
    omega
  · intro q hq hqp
    change (deref heap2 q).parent = none at hqp
    change q < heap2.length at hq
    show fs.root = some q
    rw [hpar] at hqp
    split_ifs at hqp with hqX
    exact h.nonroot q (by omega) hqp
  · intro c2 hc2
    change fs.current = some c2 at hc2
    rw [hc] at hc2
    cases hc2
    obtain ⟨n, hn⟩ := h.rooted c hc
    rw [hr] at hn
    obtain ⟨m, hm⟩ := ancestor_moved hpar hXc n hn
    exact ⟨m, hm.trans hr.symm⟩

theorem movedDir_parent (heap : List dir) (X D P q : Nat) :
    (movedDir heap X D P q).parent = if q = X then some D else (deref heap q).parent :=
  rfl

theorem movedDir_name (heap : List dir) (X D P q : Nat) :
    (movedDir heap X D P q).name = (deref heap q).name :=
  rfl

theorem deref_rename_parent (heap : List dir) (X : Nat) (step : String) (q : Nat) :
    (deref (store heap X { deref heap X with name := step }) q).parent
      = (deref heap q).parent := by
  rw [deref_store]
  split_ifs with hq
  · rw [hq.1]
  · rfl

theorem deref_rename_subs (heap : List dir) (X : Nat) (step : String) (q : Nat) :
    (deref (store heap X { deref heap X with name := step }) q).subs
      = (deref heap q).subs := by
  rw [deref_store]
  split_ifs with hq
  · rw [hq.1]
  · rfl

theorem deref_rename_name (heap : List dir) (X : Nat) (step : String) (q : Nat)
    (hX : X < heap.length) :
    (deref (store heap X { deref heap X with name := step }) q).name
      = if q = X then step else (deref heap q).name := by
  rw [deref_store]
  by_cases hq : q = X
  · simp [hq, hX]
  · simp [hq]

theorem finishMv_rename (fs : filesystem) (X D : Nat) (step : String) :
    finishMv fs X (.rename D step) =
      match moveDirectory (store fs.heap X { deref fs.heap X with name := step }) X D with
      | none => none
      | some heap2 => some ({ fs with heap := heap2 }, none) :=
  rfl

theorem finishMv_found (fs : filesystem) (X D : Nat) :
    finishMv fs X (.found D) =
      if D = X ∨ some D = fs.current then some (fs, none)
      else
        match findSub fs.heap (deref fs.heap X).name (deref fs.heap D).subs with
        | some _ => some (fs, some .ErrSubdirAlreadyExists)
        | none =>
          match moveDirectory fs.heap X D with
          | none => none
          | some heap1 => some ({ fs with heap := heap1 }, none) :=
  rfl

/-- The code of `Mv` after the loop keeps the invariant and never panics. -/
theorem finishMv_inv (fs : filesystem) (X c : Nat) (res : Resolution) (h : Inv fs)
    (hc : fs.current = some c) (hX : X ∈ (deref fs.heap c).subs)
    (hfound : ∀ D, res = .found D → D < fs.heap.length)
    (hrename : ∀ D step, res = .rename D step →
      D < fs.heap.length ∧ findSub fs.heap step (deref fs.heap D).subs = none) :
    ∃ fs1 e, finishMv fs X res = some (fs1, e) ∧ Inv fs1 := by
  have hXp : fs.current.isSome ∧ (deref fs.heap X).parent = fs.current := by
    rw [(h.heapInv.child c X hX).2, hc]
    exact ⟨rfl, rfl⟩
  cases res with
  | notFound => exact ⟨fs, _, rfl, h⟩
  | rename D step =>
    obtain ⟨hD, hf⟩ := hrename D step rfl
    obtain ⟨heap2, hmv, hlen, hderef, hinv⟩ := moveDirectory_heapInv
      (moveReady_rename step h.heapInv hX hD (findSub_eq_none_iff.mp hf))
    refine ⟨{ fs with heap := heap2 }, none, ?_, ?_⟩
    · rw [finishMv_rename, hmv]
    · rw [length_store] at hlen
      apply inv_of_moved h hlen hinv hXp
      intro q
      rw [hderef, movedDir_parent, deref_rename_parent]
  | found D =>
    have hD := hfound D rfl
    rw [finishMv_found]
    by_cases hcond : D = X ∨ some D = fs.current
    · rw [if_pos hcond]
      exact ⟨fs, _, rfl, h⟩
    · rw [if_neg hcond]
      cases hf : findSub fs.heap (deref fs.heap X).name (deref fs.heap D).subs with
      | some s => exact ⟨fs, _, rfl, h⟩
      | none =>
        obtain ⟨heap2, hmv, hlen, hderef, hinv⟩ := moveDirectory_heapInv
          (moveReady_of_heapInv h.heapInv hX hD (findSub_eq_none_iff.mp hf))
        refine ⟨{ fs with heap := heap2 }, none, ?_, ?_⟩
        · simp only [hmv]
        · apply inv_of_moved h hlen hinv hXp
          intro q
          rw [hderef, movedDir_parent]

theorem Mv_inv (fs : filesystem) (src dst : String) (h : Inv fs) :
    ∃ fs1 e, Mv fs src dst = some (fs1, e) ∧ Inv fs1 := by
  obtain ⟨c, hc, hlt⟩ := h.current
  rw [Mv_eq fs src dst c hc]
  cases hf : findSub fs.heap src (deref fs.heap c).subs with
  | none => exact ⟨fs, _, rfl, h⟩
  | some X =>
    have hspec := resolveSteps_spec h.heapInv (Split dst) c hlt
    exact finishMv_inv fs X c _ h hc (findSub_some hf).1 hspec.1 hspec.2

/-- Under the invariant the current directory is reachable from the root. -/
theorem Inv.reachable_current {fs : filesystem} (h : Inv fs) {r c : Nat}
    (hr : fs.root = some r) (hc : fs.current = some c) : Reachable fs.heap r c := by
  obtain ⟨n, hn⟩ := h.rooted c hc
  rw [hr] at hn
  exact reachable_of_ancestor h.heapInv n c hn

theorem applyOp_inv (fs : filesystem) (op : Op) (h : Inv fs) :
    ∃ fs1 e, applyOp fs op = some (fs1, e) ∧ Inv fs1 := by
  cases op with
  | AddSubdir subName => exact AddSubdir_inv fs subName h
  | Up => exact Up_inv fs h
  | Cd dirName => exact Cd_inv fs dirName h
  | Mv src dst => exact Mv_inv fs src dst h

/-- A run from a state with the invariant never panics and ends in a state
with the invariant. -/
theorem runOps_inv (ops : List Op) : ∀ fs, Inv fs → ∃ fs1, runOps fs ops = some fs1 ∧ Inv fs1 := by
  induction ops with
  | nil => exact fun fs h => ⟨fs, rfl, h⟩
  | cons op ops ih =>
    intro fs h
    obtain ⟨fs1, e, hop, h1⟩ := applyOp_inv fs op h
    obtain ⟨fs2, hrun, h2⟩ := ih fs1 h1
    refine ⟨fs2, ?_, h2⟩
    unfold runOps
    rw [hop]
    exact hrun

theorem inv_of_runOps {ops : List Op} {fs : filesystem}
    (h : runOps CreateFilesystem ops = some fs) : Inv fs := by
  obtain ⟨fs1, h1, hinv⟩ := runOps_inv ops CreateFilesystem Inv_CreateFilesystem
  rw [h] at h1
  cases h1
  exact hinv

/-! ## Names of subdirectories -/

theorem strLess_trans {s t u : String} (h1 : strLess s t) (h2 : strLess t u) : strLess s u :=
  @lt_trans (List Char) _ _ _ _ h1 h2

theorem mem_childNames {heap : List dir} {p : Nat} {n : String} :
    n ∈ childNames heap p ↔ ∃ q ∈ (deref heap p).subs, (deref heap q).name = n := by
  unfold childNames
  rw [List.mem_map]

theorem findSub_eq_none_iff_not_mem {heap : List dir} {p : Nat} {n : String} :
    findSub heap n (deref heap p).subs = none ↔ n ∉ childNames heap p := by
  rw [findSub_eq_none_iff, mem_childNames]
  constructor
  · rintro h ⟨q, hq, hn⟩
    exact h q hq hn
  · intro h q hq hn
    exact h ⟨q, hq, hn⟩

/-- Under the invariant the names of the subdirectories of any directory are
strictly ascending. -/
theorem HeapInv.sorted_childNames {heap : List dir} (h : HeapInv heap) (p : Nat) :
    List.Sorted strLess (childNames heap p) := by
  unfold childNames List.Sorted
  rw [List.pairwise_map]
  exact h.sorted p

theorem HeapInv.nodup_childNames {heap : List dir} (h : HeapInv heap) (p : Nat) :
    (childNames heap p).Nodup :=
  List.Sorted.nodup (h.sorted_childNames p)

/-- Under the invariant the lookup of a name finds the one subdirectory of
that name. -/
theorem HeapInv.findSub_eq_some {heap : List dir} (h : HeapInv heap) {p q : Nat}
    (hq : q ∈ (deref heap p).subs) :
    findSub heap (deref heap q).name (deref heap p).subs = some q := by
  cases hf : findSub heap (deref heap q).name (deref heap p).subs with
  | none => exact absurd rfl (findSub_eq_none_iff.mp hf q hq)
  | some s =>
    have hs := findSub_some hf
    rw [eq_of_sorted_of_name_eq (h.sorted p) hs.1 hq hs.2]

/-- Two strictly ascending lists of names with the same members are equal. -/
theorem eq_of_sorted_of_mem_iff {l1 l2 : List String} (h1 : List.Sorted strLess l1)
    (h2 : List.Sorted strLess l2) (h : ∀ n, n ∈ l1 ↔ n ∈ l2) : l1 = l2 :=
  List.eq_of_perm_of_sorted
    ((List.perm_ext_iff_of_nodup (List.Sorted.nodup h1) (List.Sorted.nodup h2)).mpr h) h1 h2

/-! ## The claims on the invariants -/

/-- C1: in every state reached from `CreateFilesystem()` by any sequence of
`AddSubdir`, `Up`, `Cd` and `Mv` calls, whatever they return (and none of
them panics), the root has no parent and every directory reachable from
the root has pairwise distinct child names, in strictly ascending order, and
is the parent of each of its children. -/
theorem C1_reachable_directories_wellformed (ops : List Op) :
    ∃ fs r, runOps CreateFilesystem ops = some fs ∧ fs.root = some r ∧
      (deref fs.heap r).parent = none ∧
      ∀ p, Reachable fs.heap r p →
        (childNames fs.heap p).Nodup ∧
        List.Sorted strLess (childNames fs.heap p) ∧
        ∀ q ∈ (deref fs.heap p).subs, (deref fs.heap q).parent = some p := by
  obtain ⟨fs, hrun, hinv⟩ := runOps_inv ops CreateFilesystem Inv_CreateFilesystem
  obtain ⟨r, hr, _, hrp⟩ := hinv.root
  refine ⟨fs, r, hrun, hr, hrp, ?_⟩
  intro p _
  exact ⟨hinv.heapInv.nodup_childNames p, hinv.heapInv.sorted_childNames p,
    fun q hq => (hinv.heapInv.child p q hq).2⟩

/-- The names of the subdirectories of the current directory after
`AddSubdir`: the names before, and the name added. -/
theorem AddSubdir_childNames (fs : filesystem) (subName : String) (c : Nat) (h : Inv fs)
    (hc : fs.current = some c) :
    ∃ fs1 e, AddSubdir fs subName = some (fs1, e) ∧ Inv fs1 ∧ fs1.current = some c ∧
      ∀ m, m ∈ childNames fs1.heap c ↔ m ∈ childNames fs.heap c ∨ m = subName := by
  obtain ⟨fs1, e, hadd, hinv⟩ := AddSubdir_inv fs subName h
  refine ⟨fs1, e, hadd, hinv, ?_⟩
  obtain ⟨c2, hc2, hlt⟩ := h.current
  rw [hc] at hc2
  cases hc2
  cases hf : findSub fs.heap subName (deref fs.heap c).subs with
  | some s =>
    have h2 : AddSubdir fs subName = some (fs, some .ErrSubdirAlreadyExists) := by
      unfold AddSubdir
      rw [hc]
      simp only
      rw [hf]
    rw [h2] at hadd
    cases hadd
    refine ⟨hc, fun m => ⟨Or.inl, ?_⟩⟩
    rintro (hm | rfl)
    · exact hm
    · exact mem_childNames.mpr ⟨s, findSub_some hf⟩
  | none =>
    obtain ⟨heap1, hadd2, hlen, hderef⟩ := AddSubdir_eq fs subName c hc hlt hf
    rw [hadd2] at hadd
    cases hadd
    refine ⟨hc, fun m => ?_⟩
    have hcne : c ≠ fs.heap.length := Nat.ne_of_lt hlt
    have hsubs : ∀ q, q ∈ (deref heap1 c).subs ↔ q ∈ (deref fs.heap c).subs ∨ q = fs.heap.length := by
      intro q
      rw [hderef]
      unfold addedDir
      rw [if_neg hcne, if_pos rfl]
      simp only
      rw [mem_sortSlice, List.mem_append, List.mem_singleton]
    have hold : ∀ q ∈ (deref fs.heap c).subs, (deref heap1 q).name = (deref fs.heap q).name := by
      intro q hq
      rw [hderef, addedDir_name _ _ _ _ (Nat.ne_of_lt (h.heapInv.child c q hq).1)]
    have hnew : (deref heap1 fs.heap.length).name = subName := by
      rw [hderef]
      simp [addedDir]
    show m ∈ childNames heap1 c ↔ _
    rw [mem_childNames, mem_childNames]
    constructor
    · rintro ⟨q, hq, hn⟩
      rcases (hsubs q).mp hq with hq1 | rfl
      · exact Or.inl ⟨q, hq1, (hold q hq1) ▸ hn⟩
      · exact Or.inr (hn.symm.trans hnew)
    · rintro (⟨q, hq, hn⟩ | rfl)
      · exact ⟨q, (hsubs q).mpr (Or.inl hq), (hold q hq).trans hn⟩
      · exact ⟨fs.heap.length, (hsubs _).mpr (Or.inr rfl), hnew⟩

/-- The names of the subdirectories of the current directory after a run of
`AddSubdir` calls. -/
theorem runOps_AddSubdir_childNames (c : Nat) (names : List String) :
    ∀ fs, Inv fs → fs.current = some c →
      ∃ fs1, runOps fs (names.map Op.AddSubdir) = some fs1 ∧ Inv fs1 ∧ fs1.current = some c ∧
        ∀ m, m ∈ childNames fs1.heap c ↔ m ∈ childNames fs.heap c ∨ m ∈ names := by
  induction names with
  | nil =>
    intro fs h hc
    exact ⟨fs, rfl, h, hc, fun m => by simp⟩
  | cons n names ih =>
    intro fs h hc
    obtain ⟨fs1, e, hadd, hinv1, hc1, hm1⟩ := AddSubdir_childNames fs n c h hc
    obtain ⟨fs2, hrun, hinv2, hc2, hm2⟩ := ih fs1 hinv1 hc1
    refine ⟨fs2, ?_, hinv2, hc2, ?_⟩
    · simp only [List.map_cons]
      unfold runOps
      simp only [applyOp]
      rw [hadd]
      exact hrun
    · intro m
      rw [hm2, hm1, List.mem_cons, or_assoc]

/-- C2: `AddSubdir` called on a fresh directory with the names of a list, in
any order: the children are exactly the distinct names of the list, in
strictly ascending order, and a second list with the same set of names gives
the same list of children names. -/
theorem C2_AddSubdir_sorted_any_order (fs : filesystem) (c : Nat) (names names2 : List String)
    (h : Inv fs) (hc : fs.current = some c) (hfresh : (deref fs.heap c).subs = [])
    (hsame : ∀ n, n ∈ names ↔ n ∈ names2) :
    ∃ fs1 fs2, runOps fs (names.map Op.AddSubdir) = some fs1 ∧
      runOps fs (names2.map Op.AddSubdir) = some fs2 ∧
      List.Sorted strLess (childNames fs1.heap c) ∧
      (∀ n, n ∈ childNames fs1.heap c ↔ n ∈ names) ∧
      childNames fs2.heap c = childNames fs1.heap c := by
  obtain ⟨fs1, hrun1, hinv1, _, hm1⟩ := runOps_AddSubdir_childNames c names fs h hc
  obtain ⟨fs2, hrun2, hinv2, _, hm2⟩ := runOps_AddSubdir_childNames c names2 fs h hc
  have hempty : childNames fs.heap c = [] := by
    unfold childNames
    rw [hfresh]
    rfl
  have hmem1 : ∀ n, n ∈ childNames fs1.heap c ↔ n ∈ names := by
    intro n
    rw [hm1, hempty]
    simp
  have hmem2 : ∀ n, n ∈ childNames fs2.heap c ↔ n ∈ names2 := by
    intro n
    rw [hm2, hempty]
    simp
  refine ⟨fs1, fs2, hrun1, hrun2, hinv1.heapInv.sorted_childNames c, hmem1, ?_⟩
  apply eq_of_sorted_of_mem_iff (hinv2.heapInv.sorted_childNames c)
    (hinv1.heapInv.sorted_childNames c)
  intro n
  rw [hmem1, hmem2, hsame]

/-- The lists `sub2, sub1, sub2` and `sub1, sub2` added to the fresh root. -/
theorem C2_AddSubdir_sorted_any_order_witness :
    ∃ fs1 fs2,
      runOps CreateFilesystem (["sub2", "sub1", "sub2"].map Op.AddSubdir) = some fs1 ∧
      runOps CreateFilesystem (["sub1", "sub2"].map Op.AddSubdir) = some fs2 ∧
      List.Sorted strLess (childNames fs1.heap 0) ∧
      (∀ n, n ∈ childNames fs1.heap 0 ↔ n ∈ ["sub2", "sub1", "sub2"]) ∧
      childNames fs2.heap 0 = childNames fs1.heap 0 :=
  C2_AddSubdir_sorted_any_order CreateFilesystem 0 ["sub2", "sub1", "sub2"] ["sub1", "sub2"]
    Inv_CreateFilesystem rfl rfl (by simp)

theorem runOps_exampleOps : runOps CreateFilesystem exampleOps = some exampleState := by
  decide

theorem Inv_exampleState : Inv exampleState :=
  inv_of_runOps runOps_exampleOps

/-! ## The claims on `AddSubdir`, `Cd` and `Up` -/

/-- C3: `AddSubdir(name)` returns `ErrSubdirAlreadyExists` exactly when the
current directory has a child of that name, and then the filesystem is
unchanged; otherwise it returns no error, one new directory is allocated,
with that name, no children and the current directory as its parent, the
children of the current directory are the former ones and the new one, and
its name and parent, all other directories, the root and the cursor are
unchanged. -/
theorem C3_AddSubdir_result (fs : filesystem) (subName : String) (c : Nat)
    (hc : fs.current = some c) (hlt : c < fs.heap.length) :
    ∃ fs1 e, AddSubdir fs subName = some (fs1, e) ∧
      (e = some .ErrSubdirAlreadyExists ↔ subName ∈ childNames fs.heap c) ∧
      (subName ∈ childNames fs.heap c → fs1 = fs) ∧
      (subName ∉ childNames fs.heap c →
        e = none ∧ fs1.current = fs.current ∧ fs1.root = fs.root ∧
        fs1.heap.length = fs.heap.length + 1 ∧
        deref fs1.heap fs.heap.length = { name := subName, parent := some c, subs := [] } ∧
        (deref fs1.heap c).subs.Perm (fs.heap.length :: (deref fs.heap c).subs) ∧
        (deref fs1.heap c).name = (deref fs.heap c).name ∧
        (deref fs1.heap c).parent = (deref fs.heap c).parent ∧
        ∀ q, q < fs.heap.length → q ≠ c → deref fs1.heap q = deref fs.heap q) := by
  cases hf : findSub fs.heap subName (deref fs.heap c).subs with
  | some s =>
    have hmem : subName ∈ childNames fs.heap c := mem_childNames.mpr ⟨s, findSub_some hf⟩
    refine ⟨fs, some .ErrSubdirAlreadyExists, ?_, ?_, fun _ => rfl, fun hn => absurd hmem hn⟩
    · unfold AddSubdir
      rw [hc]
      simp only
      rw [hf]
    · exact ⟨fun _ => hmem, fun _ => rfl⟩
  | none =>
    have hmem : subName ∉ childNames fs.heap c := findSub_eq_none_iff_not_mem.mp hf
    obtain ⟨heap1, hadd, hlen, hderef⟩ := AddSubdir_eq fs subName c hc hlt hf
    have hcne : c ≠ fs.heap.length := Nat.ne_of_lt hlt
    refine ⟨_, none, hadd, ?_, fun hm => absurd hm hmem, fun _ => ?_⟩
    · exact ⟨fun h => (by cases h), fun h => absurd h hmem⟩
    · refine ⟨rfl, rfl, rfl, hlen, ?_, ?_, ?_, ?_, ?_⟩
      · show deref heap1 fs.heap.length = _
        rw [hderef]
        simp [addedDir]
      · show (deref heap1 c).subs.Perm _
        rw [hderef]
        unfold addedDir
        rw [if_neg hcne, if_pos rfl]
        exact (perm_sortSlice _ _).trans (List.perm_append_singleton _ _)
      · show (deref heap1 c).name = _
        rw [hderef, addedDir_name _ _ _ _ hcne]
      · show (deref heap1 c).parent = _
        rw [hderef, addedDir_parent _ _ _ _ hcne]
      · intro q hq hqc
        show deref heap1 q = _
        rw [hderef]
        unfold addedDir
        rw [if_neg (Nat.ne_of_lt hq), if_neg hqc]

/-- In `exampleState`: adding `sub2` again fails, adding `sub0` allocates a
new directory at address 4. -/
theorem C3_AddSubdir_result_witness :
    (AddSubdir exampleState "sub2" = some (exampleState, some .ErrSubdirAlreadyExists)) ∧
    ∃ fs1 e, AddSubdir exampleState "sub0" = some (fs1, e) ∧ e = none ∧
      deref fs1.heap 4 = { name := "sub0", parent := some 0, subs := [] } ∧
      (deref fs1.heap 0).subs.Perm [4, 1, 2] := by
  refine ⟨by decide, ?_⟩
  obtain ⟨fs1, e, h1, _, _, h2⟩ :=
    C3_AddSubdir_result exampleState "sub0" 0 rfl (by decide)
  have h3 := h2 (by decide)
  exact ⟨fs1, e, h1, h3.1, h3.2.2.2.2.1, h3.2.2.2.2.2.1⟩

/-- C4: `Cd(name)` returns `ErrSubdirDoesNotExist` exactly when the current
directory has no child of that name, and then the filesystem, cursor
included, is unchanged; otherwise it returns no error, the cursor moves to
the child of the current directory with that name, and the tree and the root
are unchanged. -/
theorem C4_Cd_result (fs : filesystem) (dirName : String) (c : Nat) (h : Inv fs)
    (hc : fs.current = some c) :
    ∃ fs1 e, Cd fs dirName = some (fs1, e) ∧
      (e = some .ErrSubdirDoesNotExist ↔ dirName ∉ childNames fs.heap c) ∧
      (dirName ∉ childNames fs.heap c → fs1 = fs) ∧
      (dirName ∈ childNames fs.heap c →
        e = none ∧ fs1.heap = fs.heap ∧ fs1.root = fs.root ∧
        ∃ s, s ∈ (deref fs.heap c).subs ∧ (deref fs.heap s).name = dirName ∧
          fs1.current = some s ∧
          ∀ s2, s2 ∈ (deref fs.heap c).subs → (deref fs.heap s2).name = dirName → s2 = s) := by
  unfold Cd
  rw [hc]
  simp only
  cases hf : findSub fs.heap dirName (deref fs.heap c).subs with
  | none =>
    have hmem : dirName ∉ childNames fs.heap c := findSub_eq_none_iff_not_mem.mp hf
    exact ⟨fs, _, rfl, ⟨fun _ => hmem, fun _ => rfl⟩, fun _ => rfl, fun hm => absurd hm hmem⟩
  | some s =>
    have hs := findSub_some hf
    have hmem : dirName ∈ childNames fs.heap c := mem_childNames.mpr ⟨s, hs⟩
    refine ⟨_, none, rfl, ⟨fun he => (by cases he), fun hn => absurd hmem hn⟩,
      fun hn => absurd hmem hn, fun _ => ⟨rfl, rfl, rfl, s, hs.1, hs.2, rfl, ?_⟩⟩
    intro s2 hs2 hn2
    exact eq_of_sorted_of_name_eq (h.heapInv.sorted c) hs2 hs.1 (hn2.trans hs.2.symm)

/-- In `exampleState`: `Cd("sub3")` fails, `Cd("sub2")` moves the cursor to
address 2. -/
theorem C4_Cd_result_witness :
    Inv exampleState ∧ Cd exampleState "sub3" = some (exampleState, some .ErrSubdirDoesNotExist) ∧
    ∃ fs1 e, Cd exampleState "sub2" = some (fs1, e) ∧ e = none ∧ fs1.heap = exampleState.heap ∧
      fs1.current = some 2 := by
  refine ⟨Inv_exampleState, by decide, ?_⟩
  obtain ⟨fs1, e, h1, _, _, h2⟩ := C4_Cd_result exampleState "sub2" 0 Inv_exampleState rfl
  obtain ⟨he, hheap, _, s, hs, hn, hcur, _⟩ := h2 (by decide)
  refine ⟨fs1, e, h1, he, hheap, ?_⟩
  rw [hcur]
  have h3 : Cd exampleState "sub2" = some ({ exampleState with current := some 2 }, none) := by
    decide
  rw [h3] at h1
  cases h1
  exact hcur.symm

/-- C5: `Up()` returns `ErrCannotMoveUpFromRoot` exactly when the current
directory is the root, and then the filesystem, cursor included, is
unchanged; otherwise it returns no error, the cursor moves to the parent of
the former current directory, and the tree and the root are unchanged. -/
theorem C5_Up_result (fs : filesystem) (h : Inv fs) :
    ∃ fs1 e, Up fs = some (fs1, e) ∧
      (e = some .ErrCannotMoveUpFromRoot ↔ fs.current = fs.root) ∧
      (fs.current = fs.root → fs1 = fs) ∧
      (fs.current ≠ fs.root →
        e = none ∧ fs1.heap = fs.heap ∧ fs1.root = fs.root ∧
        ∃ c p, fs.current = some c ∧ (deref fs.heap c).parent = some p ∧
          fs1.current = some p) := by
  obtain ⟨c, hc, hlt⟩ := h.current
  unfold Up
  by_cases hcr : fs.current = fs.root
  · rw [if_pos hcr]
    exact ⟨fs, _, rfl, ⟨fun _ => hcr, fun _ => rfl⟩, fun _ => rfl, fun hn => absurd hcr hn⟩
  · rw [if_neg hcr, hc]
    refine ⟨_, none, rfl, ⟨fun he => (by cases he), fun hn => absurd (hc ▸ hn) hcr⟩,
      fun hn => absurd (hc ▸ hn) hcr, fun _ => ⟨rfl, rfl, rfl, ?_⟩⟩
    cases hp : (deref fs.heap c).parent with
    | none => exact absurd (hc.trans (h.nonroot c hlt hp).symm) hcr
    | some p => exact ⟨c, p, rfl, hp, rfl⟩

/-- In `exampleState`: `Up()` fails at the root; with the cursor on the
inner `sub1` it moves the cursor to `sub2`. -/
theorem C5_Up_result_witness :
    Inv exampleState ∧ Up exampleState = some (exampleState, some .ErrCannotMoveUpFromRoot) ∧
    ∃ fs1 e, Up { exampleState with current := some 3 } = some (fs1, e) ∧ e = none ∧
      fs1.heap = exampleState.heap ∧ fs1.current = some 2 := by
  have hinv : Inv { exampleState with current := some 3 } :=
    { heapInv := Inv_exampleState.heapInv
      root := Inv_exampleState.root
      current := ⟨3, rfl, by decide⟩
      nonroot := Inv_exampleState.nonroot
      rooted := fun c hc => ⟨2, by cases hc; rfl⟩ }
  refine ⟨Inv_exampleState, by decide, ?_⟩
  obtain ⟨fs1, e, h1, _, _, h2⟩ := C5_Up_result { exampleState with current := some 3 } hinv
  obtain ⟨he, hheap, _, c, p, hc, hp, hcur⟩ := h2 (by decide)
  refine ⟨fs1, e, h1, he, hheap, ?_⟩
  cases hc
  rw [hcur, ← hp]
  rfl

/-! ## The claims on the errors of `Mv` -/

/-- The code of `Mv` after the loop returns an error only with the state it
was called on. -/
theorem finishMv_error {fs fs1 : filesystem} {X : Nat} {res : Resolution} {err : FsError}
    (h : finishMv fs X res = some (fs1, some err)) : fs1 = fs := by
  cases res with
  | notFound =>
    cases h
    rfl
  | rename D step =>
    rw [finishMv_rename] at h
    cases hm : moveDirectory (store fs.heap X { deref fs.heap X with name := step }) X D with
    | none => rw [hm] at h; cases h
    | some heap2 => rw [hm] at h; cases h
  | found D =>
    rw [finishMv_found] at h
    split_ifs at h with hcond
    · cases h
    · cases hf : findSub fs.heap (deref fs.heap X).name (deref fs.heap D).subs with
      | some s =>
        rw [hf] at h
        cases h
        rfl
      | none =>
        rw [hf] at h
        cases hm : moveDirectory fs.heap X D with
        | none => rw [hm] at h; cases h
        | some heap1 => rw [hm] at h; cases h

/-- C6: whenever `Mv(from, to)` returns an error, the filesystem it returns
is the one it was called on (same directories, names, parents, children,
root and current), and `handleMv` returns exactly one line, the message of
that error. -/
theorem C6_Mv_error_no_change (fs fs1 : filesystem) (src dst : String) (err : FsError)
    (h : Mv fs src dst = some (fs1, some err)) :
    fs1 = fs ∧ handleMv fs src dst = some (fs, [err.Error]) := by
  have hfs : fs1 = fs := by
    cases hc : fs.current with
    | none =>
      unfold Mv at h
      rw [hc] at h
      cases h
    | some c =>
      rw [Mv_eq fs src dst c hc] at h
      cases hf : findSub fs.heap src (deref fs.heap c).subs with
      | none =>
        rw [hf] at h
        cases h
        rfl
      | some X =>
        rw [hf] at h
        exact finishMv_error h
  refine ⟨hfs, ?_⟩
  unfold handleMv
  rw [h, hfs]

/-- In `exampleState`: `Mv("sub1", "sub2")` fails, `sub2` holding a `sub1`. -/
theorem C6_Mv_error_no_change_witness :
    Mv exampleState "sub1" "sub2" = some (exampleState, some .ErrSubdirAlreadyExists) ∧
    exampleState = exampleState ∧
    handleMv exampleState "sub1" "sub2" = some (exampleState, ["Subdirectory already exists"]) :=
  ⟨by decide, C6_Mv_error_no_change exampleState exampleState "sub1" "sub2"
    .ErrSubdirAlreadyExists (by decide)⟩

/-! ## The loop of `Mv` and the resolution of a path -/

theorem resolveStep_dot (heap : List dir) (d : Nat) : resolveStep heap "." d = some d := by
  unfold resolveStep
  rw [if_pos rfl]

/-- One turn of the loop of `Mv`, by what the token resolves to. -/
theorem resolveSteps_cons (heap : List dir) (step : String) (rest : List String) (d : Nat) :
    resolveSteps heap (step :: rest) d =
      match resolveStep heap step d with
      | some d1 => resolveSteps heap rest d1
      | none =>
        if step = ".." then .notFound
        else if rest = [] then .rename d step else .notFound := by
  conv_lhs => unfold resolveSteps
  unfold resolveStep
  by_cases h1 : step = "."
  · simp only [h1, if_true]
  · simp only [h1, if_false]
    by_cases h2 : step = ".."
    · simp only [h2, if_true]
      cases (deref heap d).parent <;> rfl
    · simp only [h2, if_false]

theorem resolvePath_cons (heap : List dir) (step : String) (rest : List String) (d : Nat) :
    resolvePath heap (step :: rest) d =
      match resolveStep heap step d with
      | none => none
      | some d1 => resolvePath heap rest d1 := by
  conv_lhs => unfold resolvePath

theorem pathNotFound_cons_some {heap : List dir} {step : String} {rest : List String}
    {d d1 : Nat} (h : resolveStep heap step d = some d1) :
    PathNotFound heap (step :: rest) d ↔ PathNotFound heap rest d1 := by
  constructor
  · rintro ⟨pre, t, post, e, hsteps, hres, hcond⟩
    cases pre with
    | nil =>
      simp only [List.nil_append, List.cons.injEq] at hsteps
      obtain ⟨rfl, rfl⟩ := hsteps
      cases hres
      exfalso
      unfold resolveStep at h
      rcases hcond with ⟨h1, h2⟩ | ⟨h1, h2, _, h4⟩
      · subst h1
        rw [if_neg (by decide), if_pos rfl, h2] at h
        cases h
      · rw [if_neg h1, if_neg h2, findSub_eq_none_iff_not_mem.mpr h4] at h
        cases h
    | cons a pre =>
      simp only [List.cons_append, List.cons.injEq] at hsteps
      obtain ⟨rfl, rfl⟩ := hsteps
      rw [resolvePath_cons, h] at hres
      exact ⟨pre, t, post, e, rfl, hres, hcond⟩
  · rintro ⟨pre, t, post, e, hsteps, hres, hcond⟩
    refine ⟨step :: pre, t, post, e, by rw [hsteps]; rfl, ?_, hcond⟩
    rw [resolvePath_cons, h]
    exact hres

theorem pathNotFound_cons_none {heap : List dir} {step : String} {rest : List String}
    {d : Nat} (h : resolveStep heap step d = none) :
    PathNotFound heap (step :: rest) d ↔ (step = ".." ∨ rest ≠ []) := by
  constructor
  · rintro ⟨pre, t, post, e, hsteps, hres, hcond⟩
    cases pre with
    | nil =>
      simp only [List.nil_append, List.cons.injEq] at hsteps
      obtain ⟨rfl, rfl⟩ := hsteps
      rcases hcond with ⟨h1, _⟩ | ⟨_, _, h3, _⟩
      · exact Or.inl h1
      · exact Or.inr h3
    | cons a pre =>
      simp only [List.cons_append, List.cons.injEq] at hsteps
      obtain ⟨rfl, rfl⟩ := hsteps
      rw [resolvePath_cons, h] at hres
      cases hres
  · intro hor
    refine ⟨[], step, rest, d, rfl, rfl, ?_⟩
    unfold resolveStep at h
    by_cases h1 : step = "."
    · rw [if_pos h1] at h
      cases h
    · rw [if_neg h1] at h
      by_cases h2 : step = ".."
      · rw [if_pos h2] at h
        exact Or.inl ⟨h2, h⟩
      · rw [if_neg h2] at h
        rcases hor with hor | hor
        · exact absurd hor h2
        · exact Or.inr ⟨h1, h2, hor, findSub_eq_none_iff_not_mem.mp h⟩

/-- The loop of `Mv` ends with `ErrSubdirDoesNotExist` exactly when the path
cannot be resolved in the sense of `PathNotFound`. -/
theorem resolveSteps_notFound_iff (heap : List dir) (steps : List String) :
    ∀ d, resolveSteps heap steps d = .notFound ↔ PathNotFound heap steps d := by
  induction steps with
  | nil =>
    intro d
    constructor
    · intro h
      cases h
    · rintro ⟨pre, t, post, e, hsteps, _⟩
      cases pre <;> cases hsteps
  | cons step rest ih =>
    intro d
    rw [resolveSteps_cons]
    cases h : resolveStep heap step d with
    | some d1 =>
      rw [pathNotFound_cons_some h]
      exact ih d1
    | none =>
      rw [pathNotFound_cons_none h]
      by_cases h2 : step = ".."
      · simp [h2]
      · by_cases h3 : rest = []
        · simp [h2, h3]
        · simp [h2, h3]

/-- The loop of `Mv` ends after the last step, at `D`, exactly when all the
tokens of the path can be followed, to `D`. -/
theorem resolveSteps_found_iff (heap : List dir) (steps : List String) (D : Nat) :
    ∀ d, resolveSteps heap steps d = .found D ↔ resolvePath heap steps d = some D := by
  induction steps with
  | nil =>
    intro d
    unfold resolveSteps resolvePath
    constructor
    · intro h
      cases h
      rfl
    · intro h
      cases h
      rfl
  | cons step rest ih =>
    intro d
    rw [resolveSteps_cons, resolvePath_cons]
    cases h : resolveStep heap step d with
    | some d1 => exact ih d1
    | none =>
      by_cases h2 : step = ".."
      · simp [h2]
      · by_cases h3 : rest = []
        · simp [h2, h3]
        · simp [h2, h3]

/-- The loop of `Mv` ends in the renaming branch when the tokens before the
last can be followed, to `D`, and the last token is a name that names no
subdirectory of `D`. -/
theorem resolveSteps_rename_of_resolvePath (heap : List dir) (t : String) (D : Nat)
    (h1 : t ≠ ".") (h2 : t ≠ "..") (h3 : t ∉ childNames heap D) (pre : List String) :
    ∀ d, resolvePath heap pre d = some D → resolveSteps heap (pre ++ [t]) d = .rename D t := by
  induction pre with
  | nil =>
    intro d hd
    cases hd
    have hstep : resolveStep heap t D = none := by
      unfold resolveStep
      rw [if_neg h1, if_neg h2]
      exact findSub_eq_none_iff_not_mem.mpr h3
    rw [List.nil_append, resolveSteps_cons, hstep]
    simp [h2]
  | cons step pre ih =>
    intro d hd
    rw [resolvePath_cons] at hd
    rw [List.cons_append, resolveSteps_cons]
    cases hs : resolveStep heap step d with
    | none =>
      rw [hs] at hd
      cases hd
    | some d1 =>
      rw [hs] at hd
      exact ih d1 hd

/-- The code of `Mv` after the loop returns `ErrSubdirDoesNotExist` only for
a loop that ended with it. -/
theorem finishMv_notFound_iff {fs fs1 : filesystem} {X : Nat} {res : Resolution}
    {e : Option FsError} (h : finishMv fs X res = some (fs1, e)) :
    e = some .ErrSubdirDoesNotExist ↔ res = .notFound := by
  cases res with
  | notFound =>
    cases h
    exact ⟨fun _ => rfl, fun _ => rfl⟩
  | rename D step =>
    rw [finishMv_rename] at h
    cases hm : moveDirectory (store fs.heap X { deref fs.heap X with name := step }) X D with
    | none => rw [hm] at h; cases h
    | some heap2 =>
      rw [hm] at h
      cases h
      exact ⟨fun he => (by cases he), fun he => (by cases he)⟩
  | found D =>
    rw [finishMv_found] at h
    refine ⟨fun he => ?_, fun he => (by cases he)⟩
    subst he
    exfalso
    split_ifs at h with hcond
    · cases h
    · cases hf : findSub fs.heap (deref fs.heap X).name (deref fs.heap D).subs with
      | some s => rw [hf] at h; cases h
      | none =>
        rw [hf] at h
        cases hm : moveDirectory fs.heap X D with
        | none => rw [hm] at h; cases h
        | some heap1 => rw [hm] at h; cases h

/-- The code of `Mv` after the loop returns `ErrSubdirAlreadyExists` exactly
when the loop ended after the last step at a directory that is neither
`dirToMove` nor the current directory and that has a subdirectory with the
name of `dirToMove`. -/
theorem finishMv_alreadyExists_iff {fs fs1 : filesystem} {X : Nat} {res : Resolution}
    {e : Option FsError} (h : finishMv fs X res = some (fs1, e)) :
    e = some .ErrSubdirAlreadyExists ↔
      ∃ D, res = .found D ∧ D ≠ X ∧ some D ≠ fs.current ∧
        (deref fs.heap X).name ∈ childNames fs.heap D := by
  cases res with
  | notFound =>
    cases h
    refine ⟨fun he => (by cases he), ?_⟩
    rintro ⟨D, hD, _⟩
    cases hD
  | rename D step =>
    rw [finishMv_rename] at h
    cases hm : moveDirectory (store fs.heap X { deref fs.heap X with name := step }) X D with
    | none => rw [hm] at h; cases h
    | some heap2 =>
      rw [hm] at h
      cases h
      refine ⟨fun he => (by cases he), ?_⟩
      rintro ⟨D, hD, _⟩
      cases hD
  | found D =>
    rw [finishMv_found] at h
    by_cases hcond : D = X ∨ some D = fs.current
    · rw [if_pos hcond] at h
      cases h
      refine ⟨fun he => (by cases he), ?_⟩
      rintro ⟨D2, hD2, h1, h2, _⟩
      cases hD2
      rcases hcond with hcond | hcond
      · exact absurd hcond h1
      · exact absurd hcond h2
    · rw [if_neg hcond] at h
      rw [not_or] at hcond
      cases hf : findSub fs.heap (deref fs.heap X).name (deref fs.heap D).subs with
      | some s =>
        rw [hf] at h
        cases h
        refine ⟨fun _ => ⟨D, rfl, hcond.1, hcond.2, ?_⟩, fun _ => rfl⟩
        exact mem_childNames.mpr ⟨s, findSub_some hf⟩
      | none =>
        rw [hf] at h
        cases hm : moveDirectory fs.heap X D with
        | none => rw [hm] at h; cases h
        | some heap1 =>
          rw [hm] at h
          cases h
          refine ⟨fun he => (by cases he), ?_⟩
          rintro ⟨D2, hD2, _, _, h3⟩
          cases hD2
          exact absurd h3 (findSub_eq_none_iff_not_mem.mp hf)

/-- C7: `Mv(from, to)` returns `ErrSubdirDoesNotExist` exactly when the
current directory has no child named `from`, or, following the tokens of
`to` (split at the backslash) in order from the current directory, a token
`".."` is met at a directory without parent, or a token other than `"."` and
`".."` that is not the last one names no child of the directory reached so
far. -/
theorem C7_Mv_not_found_iff (fs : filesystem) (src dst : String) (c : Nat) (h : Inv fs)
    (hc : fs.current = some c) :
    ∃ fs1 e, Mv fs src dst = some (fs1, e) ∧
      (e = some .ErrSubdirDoesNotExist ↔
        src ∉ childNames fs.heap c ∨
        ∃ pre t post d, Split dst = pre ++ t :: post ∧ resolvePath fs.heap pre c = some d ∧
          ((t = ".." ∧ (deref fs.heap d).parent = none) ∨
            (t ≠ "." ∧ t ≠ ".." ∧ post ≠ [] ∧ t ∉ childNames fs.heap d))) := by
  obtain ⟨fs1, e, hmv, _⟩ := Mv_inv fs src dst h
  refine ⟨fs1, e, hmv, ?_⟩
  rw [Mv_eq fs src dst c hc] at hmv
  cases hf : findSub fs.heap src (deref fs.heap c).subs with
  | none =>
    rw [hf] at hmv
    cases hmv
    exact ⟨fun _ => Or.inl (findSub_eq_none_iff_not_mem.mp hf), fun _ => rfl⟩
  | some X =>
    rw [hf] at hmv
    have hmem : src ∈ childNames fs.heap c := mem_childNames.mpr ⟨X, findSub_some hf⟩
    rw [finishMv_notFound_iff hmv, resolveSteps_notFound_iff]
    constructor
    · exact fun hp => Or.inr hp
    · rintro (hn | hp)
      · exact absurd hmem hn
      · exact hp

/-- In `exampleState`: the intermediate segment `sub3` of the path
`sub2\sub3\sub4` does not exist. -/
theorem C7_Mv_not_found_iff_witness :
    Inv exampleState ∧
    Mv exampleState "sub1" "sub2\\sub3\\sub4"
      = some (exampleState, some .ErrSubdirDoesNotExist) ∧
    ∃ fs1 e, Mv exampleState "sub1" "sub2\\sub3\\sub4" = some (fs1, e) ∧
      (e = some .ErrSubdirDoesNotExist ↔
        "sub1" ∉ childNames exampleState.heap 0 ∨
        ∃ pre t post d, Split "sub2\\sub3\\sub4" = pre ++ t :: post ∧
          resolvePath exampleState.heap pre 0 = some d ∧
          ((t = ".." ∧ (deref exampleState.heap d).parent = none) ∨
            (t ≠ "." ∧ t ≠ ".." ∧ post ≠ [] ∧ t ∉ childNames exampleState.heap d))) :=
  ⟨Inv_exampleState, by decide,
    C7_Mv_not_found_iff exampleState "sub1" "sub2\\sub3\\sub4" 0 Inv_exampleState rfl⟩

/-- C8: `Mv(from, to)` returns `ErrSubdirAlreadyExists` exactly when `from`
names a child `X` of the current directory, all the tokens of `to` can be
followed (through `"."`, `".."` and names of existing children) to a
directory `D` that is neither `X` nor the current directory, and `D` has a
child with the name of `X`. -/
theorem C8_Mv_already_exists_iff (fs : filesystem) (src dst : String) (c : Nat) (h : Inv fs)
    (hc : fs.current = some c) :
    ∃ fs1 e, Mv fs src dst = some (fs1, e) ∧
      (e = some .ErrSubdirAlreadyExists ↔
        ∃ X D, X ∈ (deref fs.heap c).subs ∧ (deref fs.heap X).name = src ∧
          resolvePath fs.heap (Split dst) c = some D ∧ D ≠ X ∧ D ≠ c ∧
          (deref fs.heap X).name ∈ childNames fs.heap D) := by
  obtain ⟨fs1, e, hmv, _⟩ := Mv_inv fs src dst h
  refine ⟨fs1, e, hmv, ?_⟩
  rw [Mv_eq fs src dst c hc] at hmv
  cases hf : findSub fs.heap src (deref fs.heap c).subs with
  | none =>
    rw [hf] at hmv
    cases hmv
    refine ⟨fun he => (by cases he), ?_⟩
    rintro ⟨X, D, hX, hn, _⟩
    exact absurd hn (findSub_eq_none_iff.mp hf X hX)
  | some X =>
    rw [hf] at hmv
    have hX := findSub_some hf
    rw [finishMv_alreadyExists_iff hmv]
    constructor
    · rintro ⟨D, hres, h1, h2, h3⟩
      refine ⟨X, D, hX.1, hX.2, (resolveSteps_found_iff _ _ _ _).mp hres, h1, ?_, h3⟩
      intro hDc
      exact h2 (hDc ▸ hc.symm)
    · rintro ⟨X2, D, hX2, hn2, hres, h1, h2, h3⟩
      have hXX : X2 = X :=
        eq_of_sorted_of_name_eq (h.heapInv.sorted c) hX2 hX.1 (hn2.trans hX.2.symm)
      subst hXX
      refine ⟨D, (resolveSteps_found_iff _ _ _ _).mpr hres, h1, ?_, h3⟩
      intro hDc
      rw [hc] at hDc
      exact h2 (Option.some.inj hDc)

/-- In `exampleState`: the path `sub2\.\..\sub2` resolves to `sub2`, which
holds a `sub1`. -/
theorem C8_Mv_already_exists_iff_witness :
    Inv exampleState ∧
    Mv exampleState "sub1" "sub2\\.\\..\\sub2"
      = some (exampleState, some .ErrSubdirAlreadyExists) ∧
    ∃ fs1 e, Mv exampleState "sub1" "sub2\\.\\..\\sub2" = some (fs1, e) ∧
      (e = some .ErrSubdirAlreadyExists ↔
        ∃ X D, X ∈ (deref exampleState.heap 0).subs ∧ (deref exampleState.heap X).name = "sub1" ∧
          resolvePath exampleState.heap (Split "sub2\\.\\..\\sub2") 0 = some D ∧ D ≠ X ∧ D ≠ 0 ∧
          (deref exampleState.heap X).name ∈ childNames exampleState.heap D) :=
  ⟨Inv_exampleState, by decide,
    C8_Mv_already_exists_iff exampleState "sub1" "sub2\\.\\..\\sub2" 0 Inv_exampleState rfl⟩

/-! ## Splitting a path -/

theorem splitChars_of_not_mem (sep : Char) (cs : List Char) (h : sep ∉ cs) :
    splitChars sep cs = [cs] := by
  induction cs with
  | nil => rfl
  | cons c cs ih =>
    have hc : c ≠ sep := fun hc => h (hc ▸ List.mem_cons_self _ _)
    have hcs : sep ∉ cs := fun hm => h (List.mem_cons_of_mem _ hm)
    unfold splitChars
    rw [if_neg hc, ih hcs]

theorem splitChars_append (sep : Char) (a b : List Char) (h : sep ∉ a) :
    splitChars sep (a ++ sep :: b) = a :: splitChars sep b := by
  induction a with
  | nil =>
    simp only [List.nil_append]
    conv_lhs => unfold splitChars
    rw [if_pos rfl]
  | cons c a ih =>
    have hc : c ≠ sep := fun hc => h (hc ▸ List.mem_cons_self _ _)
    have ha : sep ∉ a := fun hm => h (List.mem_cons_of_mem _ hm)
    simp only [List.cons_append]
    conv_lhs => unfold splitChars
    rw [if_neg hc, ih ha]

/-- A path without backslash is one token. -/
theorem Split_of_not_mem (s : String) (h : '\\' ∉ s.data) : Split s = [s] := by
  unfold Split
  rw [splitChars_of_not_mem _ _ h]
  rfl

/-- The path `s\..`, for `s` without backslash, is the two tokens `s` and
`..`. -/
theorem Split_append_dotdot (s : String) (h : '\\' ∉ s.data) :
    Split (s ++ "\\..") = [s, ".."] := by
  unfold Split
  have : (s ++ "\\..").data = s.data ++ '\\' :: ['.', '.'] := by
    rw [String.data_append]
  rw [this, splitChars_append _ _ _ h]
  rfl

theorem Split_dot : Split "." = ["."] := by
  decide

/-! ## The claims on `Mv` towards a sibling and towards the current directory -/

/-- Under the invariant `Mv` with the name of a subdirectory `X` of the
current directory is the loop on the steps of the path followed by the code
after the loop, for `dirToMove = X`. -/
theorem Mv_of_child {fs : filesystem} {c X : Nat} (h : Inv fs) (hc : fs.current = some c)
    (hX : X ∈ (deref fs.heap c).subs) (dst : String) :
    Mv fs (deref fs.heap X).name dst = finishMv fs X (resolveSteps fs.heap (Split dst) c) := by
  rw [Mv_eq fs _ dst c hc, h.heapInv.findSub_eq_some hX]

/-- The current directory is not one of its own subdirectories. -/
theorem Inv.ne_current_of_mem {fs : filesystem} {c Y : Nat} (h : Inv fs)
    (hc : fs.current = some c) (hY : Y ∈ (deref fs.heap c).subs) : Y ≠ c := by
  intro hYc
  subst hYc
  obtain ⟨r, hr, _, hrp⟩ := h.root
  obtain ⟨n, hn⟩ := h.rooted Y hc
  rw [hr] at hn
  exact parent_ne_self_of_ancestor n hn hrp (h.heapInv.child Y Y hY).2

theorem resolveStep_name {heap : List dir} (hinv : HeapInv heap) {c Y : Nat}
    (hY : Y ∈ (deref heap c).subs) (h1 : (deref heap Y).name ≠ ".")
    (h2 : (deref heap Y).name ≠ "..") :
    resolveStep heap (deref heap Y).name c = some Y := by
  unfold resolveStep
  rw [if_neg h1, if_neg h2, hinv.findSub_eq_some hY]

theorem resolveStep_dotdot {heap : List dir} (d : Nat) :
    resolveStep heap ".." d = (deref heap d).parent := by
  unfold resolveStep
  rw [if_neg (by decide), if_pos rfl]

/-- A path that resolves to the current directory: `Mv` does nothing. -/
theorem Mv_to_current {fs : filesystem} {c X : Nat} (h : Inv fs) (hc : fs.current = some c)
    (hX : X ∈ (deref fs.heap c).subs) (dst : String)
    (hres : resolvePath fs.heap (Split dst) c = some c) :
    Mv fs (deref fs.heap X).name dst = some (fs, none) := by
  rw [Mv_of_child h hc hX, (resolveSteps_found_iff _ _ _ _).mpr hres, finishMv_found,
    if_pos (Or.inr hc.symm)]

/-- C9, as the code has it: when the current directory has two distinct
children `X` and `Y`, the name of `Y` being a single path token (no
backslash) other than `"."` and `".."`, `Mv(X, Y)` returns
`ErrSubdirAlreadyExists` and changes nothing if `Y` has a child with the
name of `X`; if it has none, `Mv(X, Y)` returns no error and moves `X` into
`Y`. -/
theorem C9_Mv_onto_sibling (fs : filesystem) (c X Y : Nat) (h : Inv fs)
    (hc : fs.current = some c) (hX : X ∈ (deref fs.heap c).subs)
    (hY : Y ∈ (deref fs.heap c).subs) (hXY : X ≠ Y)
    (h1 : (deref fs.heap Y).name ≠ ".") (h2 : (deref fs.heap Y).name ≠ "..")
    (h3 : '\\' ∉ (deref fs.heap Y).name.data) :
    ∃ fs1 e, Mv fs (deref fs.heap X).name (deref fs.heap Y).name = some (fs1, e) ∧
      ((deref fs.heap X).name ∈ childNames fs.heap Y →
        e = some .ErrSubdirAlreadyExists ∧ fs1 = fs) ∧
      ((deref fs.heap X).name ∉ childNames fs.heap Y →
        e = none ∧ (deref fs1.heap X).parent = some Y ∧ X ∈ (deref fs1.heap Y).subs ∧
        X ∉ (deref fs1.heap c).subs) := by
  have hYc : Y ≠ c := h.ne_current_of_mem hc hY
  have hres : resolveSteps fs.heap (Split (deref fs.heap Y).name) c = .found Y := by
    rw [Split_of_not_mem _ h3, resolveSteps_cons, resolveStep_name h.heapInv hY h1 h2]
    rfl
  have hcond : ¬ (Y = X ∨ some Y = fs.current) := by
    rintro (hyx | hyc)
    · exact hXY hyx.symm
    · rw [hc] at hyc
      exact hYc (Option.some.inj hyc)
  rw [Mv_of_child h hc hX, hres, finishMv_found, if_neg hcond]
  cases hf : findSub fs.heap (deref fs.heap X).name (deref fs.heap Y).subs with
  | some s =>
    have hmem : (deref fs.heap X).name ∈ childNames fs.heap Y :=
      mem_childNames.mpr ⟨s, findSub_some hf⟩
    exact ⟨fs, _, rfl, fun _ => ⟨rfl, rfl⟩, fun hn => absurd hmem hn⟩
  | none =>
    have hmem : (deref fs.heap X).name ∉ childNames fs.heap Y :=
      findSub_eq_none_iff_not_mem.mp hf
    have hYlt : Y < fs.heap.length := (h.heapInv.child c Y hY).1
    obtain ⟨heap2, hmv, _, hderef, _⟩ := moveDirectory_heapInv
      (moveReady_of_heapInv h.heapInv hX hYlt (findSub_eq_none_iff.mp hf))
    simp only [hmv]
    refine ⟨_, none, rfl, fun hm => absurd hm hmem, fun _ => ⟨rfl, ?_, ?_, ?_⟩⟩
    · show (deref heap2 X).parent = some Y
      rw [hderef, movedDir_parent, if_pos rfl]
    · show X ∈ (deref heap2 Y).subs
      rw [hderef]
      unfold movedDir
      simp only [if_true]
      rw [mem_sortSlice]
      exact List.mem_append_right _ (List.mem_singleton_self X)
    · show X ∉ (deref heap2 c).subs
      rw [hderef]
      unfold movedDir
      simp only [if_neg hYc.symm, if_true]
      intro hm
      exact ((nodup_of_sorted (h.heapInv.sorted c)).mem_erase_iff.mp hm).1 rfl

/-- In `exampleState`, for the siblings `sub1` (address 1) and `sub2`
(address 2), `sub2` holding a `sub1`. -/
theorem C9_Mv_onto_sibling_witness :
    Inv exampleState ∧
    Mv exampleState "sub1" "sub2" = some (exampleState, some .ErrSubdirAlreadyExists) ∧
    ∃ fs1 e, Mv exampleState (deref exampleState.heap 1).name (deref exampleState.heap 2).name
        = some (fs1, e) ∧
      ((deref exampleState.heap 1).name ∈ childNames exampleState.heap 2 →
        e = some .ErrSubdirAlreadyExists ∧ fs1 = exampleState) ∧
      ((deref exampleState.heap 1).name ∉ childNames exampleState.heap 2 →
        e = none ∧ (deref fs1.heap 1).parent = some 2 ∧ 1 ∈ (deref fs1.heap 2).subs ∧
        1 ∉ (deref fs1.heap 0).subs) :=
  ⟨Inv_exampleState, by decide,
    C9_Mv_onto_sibling exampleState 0 1 2 Inv_exampleState rfl (by decide) (by decide)
      (by decide) (by decide) (by decide) (by decide)⟩

/-- C9 as stated fails: in the state with the two empty siblings `sub1` and
`sub2` under the root, `Mv("sub1", "sub2")` returns no error and moves `sub1`
into `sub2`; and for a sibling named `..`, `Mv("a\\b", "..")` at the root
returns `ErrSubdirDoesNotExist`. -/
theorem C9_counterexample :
    runOps CreateFilesystem [.AddSubdir "sub1", .AddSubdir "sub2"] = some siblingsState ∧
    childNames siblingsState.heap 0 = ["sub1", "sub2"] ∧
    Mv siblingsState "sub1" "sub2" = some (siblingsMovedState, none) ∧
    siblingsMovedState ≠ siblingsState ∧
    childNames siblingsMovedState.heap 0 = ["sub2"] ∧
    childNames siblingsMovedState.heap 2 = ["sub1"] ∧
    runOps CreateFilesystem [.AddSubdir "..", .AddSubdir "a\\b"] = some oddNamesState ∧
    Mv oddNamesState "a\\b" ".." = some (oddNamesState, some .ErrSubdirDoesNotExist) := by
  decide

/-- C10, as the code has it: for every child `X` of the current directory,
`Mv(X, ".")` returns no error and changes nothing; so does `Mv(X, X)` when
the name of `X` is a single path token (no backslash) other than `".."`; so
does `Mv(X, to)` for every path `to` whose tokens all resolve, back to the
current directory, such as `Y\..` for a child `Y` whose name is a single
path token other than `"."` and `".."`. -/
theorem C10_Mv_to_same_place (fs : filesystem) (c X : Nat) (h : Inv fs)
    (hc : fs.current = some c) (hX : X ∈ (deref fs.heap c).subs) :
    Mv fs (deref fs.heap X).name "." = some (fs, none) ∧
    ((deref fs.heap X).name ≠ ".." → '\\' ∉ (deref fs.heap X).name.data →
      Mv fs (deref fs.heap X).name (deref fs.heap X).name = some (fs, none)) ∧
    (∀ dst, resolvePath fs.heap (Split dst) c = some c →
      Mv fs (deref fs.heap X).name dst = some (fs, none)) ∧
    (∀ Y, Y ∈ (deref fs.heap c).subs → (deref fs.heap Y).name ≠ "." →
      (deref fs.heap Y).name ≠ ".." → '\\' ∉ (deref fs.heap Y).name.data →
      Mv fs (deref fs.heap X).name ((deref fs.heap Y).name ++ "\\..") = some (fs, none)) := by
  refine ⟨?_, ?_, fun dst hres => Mv_to_current h hc hX dst hres, ?_⟩
  · apply Mv_to_current h hc hX
    rw [Split_dot, resolvePath_cons, resolveStep_dot]
    rfl
  · intro h2 h3
    by_cases h1 : (deref fs.heap X).name = "."
    · apply Mv_to_current h hc hX
      rw [Split_of_not_mem _ h3, resolvePath_cons, h1, resolveStep_dot]
      rfl
    · have hres : resolveSteps fs.heap (Split (deref fs.heap X).name) c = .found X := by
        rw [Split_of_not_mem _ h3, resolveSteps_cons, resolveStep_name h.heapInv hX h1 h2]
        rfl
      rw [Mv_of_child h hc hX, hres, finishMv_found, if_pos (Or.inl rfl)]
  · intro Y hY h1 h2 h3
    apply Mv_to_current h hc hX
    rw [Split_append_dotdot _ h3, resolvePath_cons, resolveStep_name h.heapInv hY h1 h2]
    simp only
    rw [resolvePath_cons, resolveStep_dotdot, (h.heapInv.child c Y hY).2]
    rfl

/-- In `exampleState`, for the child `sub1` (address 1) and its sibling
`sub2` (address 2). -/
theorem C10_Mv_to_same_place_witness :
    Inv exampleState ∧
    Mv exampleState "sub1" "." = some (exampleState, none) ∧
    Mv exampleState "sub1" "sub1" = some (exampleState, none) ∧
    Mv exampleState "sub1" "sub2\\.." = some (exampleState, none) := by
  obtain ⟨h1, h2, _, h4⟩ := C10_Mv_to_same_place exampleState 0 1 Inv_exampleState rfl
    (by decide)
  exact ⟨Inv_exampleState, h1, h2 (by decide) (by decide),
    h4 2 (by decide) (by decide) (by decide) (by decide)⟩

/-- C10 as stated fails for a child named `..` and for a child whose name
holds a backslash: at the root, `Mv("..", "..")` and `Mv("a\\b", "a\\b")`
return `ErrSubdirDoesNotExist`. -/
theorem C10_counterexample :
    runOps CreateFilesystem [.AddSubdir "..", .AddSubdir "a\\b"] = some oddNamesState ∧
    childNames oddNamesState.heap 0 = ["..", "a\\b"] ∧
    Mv oddNamesState ".." ".." = some (oddNamesState, some .ErrSubdirDoesNotExist) ∧
    Mv oddNamesState "a\\b" "a\\b" = some (oddNamesState, some .ErrSubdirDoesNotExist) := by
  decide

/-! ## Subtrees -/

theorem ancestor_add (heap : List dir) (a b : Nat) :
    ∀ p, ancestor heap (a + b) p = (ancestor heap a p).bind (ancestor heap b) := by
  induction a with
  | zero =>
    intro p
    rw [Nat.zero_add]
    rfl
  | succ a ih =>
    intro p
    rw [Nat.succ_add]
    cases hq : (deref heap p).parent with
    | none =>
      unfold ancestor
      rw [hq]
      rfl
    | some q =>
      rw [ancestor_succ_of_parent _ hq, ancestor_succ_of_parent _ hq]
      exact ih q

/-- No directory lies above a parentless one. -/
theorem ancestor_succ_of_parent_none {heap : List dir} {r : Nat}
    (hr : (deref heap r).parent = none) (n : Nat) : ancestor heap (n + 1) r = none := by
  unfold ancestor
  rw [hr]

/-- A directory with a parentless ancestor lies on no cycle of `parent`
pointers. -/
theorem ancestor_ne_self {heap : List dir} {c r : Nat} (m : Nat)
    (hm : ancestor heap m c = some r) (hr : (deref heap r).parent = none) (k : Nat) :
    ancestor heap (k + 1) c ≠ some c := by
  intro hk
  have hall : ∀ j, ancestor heap (j * (k + 1)) c = some c := by
    intro j
    induction j with
    | zero =>
      rw [Nat.zero_mul]
      rfl
    | succ j ih =>
      rw [Nat.succ_mul, ancestor_add, ih]
      exact hk
  have h1 := hall (m + 1)
  have h2 : (m + 1) * (k + 1) = m + (m * k + k + 1) := by ring
  rw [h2, ancestor_add, hm] at h1
  have h3 : ancestor heap (m * k + k + 1) r = none := ancestor_succ_of_parent_none hr _
  rw [Option.some_bind, h3] at h1
  cases h1

/-- Under the pointer structure of `HeapInv` a directory is an ancestor of
the directories reachable from it. -/
theorem ancestor_of_reachable {heap : List dir} (h : HeapInv heap) {p q : Nat}
    (hreach : Reachable heap p q) : ∃ n, ancestor heap n q = some p := by
  induction hreach with
  | refl => exact ⟨0, rfl⟩
  | step _ hr ih =>
    obtain ⟨n, hn⟩ := ih
    exact ⟨n + 1, by rw [ancestor_succ_of_parent n (h.child _ _ hr).2]; exact hn⟩

/-- The current directory is outside the subtree of each of its
subdirectories. -/
theorem Inv.not_reachable_current {fs : filesystem} {c X : Nat} (h : Inv fs)
    (hc : fs.current = some c) (hX : X ∈ (deref fs.heap c).subs) :
    ¬ Reachable fs.heap X c := by
  intro hreach
  obtain ⟨n, hn⟩ := ancestor_of_reachable h.heapInv hreach
  obtain ⟨r, hr, _, hrp⟩ := h.root
  obtain ⟨m, hm⟩ := h.rooted c hc
  rw [hr] at hm
  apply ancestor_ne_self m hm hrp n
  rw [ancestor_add, hn, Option.some_bind]
  exact ancestor_succ_of_parent 0 (h.heapInv.child c X hX).2

/-! ## The claims on the effect of `Mv` -/

/-- The renaming branch of `Mv`: the heap after the call is the one
`movedDir` describes, on the heap in which `X` has its new name. -/
theorem Mv_rename_eq {fs : filesystem} {c X D : Nat} {pre : List String} {t dst : String}
    (h : Inv fs) (hc : fs.current = some c) (hX : X ∈ (deref fs.heap c).subs)
    (hsplit : Split dst = pre ++ [t]) (hres : resolvePath fs.heap pre c = some D)
    (ht1 : t ≠ ".") (ht2 : t ≠ "..") (ht3 : t ∉ childNames fs.heap D) :
    ∃ heap2, Mv fs (deref fs.heap X).name dst = some ({ fs with heap := heap2 }, none) ∧
      heap2.length = fs.heap.length ∧ HeapInv heap2 ∧ D < fs.heap.length ∧
      ∀ q, deref heap2 q
        = movedDir (store fs.heap X { deref fs.heap X with name := t }) X D c q := by
  obtain ⟨c2, hc2, hlt⟩ := h.current
  rw [hc] at hc2
  cases hc2
  have hrs : resolveSteps fs.heap (Split dst) c = .rename D t := by
    rw [hsplit]
    exact resolveSteps_rename_of_resolvePath fs.heap t D ht1 ht2 ht3 pre c hres
  obtain ⟨hD, hf⟩ := (resolveSteps_spec h.heapInv (Split dst) c hlt).2 D t hrs
  obtain ⟨heap2, hmv, hlen, hderef, hinv⟩ := moveDirectory_heapInv
    (moveReady_rename t h.heapInv hX hD (findSub_eq_none_iff.mp hf))
  refine ⟨heap2, ?_, ?_, hinv, hD, hderef⟩
  · rw [Mv_of_child h hc hX, hrs, finishMv_rename, hmv]
  · rw [hlen, length_store]

/-- The moving branch of `Mv`, without renaming: the heap after the call is
the one `movedDir` describes. -/
theorem Mv_move_eq {fs : filesystem} {c X D : Nat} {dst : String}
    (h : Inv fs) (hc : fs.current = some c) (hX : X ∈ (deref fs.heap c).subs)
    (hres : resolvePath fs.heap (Split dst) c = some D) (hDc : D ≠ c) (hDX : D ≠ X)
    (hfresh : (deref fs.heap X).name ∉ childNames fs.heap D) :
    ∃ heap2, Mv fs (deref fs.heap X).name dst = some ({ fs with heap := heap2 }, none) ∧
      heap2.length = fs.heap.length ∧ HeapInv heap2 ∧ D < fs.heap.length ∧
      ∀ q, deref heap2 q = movedDir fs.heap X D c q := by
  obtain ⟨c2, hc2, hlt⟩ := h.current
  rw [hc] at hc2
  cases hc2
  have hrs : resolveSteps fs.heap (Split dst) c = .found D :=
    (resolveSteps_found_iff _ _ _ _).mpr hres
  have hD := (resolveSteps_spec h.heapInv (Split dst) c hlt).1 D hrs
  have hf := findSub_eq_none_iff_not_mem.mpr hfresh
  obtain ⟨heap2, hmv, hlen, hderef, hinv⟩ := moveDirectory_heapInv
    (moveReady_of_heapInv h.heapInv hX hD (findSub_eq_none_iff.mp hf))
  refine ⟨heap2, ?_, hlen, hinv, hD, hderef⟩
  have hcond : ¬ (D = X ∨ some D = fs.current) := by
    rintro (h1 | h1)
    · exact hDX h1
    · rw [hc] at h1
      exact hDc (Option.some.inj h1)
  rw [Mv_of_child h hc hX, hrs, finishMv_found, if_neg hcond, hf]
  simp only [hmv]

theorem dir_ext {d1 d2 : dir} (h1 : d1.name = d2.name) (h2 : d1.parent = d2.parent)
    (h3 : d1.subs = d2.subs) : d1 = d2 := by
  cases d1
  cases d2
  simp only [dir.mk.injEq]
  exact ⟨h1, h2, h3⟩

/-- The state after the renaming branch of `Mv` has renamed `X` to `t` and
moved it into `D`. -/
theorem Mv_rename_result {fs : filesystem} {c X D : Nat} {pre : List String} {t dst : String}
    (h : Inv fs) (hc : fs.current = some c) (hX : X ∈ (deref fs.heap c).subs)
    (hsplit : Split dst = pre ++ [t]) (hres : resolvePath fs.heap pre c = some D)
    (ht1 : t ≠ ".") (ht2 : t ≠ "..") (ht3 : t ∉ childNames fs.heap D) :
    ∃ fs1, Mv fs (deref fs.heap X).name dst = some (fs1, none) ∧
      fs1.current = fs.current ∧ fs1.root = fs.root ∧
      fs1.heap.length = fs.heap.length ∧
      (deref fs1.heap X).name = t ∧
      (deref fs1.heap X).parent = some D ∧
      (deref fs1.heap D).subs.Perm (X :: (deref fs.heap D).subs.erase X) ∧
      List.Sorted strLess (childNames fs1.heap D) ∧
      (deref fs.heap X).name ∉ childNames fs1.heap c ∧
      (D ≠ c → (deref fs1.heap c).subs = (deref fs.heap c).subs.erase X) ∧
      (D ≠ X → (deref fs1.heap X).subs = (deref fs.heap X).subs) ∧
      (∀ q, q ≠ X → (deref fs1.heap q).name = (deref fs.heap q).name ∧
        (deref fs1.heap q).parent = (deref fs.heap q).parent) ∧
      (∀ q, q ≠ D → q ≠ c → (deref fs1.heap q).subs = (deref fs.heap q).subs) := by
  obtain ⟨heap2, hmv, hlen, hinv, _, hderef⟩ :=
    Mv_rename_eq h hc hX hsplit hres ht1 ht2 ht3
  have hXlt : X < fs.heap.length := (h.heapInv.child c X hX).1
  have hXc : X ≠ c := h.ne_current_of_mem hc hX
  have hnd := nodup_of_sorted (h.heapInv.sorted c)
  have hname : ∀ q, (deref heap2 q).name = if q = X then t else (deref fs.heap q).name := by
    intro q
    rw [hderef, movedDir_name, deref_rename_name _ _ _ _ hXlt]
  have hpar : ∀ q, (deref heap2 q).parent
      = if q = X then some D else (deref fs.heap q).parent := by
    intro q
    rw [hderef, movedDir_parent, deref_rename_parent]
  have hsubsD : (deref heap2 D).subs.Perm (X :: (deref fs.heap D).subs.erase X) := by
    rw [hderef]
    unfold movedDir
    simp only [if_true, deref_rename_subs]
    refine (perm_sortSlice _ _).trans ((List.perm_append_singleton _ _).trans ?_)
    by_cases hDc : D = c
    · rw [if_pos hDc, hDc]
    · rw [if_neg hDc, List.erase_of_not_mem]
      exact fun hm => hDc (h.heapInv.parent_unique hm hX)
  have hsubsc : D ≠ c → (deref heap2 c).subs = (deref fs.heap c).subs.erase X := by
    intro hDc
    rw [hderef]
    unfold movedDir
    simp only [if_neg (Ne.symm hDc), if_true, deref_rename_subs]
  have hsubs : ∀ q, q ≠ D → q ≠ c → (deref heap2 q).subs = (deref fs.heap q).subs := by
    intro q h1 h2
    rw [hderef]
    unfold movedDir
    simp only [if_neg h1, if_neg h2, deref_rename_subs]
  have hother : ∀ q, q ∈ (deref fs.heap c).subs.erase X →
      (deref heap2 q).name ≠ (deref fs.heap X).name := by
    intro q hq hn
    have hq2 := hnd.mem_erase_iff.mp hq
    rw [hname, if_neg hq2.1] at hn
    exact hq2.1 (eq_of_sorted_of_name_eq (h.heapInv.sorted c) hq2.2 hX hn)
  refine ⟨{ fs with heap := heap2 }, hmv, rfl, rfl, hlen, ?_, ?_, hsubsD,
    hinv.sorted_childNames D, ?_, hsubsc, ?_, ?_, hsubs⟩
  · show (deref heap2 X).name = t
    rw [hname, if_pos rfl]
  · show (deref heap2 X).parent = some D
    rw [hpar, if_pos rfl]
  · show (deref fs.heap X).name ∉ childNames heap2 c
    rw [mem_childNames]
    rintro ⟨q, hq, hn⟩
    by_cases hDc : D = c
    · subst hDc
      rcases List.mem_cons.mp ((List.Perm.mem_iff hsubsD).mp hq) with hqX | hq2
      · rw [hqX, hname, if_pos rfl] at hn
        exact ht3 (mem_childNames.mpr ⟨X, hX, hn.symm⟩)
      · exact hother q hq2 hn
    · rw [hsubsc hDc] at hq
      exact hother q hq hn
  · intro hDX
    exact hsubs X (Ne.symm hDX) hXc
  · intro q hq
    show (deref heap2 q).name = _ ∧ (deref heap2 q).parent = _
    rw [hname, hpar, if_neg hq, if_neg hq]
    exact ⟨rfl, rfl⟩

/-- Nothing but itself is reachable from a directory without
subdirectories. -/
theorem eq_of_reachable_of_subs_nil {heap : List dir} {p q : Nat}
    (hp : (deref heap p).subs = []) (h : Reachable heap p q) : q = p := by
  induction h with
  | refl => rfl
  | step _ hr ih =>
    rw [ih, hp] at hr
    cases hr

/-- C11: for a child `X` of the current directory and a path whose tokens
before the last resolve to a directory `D` outside the subtree of `X` and
whose last token `t`, not `"."` or `".."`, names no child of `D`: `Mv`
returns no error, `X` has the name `t` and the parent `D`, the children of
`D` are the former ones and `X`, sorted by name, no child of the current
directory has the former name of `X`, `X` is taken out of the children of the
current directory when `D` is another directory, and the subtree of `X` is
as it was. In particular `Mv(X, t)` for a token `t` that names no child of
the current directory renames `X` in place. -/
theorem C11_Mv_rename (fs : filesystem) (c X D : Nat) (pre : List String) (t dst : String)
    (h : Inv fs) (hc : fs.current = some c) (hX : X ∈ (deref fs.heap c).subs)
    (hsplit : Split dst = pre ++ [t]) (hres : resolvePath fs.heap pre c = some D)
    (ht1 : t ≠ ".") (ht2 : t ≠ "..") (ht3 : t ∉ childNames fs.heap D)
    (hout : ¬ Reachable fs.heap X D) :
    (∃ fs1, Mv fs (deref fs.heap X).name dst = some (fs1, none) ∧
      fs1.current = fs.current ∧ fs1.root = fs.root ∧
      (deref fs1.heap X).name = t ∧
      (deref fs1.heap X).parent = some D ∧
      X ∈ (deref fs1.heap D).subs ∧
      (deref fs1.heap D).subs.Perm (X :: (deref fs.heap D).subs.erase X) ∧
      List.Sorted strLess (childNames fs1.heap D) ∧
      (deref fs.heap X).name ∉ childNames fs1.heap c ∧
      (D ≠ c → X ∉ (deref fs1.heap c).subs ∧
        (deref fs1.heap c).subs = (deref fs.heap c).subs.erase X) ∧
      (∀ q, Reachable fs.heap X q →
        (deref fs1.heap q).subs = (deref fs.heap q).subs ∧
        (q ≠ X → deref fs1.heap q = deref fs.heap q))) ∧
    (∀ t2 : String, t2 ≠ "." → t2 ≠ ".." → '\\' ∉ t2.data → t2 ∉ childNames fs.heap c →
      ∃ fs1, Mv fs (deref fs.heap X).name t2 = some (fs1, none) ∧
        (deref fs1.heap X).name = t2 ∧
        (deref fs1.heap X).parent = some c ∧
        (deref fs1.heap c).subs.Perm (deref fs.heap c).subs ∧
        (deref fs1.heap X).subs = (deref fs.heap X).subs ∧
        ∀ q, q ≠ X → q ≠ c → deref fs1.heap q = deref fs.heap q) := by
  have hXc : X ≠ c := h.ne_current_of_mem hc hX
  have hnd := nodup_of_sorted (h.heapInv.sorted c)
  constructor
  · obtain ⟨fs1, hmv, hcur, hroot, _, hname, hpar, hperm, hsorted, hold, hsubsc, hsubsX,
      hframe, hsubs⟩ := Mv_rename_result h hc hX hsplit hres ht1 ht2 ht3
    have hDX : D ≠ X := fun hDX => hout (hDX ▸ Reachable.refl)
    refine ⟨fs1, hmv, hcur, hroot, hname, hpar,
      (List.Perm.mem_iff hperm).mpr (List.mem_cons_self _ _), hperm, hsorted, hold, ?_, ?_⟩
    · intro hDc
      refine ⟨?_, hsubsc hDc⟩
      rw [hsubsc hDc]
      exact fun hm => (hnd.mem_erase_iff.mp hm).1 rfl
    · intro q hq
      have hqD : q ≠ D := fun hqD => hout (hqD ▸ hq)
      have hqc : q ≠ c := fun hqc => h.not_reachable_current hc hX (hqc ▸ hq)
      refine ⟨hsubs q hqD hqc, fun hqX => ?_⟩
      exact dir_ext (hframe q hqX).1 (hframe q hqX).2 (hsubs q hqD hqc)
  · intro t2 h1 h2 h3 h4
    obtain ⟨fs1, hmv, _, _, _, hname, hpar, hperm, _, _, _, hsubsX, hframe, hsubs⟩ :=
      @Mv_rename_result fs c X c [] t2 t2 h hc hX (Split_of_not_mem t2 h3) rfl h1 h2 h4
    refine ⟨fs1, hmv, hname, hpar, hperm.trans (List.perm_cons_erase hX).symm,
      hsubsX (Ne.symm hXc), ?_⟩
    intro q hqX hqc
    exact dir_ext (hframe q hqX).1 (hframe q hqX).2 (hsubs q hqc hqc)

/-- In `exampleState`, `Mv("sub1", "sub2\\sub111")` moves the `sub1` at
address 1 into `sub2`, at address 2, under the name `sub111`. -/
theorem C11_Mv_rename_witness :
    Inv exampleState ∧
    ∃ fs1, Mv exampleState "sub1" "sub2\\sub111" = some (fs1, none) ∧
      (deref fs1.heap 1).name = "sub111" ∧ (deref fs1.heap 1).parent = some 2 ∧
      1 ∈ (deref fs1.heap 2).subs ∧ "sub1" ∉ childNames fs1.heap 0 := by
  obtain ⟨⟨fs1, hmv, _, _, hname, hpar, hmem, _, _, hold, _⟩, _⟩ :=
    C11_Mv_rename exampleState 0 1 2 ["sub2"] "sub111" "sub2\\sub111" Inv_exampleState rfl
      (by decide) (by decide) (by decide) (by decide) (by decide) (by decide)
      (fun hr => absurd (@eq_of_reachable_of_subs_nil exampleState.heap 1 2 rfl hr) (by decide))
  exact ⟨Inv_exampleState, fs1, hmv, hname, hpar, hmem, hold⟩

/-- Sorting a strictly sorted slice with one more directory at its end, of a
new name, puts that directory at its sorted position. -/
theorem sortSlice_append_singleton {heap : List dir} (l : List Nat) (x : Nat)
    (hs : List.Sorted (nameLess heap) l)
    (hne : ∀ b ∈ l, (deref heap b).name ≠ (deref heap x).name) :
    sortSlice heap (l ++ [x]) = l.orderedInsert (nameLess heap) x := by
  apply eq_of_perm_of_sorted_nameLess
  · exact (perm_sortSlice _ _).trans
      ((List.perm_append_singleton _ _).trans (List.perm_orderedInsert _ _ _).symm)
  · apply sorted_sortSlice
    rw [List.pairwise_append]
    exact ⟨pairwise_ne_of_sorted hs, List.pairwise_singleton _ _,
      fun a ha b hb => by rw [List.mem_singleton.mp hb]; exact hne a ha⟩
  · exact sorted_orderedInsert x l hs hne

/-- C12: for a child `X` of the current directory and a path all of whose
tokens resolve to a directory `D` that is not the current directory, not
`X`, not in the subtree of `X`, and has no child with the name of `X`: `Mv`
returns no error, the children of the current directory are the former ones
without `X`, in the same order, the children of `D` are the former ones with
`X` inserted at its sorted position, `X` has the parent `D` and is otherwise
as before, and the cursor, the root and every other directory, the subtree
of `X` included, are unchanged. -/
theorem C12_Mv_move (fs : filesystem) (c X D : Nat) (dst : String)
    (h : Inv fs) (hc : fs.current = some c) (hX : X ∈ (deref fs.heap c).subs)
    (hres : resolvePath fs.heap (Split dst) c = some D) (hDc : D ≠ c) (hDX : D ≠ X)
    (hout : ¬ Reachable fs.heap X D)
    (hfresh : (deref fs.heap X).name ∉ childNames fs.heap D) :
    ∃ fs1, Mv fs (deref fs.heap X).name dst = some (fs1, none) ∧
      fs1.current = fs.current ∧ fs1.root = fs.root ∧
      fs1.heap.length = fs.heap.length ∧
      deref fs1.heap c
        = { deref fs.heap c with subs := (deref fs.heap c).subs.erase X } ∧
      deref fs1.heap D
        = { deref fs.heap D with
            subs := (deref fs.heap D).subs.orderedInsert (nameLess fs.heap) X } ∧
      List.Sorted strLess (childNames fs1.heap D) ∧
      deref fs1.heap X = { deref fs.heap X with parent := some D } ∧
      (∀ q, q ≠ c → q ≠ D → q ≠ X → deref fs1.heap q = deref fs.heap q) ∧
      (∀ q, Reachable fs.heap X q → q ≠ X → deref fs1.heap q = deref fs.heap q) := by
  obtain ⟨heap2, hmv, hlen, hinv, _, hderef⟩ := Mv_move_eq h hc hX hres hDc hDX hfresh
  have hXc : X ≠ c := h.ne_current_of_mem hc hX
  have hframe : ∀ q, q ≠ c → q ≠ D → q ≠ X → deref heap2 q = deref fs.heap q := by
    intro q h1 h2 h3
    rw [hderef]
    unfold movedDir
    simp only [if_neg h1, if_neg h2, if_neg h3]
  refine ⟨{ fs with heap := heap2 }, hmv, rfl, rfl, hlen, ?_, ?_, hinv.sorted_childNames D,
    ?_, hframe, ?_⟩
  · show deref heap2 c = _
    rw [hderef]
    unfold movedDir
    simp only [if_neg hXc.symm, if_neg hDc.symm, if_true]
  · show deref heap2 D = _
    rw [hderef]
    unfold movedDir
    simp only [if_neg hDX, if_neg hDc, if_true]
    rw [sortSlice_append_singleton _ _ (h.heapInv.sorted D)]
    intro b hb hn
    exact hfresh (mem_childNames.mpr ⟨b, hb, hn⟩)
  · show deref heap2 X = _
    rw [hderef]
    unfold movedDir
    simp only [if_neg hDX.symm, if_neg hXc, if_true]
  · intro q hq hqX
    have hqD : q ≠ D := fun hqD => hout (hqD ▸ hq)
    have hqc : q ≠ c := fun hqc => h.not_reachable_current hc hX (hqc ▸ hq)
    exact hframe q hqc hqD hqX

/-- In `siblingsState`, `Mv("sub1", "sub2")` moves `sub1`, at address 1, into
the empty `sub2`, at address 2. -/
theorem C12_Mv_move_witness :
    Inv siblingsState ∧
    ∃ fs1, Mv siblingsState "sub1" "sub2" = some (fs1, none) ∧
      (deref fs1.heap 0).subs = [2] ∧ (deref fs1.heap 2).subs = [1] ∧
      (deref fs1.heap 1).parent = some 2 := by
  have hinv : Inv siblingsState :=
    @inv_of_runOps [.AddSubdir "sub1", .AddSubdir "sub2"] siblingsState (by decide)
  obtain ⟨fs1, hmv, _, _, _, h0, h2, _, h1, _⟩ :=
    C12_Mv_move siblingsState 0 1 2 "sub2" hinv rfl (by decide) (by decide) (by decide)
      (by decide)
      (fun hr => absurd (@eq_of_reachable_of_subs_nil siblingsState.heap 1 2 rfl hr)
        (by decide))
      (by decide)
  refine ⟨hinv, fs1, hmv, ?_, ?_, ?_⟩
  · rw [h0]
    decide
  · rw [h2]
    decide
  · rw [h1]

/-! ## The claim on `dir` in a directory without children -/

/-- The state reached by `mkdir sub1` and `cd sub1`: the current directory,
`sub1`, is empty and is not the root. -/
theorem runOps_emptySubdirState :
    runOps CreateFilesystem [.AddSubdir "sub1", .Cd "sub1"] = some emptySubdirState := by
  decide

/-- C13 fails on the code: `handleDir` tests `len(current.subs) == 0` after
its loop has moved `current` up to the root. At the root without children it
returns the header and `No subdirectories`; but in the state reached by
`mkdir sub1`, `cd sub1`, where the current directory has no children and the
root has one, the path loop ends (fuel 1 is enough) and `handleDir` then
panics, on `fs.current.subs[0]`. -/
theorem C13_dir_panics_in_empty_subdirectory :
    handleDir 0 CreateFilesystem = .ok ["Directory of root:", "No subdirectories"] ∧
    runOps CreateFilesystem [.AddSubdir "sub1", .Cd "sub1"] = some emptySubdirState ∧
    emptySubdirState.current = some 1 ∧ (deref emptySubdirState.heap 1).subs = [] ∧
    currentPath emptySubdirState.heap emptySubdirState.root 1 1 "sub1:"
      = .ok (0, "root\\sub1:") ∧
    ∀ fuel, handleDir (fuel + 1) emptySubdirState = .error .panic := by
  refine ⟨rfl, by decide, rfl, rfl, rfl, ?_⟩
  intro fuel
  cases fuel <;> rfl

/-! ## The path of the current directory -/

theorem intercalate_go_append_singleton (s a : String) (l : List String) :
    ∀ acc, String.intercalate.go acc s (l ++ [a]) = String.intercalate.go acc s l ++ s ++ a := by
  induction l with
  | nil => intro acc; rfl
  | cons b l ih =>
    intro acc
    exact ih (acc ++ s ++ b)

/-- Joining one more name. -/
theorem intercalate_append_singleton (s a : String) (l : List String) (hl : l ≠ []) :
    s.intercalate (l ++ [a]) = s.intercalate l ++ s ++ a := by
  cases l with
  | nil => exact absurd rfl hl
  | cons b l => exact intercalate_go_append_singleton s a l b

theorem chain_ne_nil (heap : List dir) (n p : Nat) : chain heap n p ≠ [] := by
  cases n with
  | zero => simp [chain]
  | succ n =>
    unfold chain
    cases (deref heap p).parent <;> simp

theorem pathOf_zero (heap : List dir) (p : Nat) : pathOf heap 0 p = (deref heap p).name :=
  rfl

theorem pathOf_succ {heap : List dir} {p q : Nat} (n : Nat)
    (h : (deref heap p).parent = some q) :
    pathOf heap (n + 1) p = pathOf heap n q ++ "\\" ++ (deref heap p).name := by
  unfold pathOf
  conv_lhs => unfold chain
  rw [h]
  simp only [List.map_append, List.map_cons, List.map_nil]
  apply intercalate_append_singleton
  intro hnil
  exact chain_ne_nil heap n q (List.map_eq_nil_iff.mp hnil)

/-- With fuel for each step up to the root, the path loop of `handleDir` and
`handleTree` ends at the root with the path of the specification. -/
theorem currentPath_eq {heap : List dir} {r : Nat} (hr : (deref heap r).parent = none)
    (n : Nat) : ∀ c fuel acc, ancestor heap n c = some r → n ≤ fuel →
      currentPath heap (some r) fuel c ((deref heap c).name ++ acc)
        = .ok (r, pathOf heap n c ++ acc) := by
  induction n with
  | zero =>
    intro c fuel acc hc _
    cases hc
    cases fuel <;> simp [currentPath, pathOf_zero]
  | succ n ih =>
    intro c fuel acc hc hfuel
    cases hp : (deref heap c).parent with
    | none =>
      unfold ancestor at hc
      rw [hp] at hc
      cases hc
    | some p =>
      rw [ancestor_succ_of_parent n hp] at hc
      have hcr : ¬ (some c = some r) := by
        intro h
        cases h
        rw [hr] at hp
        cases hp
      cases fuel with
      | zero => omega
      | succ fuel =>
        unfold currentPath
        rw [if_neg hcr, hp]
        simp only
        rw [String.append_assoc, ih p fuel _ hc (by omega), pathOf_succ n hp]
        simp only [String.append_assoc]

/-! ## The listing of `dir` -/

/-- The loop of `handleDir` never indexes out of range: it builds the lines
that `packLines` tells. -/
theorem dirLoop_eq_packLines (heap : List dir) (subs : List Nat) :
    ∀ (done : List String) (line : String),
      dirLoop heap subs (done ++ [line]) done.length
        = .ok (packLines (subs.map (fun q => (deref heap q).name)) done line) := by
  induction subs with
  | nil => intro done line; rfl
  | cons q subs ih =>
    intro done line
    have hget : (done ++ [line])[done.length]? = some line := by
      rw [List.getElem?_append_right (Nat.le_refl _)]
      simp
    unfold dirLoop
    rw [hget]
    simp only [List.map_cons]
    unfold packLines
    by_cases hw : len line + len (deref heap q).name + (8 - len line % 8) > 80
    · rw [if_pos hw, if_pos hw]
      have := ih (done ++ [line]) (deref heap q).name
      rw [List.length_append, List.length_singleton] at this
      exact this
    · rw [if_neg hw, if_neg hw]
      have hset : (done ++ [line]).set done.length
          (padRight (8 - len line % 8 + len line) line ++ (deref heap q).name)
          = done ++ [padRight (8 - len line % 8 + len line) line ++ (deref heap q).name] := by
        rw [List.set_append_right _ _ (Nat.le_refl _)]
        simp
      rw [hset]
      exact ih done _

/-- A directory at depth `n + 1` has an ancestor that is a child of its
`n + 1`-st ancestor. -/
theorem exists_child_of_ancestor {heap : List dir} {r : Nat} (n : Nat) :
    ∀ c, ancestor heap (n + 1) c = some r → ∃ a, (deref heap a).parent = some r := by
  induction n with
  | zero =>
    intro c hc
    cases hp : (deref heap c).parent with
    | none =>
      unfold ancestor at hc
      rw [hp] at hc
      cases hc
    | some p =>
      rw [ancestor_succ_of_parent 0 hp] at hc
      cases hc
      exact ⟨c, hp⟩
  | succ n ih =>
    intro c hc
    cases hp : (deref heap c).parent with
    | none =>
      unfold ancestor at hc
      rw [hp] at hc
      cases hc
    | some p =>
      rw [ancestor_succ_of_parent (n + 1) hp] at hc
      exact ih p hc

/-- What `handleDir` returns, with fuel for each step up to the root: in a
directory with children, the header and the packed lines; in the root
without children, the header and `No subdirectories`; in another directory
without children it panics. -/
theorem handleDir_eq {fs : filesystem} {c r n : Nat} (h : Inv fs)
    (hc : fs.current = some c) (hr : fs.root = some r)
    (hn : ancestor fs.heap n c = some r) (fuel : Nat) (hfuel : n ≤ fuel) :
    handleDir fuel fs =
      match (deref fs.heap c).subs with
      | [] =>
        if c = r then .ok ["Directory of " ++ (pathOf fs.heap n c ++ ":"), "No subdirectories"]
        else .error .panic
      | first :: rest =>
        .ok (("Directory of " ++ (pathOf fs.heap n c ++ ":")) ::
          packLines (rest.map (fun q => (deref fs.heap q).name)) []
            (deref fs.heap first).name) := by
  obtain ⟨r2, hr2, _, hrp⟩ := h.root
  rw [hr] at hr2
  cases hr2
  unfold handleDir
  rw [hc, hr]
  simp only
  rw [currentPath_eq hrp n c fuel ":" hn hfuel]
  simp only
  cases hsubs : (deref fs.heap c).subs with
  | nil =>
    simp only
    by_cases hcr : c = r
    · subst hcr
      rw [hsubs]
      simp
    · rw [if_neg hcr]
      have hne : (deref fs.heap r).subs.length ≠ 0 := by
        cases n with
        | zero =>
          cases hn
          exact absurd rfl hcr
        | succ n =>
          obtain ⟨a, ha⟩ := exists_child_of_ancestor n c hn
          exact fun h0 => List.ne_nil_of_mem (h.heapInv.parent a r ha)
            (List.length_eq_zero.mp h0)
      rw [if_neg hne]
  | cons first rest =>
    simp only
    have hne : (deref fs.heap r).subs.length ≠ 0 := by
      cases n with
      | zero =>
        cases hn
        rw [hsubs]
        simp
      | succ n =>
        obtain ⟨a, ha⟩ := exists_child_of_ancestor n c hn
        exact fun h0 => List.ne_nil_of_mem (h.heapInv.parent a r ha)
          (List.length_eq_zero.mp h0)
    rw [if_neg hne]
    have := dirLoop_eq_packLines fs.heap rest [] (deref fs.heap first).name
    simp only [List.nil_append, List.length_nil] at this
    rw [this]

/-! ## Lengths of strings: bytes and characters -/

theorem len_eq_utf8Len (s : String) : len s = String.utf8Len s.data := by
  cases s
  rfl

theorem len_append (a b : String) : len (a ++ b) = len a + len b := by
  rw [len_eq_utf8Len, len_eq_utf8Len, len_eq_utf8Len, String.data_append,
    String.utf8Len_append]

theorem utf8Size_pos (ch : Char) : 1 ≤ ch.utf8Size := by
  unfold Char.utf8Size
  simp only
  split_ifs <;> decide

/-- A string has at most as many characters as bytes. -/
theorem length_le_len (s : String) : s.length ≤ len s := by
  rw [len_eq_utf8Len]
  cases s with
  | mk cs =>
    show cs.length ≤ String.utf8Len cs
    induction cs with
    | nil => exact Nat.le_refl _
    | cons ch cs ih =>
      rw [String.utf8Len_cons, List.length_cons]
      have := utf8Size_pos ch
      omega

theorem length_spaces (p : Nat) : (String.mk (List.replicate p ' ')).length = p := by
  show (List.replicate p ' ').length = p
  simp

theorem len_spaces (p : Nat) : len (String.mk (List.replicate p ' ')) = p := by
  rw [len_eq_utf8Len]
  show String.utf8Len (List.replicate p ' ') = p
  induction p with
  | zero => rfl
  | succ p ih =>
    rw [List.replicate_succ, String.utf8Len_cons, ih]
    rfl

theorem length_padRight (width : Nat) (s : String) :
    (padRight width s).length = s.length + (width - s.length) := by
  unfold padRight
  rw [String.length_append, length_spaces]

theorem len_padRight (width : Nat) (s : String) :
    len (padRight width s) = len s + (width - s.length) := by
  unfold padRight
  rw [len_append, len_spaces]

/-! ## The claim on the width of the lines of `dir` -/

/-- Every line that `packLines` builds from names of at most 80 bytes has at
most 80 characters. -/
theorem packLines_length_le (names : List String) (hnames : ∀ name ∈ names, len name ≤ 80) :
    ∀ (done : List String) (line : String), (∀ l ∈ done, l.length ≤ 80) → line.length ≤ 80 →
      ∀ l ∈ packLines names done line, l.length ≤ 80 := by
  induction names with
  | nil =>
    intro done line hdone hline l hl
    unfold packLines at hl
    rcases List.mem_append.mp hl with hl | hl
    · exact hdone l hl
    · rw [List.mem_singleton.mp hl]
      exact hline
  | cons name names ih =>
    intro done line hdone hline
    have hname := hnames name (List.mem_cons_self _ _)
    have ih2 := ih (fun x hx => hnames x (List.mem_cons_of_mem _ hx))
    unfold packLines
    by_cases hw : len line + len name + (8 - len line % 8) > 80
    · rw [if_pos hw]
      apply ih2
      · intro l hl
        rcases List.mem_append.mp hl with hl | hl
        · exact hdone l hl
        · rw [List.mem_singleton.mp hl]
          exact hline
      · exact Nat.le_trans (length_le_len name) hname
    · rw [if_neg hw]
      apply ih2 done _ hdone
      rw [String.length_append, length_padRight]
      have h1 := length_le_len line
      have h2 := length_le_len name
      omega

/-- Every line that `packLines` builds from names of one-byte characters and
of at most 80 bytes has at most 80 bytes. -/
theorem packLines_len_le (names : List String) (hnames : ∀ name ∈ names, len name ≤ 80)
    (hascii : ∀ name ∈ names, len name = name.length) :
    ∀ (done : List String) (line : String), (∀ l ∈ done, len l ≤ 80) → len line ≤ 80 →
      len line = line.length → ∀ l ∈ packLines names done line, len l ≤ 80 := by
  induction names with
  | nil =>
    intro done line hdone hline _ l hl
    unfold packLines at hl
    rcases List.mem_append.mp hl with hl | hl
    · exact hdone l hl
    · rw [List.mem_singleton.mp hl]
      exact hline
  | cons name names ih =>
    intro done line hdone hline hal
    have hname := hnames name (List.mem_cons_self _ _)
    have haname := hascii name (List.mem_cons_self _ _)
    have ih2 := ih (fun x hx => hnames x (List.mem_cons_of_mem _ hx))
      (fun x hx => hascii x (List.mem_cons_of_mem _ hx))
    unfold packLines
    by_cases hw : len line + len name + (8 - len line % 8) > 80
    · rw [if_pos hw]
      apply ih2 _ _ _ hname haname
      intro l hl
      rcases List.mem_append.mp hl with hl | hl
      · exact hdone l hl
      · rw [List.mem_singleton.mp hl]
        exact hline
    · rw [if_neg hw]
      apply ih2 done _ hdone
      · rw [len_append, len_padRight]
        omega
      · rw [len_append, len_padRight, String.length_append, length_padRight]
        omega

/-- The width of the lines of `dir`, as the code has it: for a current
directory whose child names are each at most 80 bytes long, `dir` (when it
does not panic, which it does in a directory without children other than the
root) returns a header and lines of at most 80 characters each; they are of
at most 80 bytes each when the names hold one-byte characters only. -/
theorem handleDir_lines_at_most_80 (fs : filesystem) (c r n fuel : Nat) (h : Inv fs)
    (hc : fs.current = some c) (hr : fs.root = some r)
    (hn : ancestor fs.heap n c = some r) (hfuel : n ≤ fuel)
    (hnames : ∀ name ∈ childNames fs.heap c, len name ≤ 80) :
    (handleDir fuel fs = .error .panic ∧ (deref fs.heap c).subs = [] ∧ c ≠ r) ∨
    ∃ header lines, handleDir fuel fs = .ok (header :: lines) ∧
      (∀ l ∈ lines, l.length ≤ 80) ∧
      ((∀ name ∈ childNames fs.heap c, len name = name.length) → ∀ l ∈ lines, len l ≤ 80) := by
  have heq := handleDir_eq h hc hr hn fuel hfuel
  cases hsubs : (deref fs.heap c).subs with
  | nil =>
    rw [hsubs] at heq
    by_cases hcr : c = r
    · rw [if_pos hcr] at heq
      refine Or.inr ⟨_, _, heq, ?_, fun _ => ?_⟩
      · intro l hl
        rw [List.mem_singleton.mp hl]
        decide
      · intro l hl
        rw [List.mem_singleton.mp hl]
        decide
    · rw [if_neg hcr] at heq
      exact Or.inl ⟨heq, rfl, hcr⟩
  | cons first rest =>
    rw [hsubs] at heq
    have hchild : childNames fs.heap c
        = (deref fs.heap first).name :: rest.map (fun q => (deref fs.heap q).name) := by
      unfold childNames
      rw [hsubs]
      rfl
    rw [hchild] at hnames
    have hfirst := hnames _ (List.mem_cons_self _ _)
    have hrest := fun x hx => hnames x (List.mem_cons_of_mem _ hx)
    refine Or.inr ⟨_, _, heq, ?_, fun hascii => ?_⟩
    · exact packLines_length_le _ hrest [] _ (fun l hl => by cases hl)
        (Nat.le_trans (length_le_len _) hfirst)
    · rw [hchild] at hascii
      exact packLines_len_le _ hrest (fun x hx => hascii x (List.mem_cons_of_mem _ hx)) [] _
        (fun l hl => by cases hl) hfirst (hascii _ (List.mem_cons_self _ _))

/-- In `exampleState`, where `dir` lists `sub1` and `sub2` on one line. -/
theorem handleDir_lines_at_most_80_example :
    Inv exampleState ∧
    handleDir 0 exampleState = .ok ["Directory of root:", "sub1    sub2"] ∧
    ((handleDir 0 exampleState = .error .panic ∧ (deref exampleState.heap 0).subs = [] ∧
        0 ≠ 0) ∨
      ∃ header lines, handleDir 0 exampleState = .ok (header :: lines) ∧
        (∀ l ∈ lines, l.length ≤ 80) ∧
        ((∀ name ∈ childNames exampleState.heap 0, len name = name.length) →
          ∀ l ∈ lines, len l ≤ 80)) :=
  ⟨Inv_exampleState, rfl,
    handleDir_lines_at_most_80 exampleState 0 0 0 0 Inv_exampleState rfl rfl rfl (Nat.le_refl 0)
      (by decide)⟩

/-- C14 fails on the code: `handleDir` bounds a line by
`len(line) + len(name) + paddingLength`, in bytes, but pads the line with
`fmt.Sprintf("%-*s", padding, line)`, whose width counts characters. With the
children `é` (2 bytes) and `ê` followed by seventy `a` (72 bytes), all of at
most 80 bytes, the test `2 + 72 + 6 > 80` fails, `é` is padded with seven
spaces, up to eight characters, and the line that `dir` returns has 81
bytes. -/
theorem C14_dir_line_of_81_bytes :
    runOps CreateFilesystem
      [.AddSubdir "é", .AddSubdir ("ê" ++ String.mk (List.replicate 70 'a'))]
      = some wideNamesState ∧
    (∀ name ∈ childNames wideNamesState.heap 0, len name ≤ 80) ∧
    handleDir 0 wideNamesState
      = .ok ["Directory of root:",
          "é" ++ String.mk (List.replicate 7 ' ') ++ "ê" ++ String.mk (List.replicate 70 'a')] ∧
    len ("é" ++ String.mk (List.replicate 7 ' ') ++ "ê" ++ String.mk (List.replicate 70 'a'))
      = 81 := by
  refine ⟨by decide, by decide, rfl, by decide⟩

/-! ## The claim on the layout of the lines of `dir` -/

/-- Padding a line of one-byte characters: the spaces that bring its length
to the next multiple of 8. -/
theorem padRight_of_len_eq_length (line : String) (h : len line = line.length) :
    padRight (8 - len line % 8 + len line) line
      = line ++ String.mk (List.replicate (8 - len line % 8) ' ') := by
  unfold padRight
  rw [← h]
  congr 3
  omega

/-- The lines that `packLines` builds from names of one-byte characters:
the names, in their order, cut into groups, one group a line, each line laid
out as `LineOf` tells. -/
theorem packLines_groups (names : List String)
    (hascii : ∀ name ∈ names, len name = name.length) :
    ∀ (done : List String) (line : String) (g : List String),
      LineOf g line → len line = line.length →
      ∃ groups lines, packLines names done line = done ++ lines ∧
        groups.flatten = g ++ names ∧ List.Forall₂ LineOf groups lines := by
  induction names with
  | nil =>
    intro done line g hg _
    exact ⟨[g], [line], rfl, by simp, List.Forall₂.cons hg List.Forall₂.nil⟩
  | cons name names ih =>
    intro done line g hg hal
    have haname := hascii name (List.mem_cons_self _ _)
    have ih2 := ih (fun x hx => hascii x (List.mem_cons_of_mem _ hx))
    unfold packLines
    by_cases hw : len line + len name + (8 - len line % 8) > 80
    · rw [if_pos hw]
      obtain ⟨groups, lines, hpack, hjoin, hall⟩ :=
        ih2 (done ++ [line]) name [name] (LineOf.single name) haname
      refine ⟨g :: groups, line :: lines, ?_, ?_, List.Forall₂.cons hg hall⟩
      · rw [hpack, List.append_assoc]
        rfl
      · rw [List.flatten_cons, hjoin]
        rfl
    · rw [if_neg hw, padRight_of_len_eq_length line hal]
      have hline : LineOf (g ++ [name])
          (line ++ String.mk (List.replicate (8 - len line % 8) ' ') ++ name) :=
        LineOf.snoc _ name hg (by omega) (by omega) (by omega)
      obtain ⟨groups, lines, hpack, hjoin, hall⟩ := ih2 done _ (g ++ [name]) hline (by
        rw [len_append, len_append, len_spaces, String.length_append, String.length_append,
          length_spaces, hal, haname])
      refine ⟨groups, lines, hpack, ?_, hall⟩
      rw [hjoin, List.append_assoc]
      rfl

/-- The lines that `packLines` builds from any names: the names, in their
order, cut into groups, one group a line, each line holding the names of its
group with at least one space between two of them and nothing after the
last. -/
theorem packLines_spaced (names : List String) :
    ∀ (done : List String) (line : String) (g : List String),
      SpacedLine g line →
      ∃ groups lines, packLines names done line = done ++ lines ∧
        groups.flatten = g ++ names ∧ List.Forall₂ SpacedLine groups lines := by
  induction names with
  | nil =>
    intro done line g hg
    exact ⟨[g], [line], rfl, by simp, List.Forall₂.cons hg List.Forall₂.nil⟩
  | cons name names ih =>
    intro done line g hg
    unfold packLines
    by_cases hw : len line + len name + (8 - len line % 8) > 80
    · rw [if_pos hw]
      obtain ⟨groups, lines, hpack, hjoin, hall⟩ :=
        ih (done ++ [line]) name [name] (SpacedLine.single name)
      refine ⟨g :: groups, line :: lines, ?_, ?_, List.Forall₂.cons hg hall⟩
      · rw [hpack, List.append_assoc]
        rfl
      · rw [List.flatten_cons, hjoin]
        rfl
    · rw [if_neg hw]
      have hline : SpacedLine (g ++ [name])
          (padRight (8 - len line % 8 + len line) line ++ name) :=
        SpacedLine.snoc _ name hg (by have := length_le_len line; omega)
      obtain ⟨groups, lines, hpack, hjoin, hall⟩ := ih done _ (g ++ [name]) hline
      refine ⟨groups, lines, hpack, ?_, hall⟩
      rw [hjoin, List.append_assoc]
      rfl

/-- The part of the layout of the lines of `dir` that holds for all names:
for a current directory with children, `dir` returns a header and lines that
hold the children names in their (sorted) order, each once, cut into groups,
one group a line; on a line two names are apart by at least one space, and
nothing follows the last name. -/
theorem handleDir_names_in_order (fs : filesystem) (c r n fuel first : Nat) (rest : List Nat)
    (h : Inv fs) (hc : fs.current = some c) (hr : fs.root = some r)
    (hn : ancestor fs.heap n c = some r) (hfuel : n ≤ fuel)
    (hsubs : (deref fs.heap c).subs = first :: rest) :
    ∃ header lines groups, handleDir fuel fs = .ok (header :: lines) ∧
      groups.flatten = childNames fs.heap c ∧ List.Forall₂ SpacedLine groups lines ∧
      List.Sorted strLess (childNames fs.heap c) := by
  have heq := handleDir_eq h hc hr hn fuel hfuel
  rw [hsubs] at heq
  have hchild : childNames fs.heap c
      = (deref fs.heap first).name :: rest.map (fun q => (deref fs.heap q).name) := by
    unfold childNames
    rw [hsubs]
    rfl
  obtain ⟨groups, lines, hpack, hjoin, hall⟩ := packLines_spaced
    (rest.map (fun q => (deref fs.heap q).name)) [] _ [(deref fs.heap first).name]
    (SpacedLine.single _)
  refine ⟨"Directory of " ++ (pathOf fs.heap n c ++ ":"), lines, groups, ?_, ?_, hall,
    h.heapInv.sorted_childNames c⟩
  · rw [heq]
    simp only
    rw [hpack]
    rfl
  · rw [hjoin, hchild]
    rfl

/-- The layout of the lines of `dir`, as the code has it, for names of
one-byte characters: for a current directory with children whose names hold
one-byte characters only, `dir` returns a header and lines that
hold the children names in their (sorted) order, each once, cut into groups,
one group a line; on a line each name starts at a byte offset that is a
multiple of 8, each name but the last is followed by between 1 and 8 spaces,
and nothing follows the last name. -/
theorem handleDir_line_layout (fs : filesystem) (c r n fuel first : Nat) (rest : List Nat)
    (h : Inv fs) (hc : fs.current = some c) (hr : fs.root = some r)
    (hn : ancestor fs.heap n c = some r) (hfuel : n ≤ fuel)
    (hsubs : (deref fs.heap c).subs = first :: rest)
    (hascii : ∀ name ∈ childNames fs.heap c, len name = name.length) :
    ∃ header lines groups, handleDir fuel fs = .ok (header :: lines) ∧
      groups.flatten = childNames fs.heap c ∧ List.Forall₂ LineOf groups lines ∧
      List.Sorted strLess (childNames fs.heap c) := by
  have heq := handleDir_eq h hc hr hn fuel hfuel
  rw [hsubs] at heq
  have hchild : childNames fs.heap c
      = (deref fs.heap first).name :: rest.map (fun q => (deref fs.heap q).name) := by
    unfold childNames
    rw [hsubs]
    rfl
  rw [hchild] at hascii
  obtain ⟨groups, lines, hpack, hjoin, hall⟩ := packLines_groups _
    (fun x hx => hascii x (List.mem_cons_of_mem _ hx)) [] _ [(deref fs.heap first).name]
    (LineOf.single _) (hascii _ (List.mem_cons_self _ _))
  refine ⟨"Directory of " ++ (pathOf fs.heap n c ++ ":"), lines, groups, ?_, ?_, hall,
    h.heapInv.sorted_childNames c⟩
  · rw [heq]
    simp only
    rw [hpack]
    rfl
  · rw [hjoin, hchild]
    rfl

/-- In `exampleState`, where `dir` lists `sub1` and `sub2` on one line. -/
theorem handleDir_line_layout_example :
    Inv exampleState ∧
    handleDir 0 exampleState = .ok ["Directory of root:", "sub1    sub2"] ∧
    ∃ header lines groups, handleDir 0 exampleState = .ok (header :: lines) ∧
      groups.flatten = childNames exampleState.heap 0 ∧ List.Forall₂ LineOf groups lines ∧
      List.Sorted strLess (childNames exampleState.heap 0) :=
  ⟨Inv_exampleState, rfl,
    handleDir_line_layout exampleState 0 0 0 0 1 [2] Inv_exampleState rfl rfl rfl (Nat.le_refl 0)
      rfl (by decide)⟩

/-- C15 fails on the code, by the defect of C14: `handleDir` computes the
padding in bytes and `fmt.Sprintf("%-*s", padding, line)` pads in characters.
With the children `é` and `ê`, of two bytes each, `paddingLength` is 6 and
the width is 8, but seven spaces are written: `dir` returns the line `é`,
seven spaces, `ê`, in which `ê` starts at the byte offset 9, no multiple of
8. -/
theorem C15_dir_name_at_byte_offset_9 :
    runOps CreateFilesystem [.AddSubdir "é", .AddSubdir "ê"] = some accentsState ∧
    childNames accentsState.heap 0 = ["é", "ê"] ∧
    handleDir 0 accentsState
      = .ok ["Directory of root:", "é" ++ String.mk (List.replicate 7 ' ') ++ "ê"] ∧
    len ("é" ++ String.mk (List.replicate 7 ' ')) = 9 ∧ 9 % 8 ≠ 0 := by
  refine ⟨by decide, by decide, rfl, by decide, by decide⟩

/-! ## The claim on ten names a line -/

/-- The lines that `packLines` builds from names of one to seven one-byte
characters: every line but the last holds ten names. -/
theorem packLines_short (names : List String)
    (hascii : ∀ name ∈ names, len name = name.length)
    (hshort : ∀ name ∈ names, 1 ≤ len name ∧ len name ≤ 7) :
    ∀ (done : List String) (line : String) (g : List String),
      LineOf g line → len line = line.length → 1 ≤ g.length → g.length ≤ 10 →
      8 * (g.length - 1) + 1 ≤ len line → len line ≤ 8 * (g.length - 1) + 7 →
      ∃ groups lines, packLines names done line = done ++ lines ∧
        groups.flatten = g ++ names ∧ List.Forall₂ LineOf groups lines ∧
        (∀ x ∈ groups.dropLast, x.length = 10) ∧
        lines.length = (g.length + names.length + 9) / 10 := by
  induction names with
  | nil =>
    intro done line g hg _ h1 h10 _ _
    refine ⟨[g], [line], rfl, by simp, List.Forall₂.cons hg List.Forall₂.nil, ?_, ?_⟩
    · intro x hx
      simp at hx
    · simp only [List.length_singleton, List.length_nil]
      omega
  | cons name names ih =>
    intro done line g hg hal h1 h10 hlo hhi
    have haname := hascii name (List.mem_cons_self _ _)
    have hsname := hshort name (List.mem_cons_self _ _)
    have ih2 := ih (fun x hx => hascii x (List.mem_cons_of_mem _ hx))
      (fun x hx => hshort x (List.mem_cons_of_mem _ hx))
    unfold packLines
    by_cases hw : len line + len name + (8 - len line % 8) > 80
    · rw [if_pos hw]
      have hk : g.length = 10 := by omega
      obtain ⟨groups, lines, hpack, hjoin, hall, hten, hcount⟩ :=
        ih2 (done ++ [line]) name [name] (LineOf.single name) haname (by simp) (by simp)
          (by simp only [List.length_singleton]; omega)
          (by simp only [List.length_singleton]; omega)
      have hne : groups ≠ [] := by
        intro hnil
        rw [hnil] at hall
        cases hall
        simp only [List.length_nil, List.length_singleton] at hcount
        omega
      refine ⟨g :: groups, line :: lines, ?_, ?_, List.Forall₂.cons hg hall, ?_, ?_⟩
      · rw [hpack, List.append_assoc]
        rfl
      · rw [List.flatten_cons, hjoin]
        rfl
      · intro x hx
        rw [List.dropLast_cons_of_ne_nil hne] at hx
        rcases List.mem_cons.mp hx with rfl | hx
        · exact hk
        · exact hten x hx
      · rw [List.length_singleton] at hcount
        rw [List.length_cons, List.length_cons, hcount, hk]
        omega
    · rw [if_neg hw, padRight_of_len_eq_length line hal]
      have hline : LineOf (g ++ [name])
          (line ++ String.mk (List.replicate (8 - len line % 8) ' ') ++ name) :=
        LineOf.snoc _ name hg (by omega) (by omega) (by omega)
      obtain ⟨groups, lines, hpack, hjoin, hall, hten, hcount⟩ :=
        ih2 done _ (g ++ [name]) hline
          (by rw [len_append, len_append, len_spaces, String.length_append,
            String.length_append, length_spaces, hal, haname])
          (by simp)
          (by simp only [List.length_append, List.length_singleton]; omega)
          (by rw [len_append, len_append, len_spaces]
              simp only [List.length_append, List.length_singleton]
              omega)
          (by rw [len_append, len_append, len_spaces]
              simp only [List.length_append, List.length_singleton]
              omega)
      refine ⟨groups, lines, hpack, ?_, hall, hten, ?_⟩
      · rw [hjoin, List.append_assoc]
        rfl
      · rw [List.length_append, List.length_singleton] at hcount
        rw [List.length_cons, hcount]
        omega

/-- Ten names a line, as the code has it, for names of one-byte characters:
for a current directory with `n ≥ 1` children whose names have between 1 and
7 one-byte characters, `dir` returns a header
and `ceil(n/10)` lines, laid out as `LineOf` tells, and every line but the
last holds exactly 10 names; so 10 children fit on one line and an 11th
wraps onto a second line. -/
theorem handleDir_ten_names_a_line (fs : filesystem) (c r n fuel first : Nat) (rest : List Nat)
    (h : Inv fs) (hc : fs.current = some c) (hr : fs.root = some r)
    (hn : ancestor fs.heap n c = some r) (hfuel : n ≤ fuel)
    (hsubs : (deref fs.heap c).subs = first :: rest)
    (hascii : ∀ name ∈ childNames fs.heap c, len name = name.length)
    (hshort : ∀ name ∈ childNames fs.heap c, 1 ≤ len name ∧ len name ≤ 7) :
    ∃ header lines groups, handleDir fuel fs = .ok (header :: lines) ∧
      groups.flatten = childNames fs.heap c ∧ List.Forall₂ LineOf groups lines ∧
      (∀ g ∈ groups.dropLast, g.length = 10) ∧
      lines.length = ((childNames fs.heap c).length + 9) / 10 ∧
      ((childNames fs.heap c).length = 10 → lines.length = 1) ∧
      ((childNames fs.heap c).length = 11 → lines.length = 2) := by
  have heq := handleDir_eq h hc hr hn fuel hfuel
  rw [hsubs] at heq
  have hchild : childNames fs.heap c
      = (deref fs.heap first).name :: rest.map (fun q => (deref fs.heap q).name) := by
    unfold childNames
    rw [hsubs]
    rfl
  rw [hchild] at hascii hshort
  have hf := hshort _ (List.mem_cons_self _ _)
  obtain ⟨groups, lines, hpack, hjoin, hall, hten, hcount⟩ := packLines_short _
    (fun x hx => hascii x (List.mem_cons_of_mem _ hx))
    (fun x hx => hshort x (List.mem_cons_of_mem _ hx)) [] _ [(deref fs.heap first).name]
    (LineOf.single _) (hascii _ (List.mem_cons_self _ _)) (by simp) (by simp)
    (by simp only [List.length_singleton]; omega)
    (by simp only [List.length_singleton]; omega)
  have hcount2 : lines.length = ((childNames fs.heap c).length + 9) / 10 := by
    rw [hcount, hchild]
    simp only [List.length_cons, List.length_nil]
    omega
  refine ⟨"Directory of " ++ (pathOf fs.heap n c ++ ":"), lines, groups, ?_, ?_, hall, hten,
    hcount2, fun h10 => ?_, fun h11 => ?_⟩
  · rw [heq]
    simp only
    rw [hpack]
    rfl
  · rw [hjoin, hchild]
    rfl
  · rw [hcount2, h10]
  · rw [hcount2, h11]

/-- In `exampleState`, where `dir` lists `sub1` and `sub2` on one line. -/
theorem handleDir_ten_names_a_line_example :
    Inv exampleState ∧
    ∃ header lines groups, handleDir 0 exampleState = .ok (header :: lines) ∧
      groups.flatten = childNames exampleState.heap 0 ∧ List.Forall₂ LineOf groups lines ∧
      (∀ g ∈ groups.dropLast, g.length = 10) ∧
      lines.length = ((childNames exampleState.heap 0).length + 9) / 10 ∧
      ((childNames exampleState.heap 0).length = 10 → lines.length = 1) ∧
      ((childNames exampleState.heap 0).length = 11 → lines.length = 2) :=
  ⟨Inv_exampleState,
    handleDir_ten_names_a_line exampleState 0 0 0 0 1 [2] Inv_exampleState rfl rfl rfl
      (Nat.le_refl 0) rfl (by decide) (by decide)⟩

set_option maxRecDepth 8192 in
/-- C16 fails on the code, by the defect of C14: the width of a line is
tested in bytes and the line is padded in characters. The ten children `éa`,
..., `éj`, of three bytes each, for which `ceil(10/10)` is 1, are listed on
two lines: eight names on the first, the last two of them after gaps of 14
spaces, and two on the second; the comment of the code says `wrap lines
after 10 columns of length 8`. -/
theorem C16_dir_wraps_ten_names :
    runOps CreateFilesystem (tenAccentNames.map Op.AddSubdir) = some tenAccentsState ∧
    childNames tenAccentsState.heap 0 = tenAccentNames ∧
    (∀ name ∈ tenAccentNames, 1 ≤ len name ∧ len name ≤ 7) ∧
    (tenAccentNames.length + 9) / 10 = 1 ∧
    handleDir 0 tenAccentsState = .ok ["Directory of root:",
      "éa      éb      éc      éd      ée      éf              ég              éh",
      "éi      éj"] := by
  refine ⟨?_, ?_, ?_, ?_, ?_⟩
  · decide
  · decide
  · decide
  · decide
  · rfl

/-! ## The tree view -/

/-- Replacing the first space of an indented line. -/
theorem replaceFirstSpace_indent (s : String) :
    String.mk (replaceFirstSpace ("    " ++ s).data) = "│   " ++ s := by
  rw [String.data_append]
  rfl

/-- With enough fuel, the loop of `getTreeBranches` on sibling directories
appends their rendering. -/
theorem treeLoop_eq {heap : List dir} {cs : List Nat} {lines : List String}
    (hr : Rendered heap cs lines) :
    ∃ k, ∀ fuel, k ≤ fuel → ∀ n i branches, i + cs.length = n →
      treeLoop heap (getTreeBranches heap fuel) n cs i branches = .ok (branches ++ lines) := by
  induction hr with
  | nil =>
    refine ⟨0, fun fuel _ n i branches _ => ?_⟩
    unfold treeLoop
    rw [List.append_nil]
  | @cons c cs sub rest _ _ ih1 ih2 =>
    obtain ⟨k1, h1⟩ := ih1
    obtain ⟨k2, h2⟩ := ih2
    refine ⟨max (k1 + 1) k2, fun fuel hfuel n i branches hn => ?_⟩
    have hk1 : k1 + 1 ≤ fuel := Nat.le_trans (Nat.le_max_left _ _) hfuel
    have hk2 : k2 ≤ fuel := Nat.le_trans (Nat.le_max_right _ _) hfuel
    have hrec : getTreeBranches heap fuel c = .ok sub := by
      cases fuel with
      | zero => omega
      | succ f =>
        unfold getTreeBranches
        have := h1 f (by omega) (deref heap c).subs.length 0 [] (Nat.zero_add _)
        rw [List.nil_append] at this
        exact this
    have hlast : (i = n - 1) ↔ cs = [] := by
      rw [List.length_cons] at hn
      constructor
      · intro hi
        exact List.length_eq_zero.mp (by omega)
      · intro hcs
        rw [hcs, List.length_nil] at hn
        omega
    unfold treeLoop
    rw [hrec]
    simp only
    rw [h2 fuel hk2 n (i + 1) _ (by rw [List.length_cons] at hn; omega)]
    by_cases hcs : cs = []
    · have hi := hlast.mpr hcs
      simp only [hcs, hi, if_true, List.append_assoc, List.singleton_append]
    · have hi : ¬ (i = n - 1) := fun hi => hcs (hlast.mp hi)
      simp only [hcs, hi, if_false, replaceFirstSpace_indent, List.append_assoc,
        List.singleton_append]

/-- With enough fuel, `getTreeBranches` returns the rendering of the
children of a directory. -/
theorem getTreeBranches_eq {heap : List dir} {d : Nat} {lines : List String}
    (hr : Rendered heap (deref heap d).subs lines) :
    ∃ k, ∀ fuel, k ≤ fuel → getTreeBranches heap fuel d = .ok lines := by
  obtain ⟨k, hk⟩ := treeLoop_eq hr
  refine ⟨k + 1, fun fuel hfuel => ?_⟩
  cases fuel with
  | zero => omega
  | succ f =>
    unfold getTreeBranches
    have := hk f (by omega) (deref heap d).subs.length 0 [] (Nat.zero_add _)
    rw [List.nil_append] at this
    exact this

/-- What `handleTree` returns, with enough fuel, when the tree under the
current directory is finite: the header with the path of the specification,
the line `.`, and the rendering of the children. -/
theorem handleTree_eq {fs : filesystem} {c r n : Nat} {lines : List String} (h : Inv fs)
    (hc : fs.current = some c) (hr : fs.root = some r)
    (hn : ancestor fs.heap n c = some r)
    (hrender : Rendered fs.heap (deref fs.heap c).subs lines) :
    ∃ k, ∀ fuel, k ≤ fuel →
      handleTree fuel fs = .ok (["Tree of " ++ (pathOf fs.heap n c ++ ":"), "."] ++ lines) := by
  obtain ⟨r2, hr2, _, hrp⟩ := h.root
  rw [hr] at hr2
  cases hr2
  obtain ⟨k, hk⟩ := getTreeBranches_eq hrender
  refine ⟨max n k, fun fuel hfuel => ?_⟩
  unfold handleTree
  rw [hc, hr]
  simp only
  rw [currentPath_eq hrp n c fuel ":" hn (Nat.le_trans (Nat.le_max_left _ _) hfuel)]
  simp only
  rw [hk fuel (Nat.le_trans (Nat.le_max_right _ _) hfuel)]

/-- A directory reachable from a child is reachable from its parent. -/
theorem reachable_of_child {heap : List dir} {p c q : Nat} (hc : c ∈ (deref heap p).subs)
    (hq : Reachable heap c q) : Reachable heap p q := by
  induction hq with
  | refl => exact Reachable.step Reachable.refl hc
  | step _ hr ih => exact Reachable.step ih hr

/-- A directory reachable from `p` is `p` or is reachable from a child of
`p`. -/
theorem reachable_cases {heap : List dir} {p q : Nat} (hq : Reachable heap p q) :
    q = p ∨ ∃ c ∈ (deref heap p).subs, Reachable heap c q := by
  induction hq with
  | refl => exact Or.inl rfl
  | @step a b _ hr ih =>
    rcases ih with rfl | ⟨c, hc, hreach⟩
    · exact Or.inr ⟨b, hr, Reachable.refl⟩
    · exact Or.inr ⟨c, hc, Reachable.step hreach hr⟩

/-- The directories of a pre-order listing are those reachable from the
listed siblings. -/
theorem mem_preOrder {heap : List dir} {cs nodes : List Nat} (hp : PreOrder heap cs nodes) :
    ∀ q, q ∈ nodes ↔ ∃ c ∈ cs, Reachable heap c q := by
  induction hp with
  | nil =>
    intro q
    constructor
    · intro hq
      cases hq
    · rintro ⟨c, hc, _⟩
      cases hc
  | @cons c cs ds rest _ _ ih1 ih2 =>
    intro q
    rw [List.cons_append, List.mem_cons, List.mem_append, ih1, ih2]
    constructor
    · rintro (rfl | ⟨c1, hc1, hreach⟩ | ⟨c2, hc2, hreach⟩)
      · exact ⟨q, List.mem_cons_self _ _, Reachable.refl⟩
      · exact ⟨c, List.mem_cons_self _ _, reachable_of_child hc1 hreach⟩
      · exact ⟨c2, List.mem_cons_of_mem _ hc2, hreach⟩
    · rintro ⟨c2, hc2, hreach⟩
      rcases List.mem_cons.mp hc2 with rfl | hc2
      · rcases reachable_cases hreach with rfl | hsub
        · exact Or.inl rfl
        · exact Or.inr (Or.inl hsub)
      · exact Or.inr (Or.inr ⟨c2, hc2, hreach⟩)

/-- Two ancestors of a directory: the farther one is an ancestor of the
nearer one. -/
theorem ancestor_sub {heap : List dir} {q x y : Nat} {a b : Nat}
    (ha : ancestor heap a q = some x) (hb : ancestor heap b q = some y) (hab : a ≤ b) :
    ancestor heap (b - a) x = some y := by
  have h := ancestor_add heap a (b - a) q
  rw [Nat.add_sub_cancel' hab, hb, ha] at h
  exact h.symm

/-- The subtrees of two distinct children of a directory that lies on no
cycle of `parent` pointers share no directory, one way round. -/
theorem siblings_disjoint_le {heap : List dir} {p x y q : Nat}
    (hx : (deref heap x).parent = some p) (hy : (deref heap y).parent = some p)
    (hxy : x ≠ y) (hp : ∀ k, ancestor heap (k + 1) p ≠ some p) {a b : Nat}
    (ha : ancestor heap a q = some x) (hb : ancestor heap b q = some y) (hab : a ≤ b) :
    False := by
  have h := ancestor_sub ha hb hab
  cases hk : b - a with
  | zero =>
    rw [hk] at h
    exact hxy (Option.some.inj h)
  | succ k =>
    rw [hk, ancestor_succ_of_parent k hx] at h
    have h2 := ancestor_add heap k 1 p
    rw [h, Option.some_bind, ancestor_succ_of_parent 0 hy] at h2
    exact hp k h2

/-- The subtrees of two distinct children of a directory that lies on no
cycle of `parent` pointers share no directory. -/
theorem siblings_disjoint {heap : List dir} {p x y q : Nat}
    (hx : (deref heap x).parent = some p) (hy : (deref heap y).parent = some p)
    (hxy : x ≠ y) (hp : ∀ k, ancestor heap (k + 1) p ≠ some p) {a b : Nat}
    (ha : ancestor heap a q = some x) (hb : ancestor heap b q = some y) : False := by
  rcases Nat.le_total a b with hab | hab
  · exact siblings_disjoint_le hx hy hxy hp ha hb hab
  · exact siblings_disjoint_le hy hx (Ne.symm hxy) hp hb ha hab

/-- Below a directory that has the parentless `r` as an ancestor, a
pre-order listing names no directory twice. -/
theorem preOrder_nodup {heap : List dir} (h : HeapInv heap) {r : Nat}
    (hr : (deref heap r).parent = none) {cs nodes : List Nat}
    (hp : PreOrder heap cs nodes) :
    ∀ p m, ancestor heap m p = some r → (∀ c ∈ cs, c ∈ (deref heap p).subs) → cs.Nodup →
      nodes.Nodup := by
  induction hp with
  | nil => intro _ _ _ _ _; exact List.nodup_nil
  | @cons c cs ds rest hds hrest ih1 ih2 =>
    intro p m hm hsub hnodup
    have hcp : (deref heap c).parent = some p := (h.child p c (hsub c (List.mem_cons_self _ _))).2
    have hmc : ancestor heap (m + 1) c = some r := by
      rw [ancestor_succ_of_parent m hcp]
      exact hm
    have hnd1 := ih1 c (m + 1) hmc (fun _ hc => hc) (nodup_of_sorted (h.sorted c))
    have hnd2 := ih2 p m hm (fun x hx => hsub x (List.mem_cons_of_mem _ hx))
      (List.nodup_cons.mp hnodup).2
    have hpacyc := ancestor_ne_self m hm hr
    have hof : ∀ q, q ∈ rest → ∃ y b, y ≠ c ∧ (deref heap y).parent = some p ∧
        ancestor heap b q = some y := by
      intro q hq
      obtain ⟨y, hy, hreach⟩ := (mem_preOrder hrest q).mp hq
      obtain ⟨b, hb⟩ := ancestor_of_reachable h hreach
      refine ⟨y, b, ?_, (h.child p y (hsub y (List.mem_cons_of_mem _ hy))).2, hb⟩
      rintro rfl
      exact (List.nodup_cons.mp hnodup).1 hy
    have hin : ∀ q, q ∈ ds → ∃ a, ancestor heap (a + 1) q = some c := by
      intro q hq
      obtain ⟨x, hx, hreach⟩ := (mem_preOrder hds q).mp hq
      obtain ⟨a, ha⟩ := ancestor_of_reachable h hreach
      refine ⟨a, ?_⟩
      rw [ancestor_add heap a 1 q, ha, Option.some_bind,
        ancestor_succ_of_parent 0 (h.child c x hx).2]
      rfl
    rw [List.cons_append, List.nodup_cons, List.mem_append, List.nodup_append]
    refine ⟨?_, hnd1, hnd2, ?_⟩
    · rintro (hc | hc)
      · obtain ⟨a, ha⟩ := hin c hc
        exact ancestor_ne_self (m + 1) hmc hr a ha
      · obtain ⟨y, b, hyc, hyp, hb⟩ := hof c hc
        exact siblings_disjoint hcp hyp (Ne.symm hyc) hpacyc (rfl : ancestor heap 0 c = some c) hb
    · intro q hq1 hq2
      obtain ⟨a, ha⟩ := hin q hq1
      obtain ⟨y, b, hyc, hyp, hb⟩ := hof q hq2
      exact siblings_disjoint hcp hyp (Ne.symm hyc) hpacyc ha hb

/-- A rendering has one line for each directory of the pre-order listing,
and the line ends with the name of its directory. -/
theorem rendered_preOrder {heap : List dir} {cs : List Nat} {lines : List String}
    (hr : Rendered heap cs lines) :
    ∃ nodes, PreOrder heap cs nodes ∧
      List.Forall₂ (fun q l => ∃ pre, l = pre ++ (deref heap q).name) nodes lines := by
  induction hr with
  | nil => exact ⟨[], PreOrder.nil, List.Forall₂.nil⟩
  | @cons c cs sub rest _ _ ih1 ih2 =>
    obtain ⟨ds, hds, hf1⟩ := ih1
    obtain ⟨ns, hns, hf2⟩ := ih2
    refine ⟨c :: ds ++ ns, PreOrder.cons hds hns, ?_⟩
    rw [List.cons_append, List.cons_append]
    refine List.Forall₂.cons ⟨_, rfl⟩ (List.rel_append ?_ hf2)
    rw [List.forall₂_map_right_iff]
    refine hf1.imp ?_
    rintro q l ⟨pre, rfl⟩
    exact ⟨(if cs = [] then "    " else "│   ") ++ pre, (String.append_assoc _ _ _).symm⟩

/-! ## The tree under a directory is finite -/

/-- The ancestors of an allocated directory are allocated. -/
theorem ancestor_lt {heap : List dir} (h : HeapInv heap) (n : Nat) :
    ∀ q x, q < heap.length → ancestor heap n q = some x → x < heap.length := by
  induction n with
  | zero =>
    intro q x hq hx
    cases hx
    exact hq
  | succ n ih =>
    intro q x hq hx
    cases hp : (deref heap q).parent with
    | none =>
      rw [ancestor_succ_of_parent_none hp] at hx
      cases hx
    | some p =>
      rw [ancestor_succ_of_parent n hp] at hx
      exact ih p x (h.lt_of_parent hp) hx

/-- A directory with an `n`-th ancestor has an `i`-th ancestor for `i ≤ n`,
of which the former is an ancestor. -/
theorem ancestor_of_le {heap : List dir} {q r : Nat} {n i : Nat}
    (hn : ancestor heap n q = some r) (hi : i ≤ n) :
    ∃ x, ancestor heap i q = some x ∧ ancestor heap (n - i) x = some r := by
  have h := ancestor_add heap i (n - i) q
  rw [Nat.add_sub_cancel' hi, hn] at h
  cases hx : ancestor heap i q with
  | none =>
    rw [hx] at h
    cases h
  | some x =>
    rw [hx] at h
    exact ⟨x, rfl, h.symm⟩

/-- The depth of a directory is less than the number of allocated
directories: its ancestors up to the root are allocated and distinct. -/
theorem depth_lt_length {heap : List dir} (h : HeapInv heap) {q r n : Nat}
    (hq : q < heap.length) (hr : (deref heap r).parent = none)
    (hn : ancestor heap n q = some r) : n < heap.length := by
  have hcard := Finset.card_le_card_of_injOn
    (fun i => (ancestor heap i q).getD 0) (s := Finset.range (n + 1))
    (t := Finset.range heap.length) ?_ ?_
  · rw [Finset.card_range, Finset.card_range] at hcard
    omega
  · intro i hi
    obtain ⟨x, hx, _⟩ := ancestor_of_le hn (Nat.lt_succ_iff.mp (Finset.mem_range.mp hi))
    simp only [hx, Option.getD_some]
    exact Finset.mem_range.mpr (ancestor_lt h i q x hq hx)
  · have hlt : ∀ i j, i < j → j ≤ n →
        (ancestor heap i q).getD 0 ≠ (ancestor heap j q).getD 0 := by
      intro i j hij hj heq
      obtain ⟨x, hx, hxr⟩ := ancestor_of_le hn (Nat.le_trans (Nat.le_of_lt hij) hj)
      obtain ⟨y, hy, _⟩ := ancestor_of_le hn hj
      simp only [hx, hy, Option.getD_some] at heq
      subst heq
      have hcyc := ancestor_sub hx hy (Nat.le_of_lt hij)
      obtain ⟨k, hk⟩ : ∃ k, j - i = k + 1 := ⟨j - i - 1, by omega⟩
      rw [hk] at hcyc
      exact ancestor_ne_self _ hxr hr k hcyc
    intro i hi j hj heq
    have hi2 : i ≤ n := Nat.lt_succ_iff.mp (Finset.mem_range.mp (Finset.mem_coe.mp hi))
    have hj2 : j ≤ n := Nat.lt_succ_iff.mp (Finset.mem_range.mp (Finset.mem_coe.mp hj))
    rcases Nat.lt_trichotomy i j with hlt2 | heq2 | hgt2
    · exact absurd heq (hlt i j hlt2 hj2)
    · exact heq2
    · exact absurd heq.symm (hlt j i hgt2 hi2)

/-- Below a directory that has the parentless `r` as an ancestor, the tree
is finite: the children have a rendering. -/
theorem rendered_exists {heap : List dir} (h : HeapInv heap) {r : Nat}
    (hr : (deref heap r).parent = none) :
    ∀ k d m, d < heap.length → ancestor heap m d = some r → heap.length - m ≤ k →
      ∃ lines, Rendered heap (deref heap d).subs lines := by
  intro k
  induction k with
  | zero =>
    intro d m hd hm hk
    have := depth_lt_length h hd hr hm
    omega
  | succ k ih =>
    intro d m hd hm hk
    have hall : ∀ cs : List Nat, (∀ c ∈ cs, c ∈ (deref heap d).subs) →
        ∃ lines, Rendered heap cs lines := by
      intro cs
      induction cs with
      | nil => intro _; exact ⟨[], Rendered.nil⟩
      | cons c cs ihcs =>
        intro hsub
        have hc := h.child d c (hsub c (List.mem_cons_self _ _))
        obtain ⟨sub, hsubr⟩ := ih c (m + 1) hc.1
          (by rw [ancestor_succ_of_parent m hc.2]; exact hm) (by omega)
        obtain ⟨rest, hrest⟩ := ihcs (fun x hx => hsub x (List.mem_cons_of_mem _ hx))
        exact ⟨_, Rendered.cons hsubr hrest⟩
    exact hall _ (fun _ hc => hc)

/-! ## The claim on the output of `tree` -/

/-- C17: in a state with the invariant (the tree under the current directory
`c` is then finite) the children of `c` have a rendering `lines`, as the
specification words it (`Rendered`, over children slices that are sorted by
name), and with enough fuel `tree` returns the header, the line `.` and
`lines`; the lines correspond one to one to the proper descendants of `c`
listed in pre-order, each once, so the output has 2 + N lines for N proper
descendants. -/
theorem C17_tree_render (fs : filesystem) (c r n : Nat) (h : Inv fs)
    (hc : fs.current = some c) (hr : fs.root = some r)
    (hn : ancestor fs.heap n c = some r) :
    ∃ lines nodes, Rendered fs.heap (deref fs.heap c).subs lines ∧
      (∀ d, List.Sorted strLess (childNames fs.heap d)) ∧
      (∃ k, ∀ fuel, k ≤ fuel →
        handleTree fuel fs = .ok (["Tree of " ++ (pathOf fs.heap n c ++ ":"), "."] ++ lines)) ∧
      PreOrder fs.heap (deref fs.heap c).subs nodes ∧ nodes.Nodup ∧
      (∀ q, q ∈ nodes ↔ Reachable fs.heap c q ∧ q ≠ c) ∧
      List.Forall₂ (fun q l => ∃ pre, l = pre ++ (deref fs.heap q).name) nodes lines ∧
      (["Tree of " ++ (pathOf fs.heap n c ++ ":"), "."] ++ lines).length = 2 + nodes.length := by
  obtain ⟨r2, hr2, _, hrp⟩ := h.root
  rw [hr] at hr2
  cases hr2
  obtain ⟨c2, hc2, hclt⟩ := h.current
  rw [hc] at hc2
  cases hc2
  obtain ⟨lines, hlines⟩ := rendered_exists h.heapInv hrp (fs.heap.length - n) c n hclt hn
    (Nat.le_refl _)
  obtain ⟨nodes, hpre, hfor⟩ := rendered_preOrder hlines
  refine ⟨lines, nodes, hlines, h.heapInv.sorted_childNames, handleTree_eq h hc hr hn hlines,
    hpre, ?_, ?_, hfor, ?_⟩
  · exact preOrder_nodup h.heapInv hrp hpre c n hn (fun _ hx => hx)
      (nodup_of_sorted (h.heapInv.sorted c))
  · intro q
    rw [mem_preOrder hpre q]
    constructor
    · rintro ⟨x, hx, hreach⟩
      refine ⟨reachable_of_child hx hreach, ?_⟩
      rintro rfl
      exact h.not_reachable_current hc hx hreach
    · rintro ⟨hreach, hne⟩
      rcases reachable_cases hreach with heq | hsub
      · exact absurd heq hne
      · exact hsub
  · rw [List.length_append, hfor.length_eq.symm]
    simp only [List.length_cons, List.length_nil]

/-- In `exampleState`, where the root holds `sub1` and `sub2`, and `sub2`
holds another `sub1`. -/
theorem C17_tree_render_witness :
    Inv exampleState ∧
    handleTree 3 exampleState
      = .ok ["Tree of root:", ".", "├── sub1", "└── sub2", "    └── sub1"] ∧
    ∃ lines nodes, Rendered exampleState.heap (deref exampleState.heap 0).subs lines ∧
      (∀ d, List.Sorted strLess (childNames exampleState.heap d)) ∧
      (∃ k, ∀ fuel, k ≤ fuel →
        handleTree fuel exampleState
          = .ok (["Tree of " ++ (pathOf exampleState.heap 0 0 ++ ":"), "."] ++ lines)) ∧
      PreOrder exampleState.heap (deref exampleState.heap 0).subs nodes ∧ nodes.Nodup ∧
      (∀ q, q ∈ nodes ↔ Reachable exampleState.heap 0 q ∧ q ≠ 0) ∧
      List.Forall₂ (fun q l => ∃ pre, l = pre ++ (deref exampleState.heap q).name) nodes lines ∧
      (["Tree of " ++ (pathOf exampleState.heap 0 0 ++ ":"), "."] ++ lines).length
        = 2 + nodes.length :=
  ⟨Inv_exampleState, rfl, C17_tree_render exampleState 0 0 0 Inv_exampleState rfl rfl rfl⟩


/-! ## The claim on the headers of `dir` and `tree` -/

/-- The first line of `tree`: in a state with the invariant, with enough
fuel, `tree` returns lines of which the first is `Tree of`, the path of the
current directory and a colon. -/
theorem handleTree_header {fs : filesystem} {c r n : Nat} (h : Inv fs)
    (hc : fs.current = some c) (hr : fs.root = some r)
    (hn : ancestor fs.heap n c = some r) :
    ∃ k, ∀ fuel, k ≤ fuel → ∃ rest,
      handleTree fuel fs = .ok (("Tree of " ++ pathOf fs.heap n c ++ ":") :: rest) := by
  obtain ⟨r2, hr2, _, hrp⟩ := h.root
  rw [hr] at hr2
  cases hr2
  obtain ⟨c2, hc2, hclt⟩ := h.current
  rw [hc] at hc2
  cases hc2
  obtain ⟨lines, hlines⟩ := rendered_exists h.heapInv hrp (fs.heap.length - n) c n hclt hn
    (Nat.le_refl _)
  obtain ⟨k, hk⟩ := handleTree_eq h hc hr hn hlines
  refine ⟨k, fun fuel hfuel => ⟨"." :: lines, ?_⟩⟩
  rw [hk fuel hfuel, String.append_assoc]
  rfl

/-- The first line of `dir`: in a state with the invariant, with enough
fuel, `dir` panics, in a directory without children other than the root, or
returns lines of which the first is `Directory of`, the path of the current
directory and a colon. -/
theorem handleDir_header {fs : filesystem} {c r n : Nat} (h : Inv fs)
    (hc : fs.current = some c) (hr : fs.root = some r)
    (hn : ancestor fs.heap n c = some r) (fuel : Nat) (hfuel : n ≤ fuel) :
    (handleDir fuel fs = .error .panic ∧ (deref fs.heap c).subs = [] ∧ c ≠ r) ∨
    ∃ rest, handleDir fuel fs = .ok (("Directory of " ++ pathOf fs.heap n c ++ ":") :: rest) := by
  have heq := handleDir_eq h hc hr hn fuel hfuel
  rw [String.append_assoc]
  cases hsubs : (deref fs.heap c).subs with
  | nil =>
    rw [hsubs] at heq
    by_cases hcr : c = r
    · rw [if_pos hcr] at heq
      exact Or.inr ⟨_, heq⟩
    · rw [if_neg hcr] at heq
      exact Or.inl ⟨heq, rfl, hcr⟩
  | cons first rest =>
    rw [hsubs] at heq
    exact Or.inr ⟨_, heq⟩

/-- C18 fails on the code, for `dir`, by the defect of C13: in the state
reached by `mkdir sub1`, `cd sub1`, whose path is `root\sub1`, `tree` returns
the header `Tree of root\sub1:` and the line `.`, but `dir` returns no line
at all, whatever the fuel: it panics once its path loop has ended. -/
theorem C18_dir_header_missing_in_empty_subdirectory :
    runOps CreateFilesystem [.AddSubdir "sub1", .Cd "sub1"] = some emptySubdirState ∧
    ancestor emptySubdirState.heap 1 1 = emptySubdirState.root ∧
    pathOf emptySubdirState.heap 1 1 = "root\\sub1" ∧
    (∀ fuel, handleTree (fuel + 1) emptySubdirState = .ok ["Tree of root\\sub1:", "."]) ∧
    (∀ fuel, handleDir (fuel + 1) emptySubdirState = .error .panic) ∧
    ∀ fuel lines, handleDir fuel emptySubdirState ≠ .ok lines := by
  have hpanic : ∀ fuel, handleDir (fuel + 1) emptySubdirState = .error .panic := by
    intro fuel
    cases fuel <;> rfl
  refine ⟨by decide, rfl, by decide, ?_, hpanic, ?_⟩
  · intro fuel
    cases fuel <;> rfl
  · intro fuel lines hl
    cases fuel with
    | zero => cases hl
    | succ fuel =>
      rw [hpanic fuel] at hl
      cases hl


/-! ## The keyword of a command -/

/-- The first chunk of the collapsed input: the characters before the first
one of the class `\s`. -/
theorem splitChars_replaceAllSpaces (cs : List Char) :
    ∃ ts, splitChars ' ' (replaceAllSpaces false cs)
      = cs.takeWhile (fun c => !isRegexSpace c) :: ts := by
  induction cs with
  | nil => exact ⟨[], rfl⟩
  | cons c cs ih =>
    obtain ⟨ts, hts⟩ := ih
    by_cases hc : isRegexSpace c = true
    · refine ⟨splitChars ' ' (replaceAllSpaces true cs), ?_⟩
      simp only [replaceAllSpaces, hc, if_true, Bool.false_eq_true, if_false, splitChars,
        List.takeWhile_cons, Bool.not_true]
    · have hsp : c ≠ ' ' := by
        rintro rfl
        exact hc rfl
      refine ⟨ts, ?_⟩
      simp only [replaceAllSpaces, hc, if_false, splitChars, hsp, hts, List.takeWhile_cons,
        Bool.not_eq_true, Bool.not_false, if_true]

/-- What `getCommand` returns. -/
theorem getCommand_eq (input : String) :
    getCommand input = .ok (firstKeyword isRegexSpace input) := by
  obtain ⟨ts, hts⟩ := splitChars_replaceAllSpaces input.data
  unfold getCommand chunksOf firstKeyword
  rw [hts]
  rfl

/-- For a notion of whitespace that holds the class `\s`, the first keyword
is the start of the chunk that `getCommand` returns, up to its first
whitespace character. -/
theorem takeWhile_firstKeyword (ws : Char → Bool)
    (hws : ∀ c, isRegexSpace c = true → ws c = true) (cs : List Char) :
    (cs.takeWhile (fun c => !isRegexSpace c)).takeWhile (fun c => !ws c)
      = cs.takeWhile (fun c => !ws c) := by
  induction cs with
  | nil => rfl
  | cons c cs ih =>
    by_cases hc : ws c = true
    · by_cases hr : isRegexSpace c = true
      · simp only [List.takeWhile_cons, hc, hr, Bool.not_true, Bool.false_eq_true, if_false,
          List.takeWhile_nil]
      · simp only [List.takeWhile_cons, hc, hr, Bool.not_true, Bool.false_eq_true, if_false,
          Bool.not_eq_true, Bool.not_false, if_true]
    · have hr : ¬ isRegexSpace c = true := fun hr => hc (hws c hr)
      simp only [List.takeWhile_cons, hc, hr, Bool.not_eq_true, Bool.not_false, if_true, ih]

/-- A keyword that is not empty and no command name is so for every notion
of whitespace that holds the class `\s` and no character of a command
name. -/
theorem firstKeyword_unknown (ws : Char → Bool)
    (hws : ∀ c, isRegexSpace c = true → ws c = true)
    (hnames : ∀ name ∈ commands, ∀ c ∈ name.data, ws c = false) (input : String)
    (hne : firstKeyword ws input ≠ "") (hunknown : firstKeyword ws input ∉ commands) :
    firstKeyword isRegexSpace input ≠ "" ∧ firstKeyword isRegexSpace input ∉ commands := by
  have hpre := takeWhile_firstKeyword ws hws input.data
  constructor
  · intro hempty
    apply hne
    have hnil : input.data.takeWhile (fun c => !isRegexSpace c) = [] :=
      congrArg String.data hempty
    unfold firstKeyword
    rw [← hpre, hnil]
    rfl
  · intro hmem
    apply hunknown
    have hall : ∀ c ∈ input.data.takeWhile (fun c => !isRegexSpace c), (!ws c) = true := by
      intro c hc
      rw [hnames _ hmem c hc]
      rfl
    have hsame : firstKeyword ws input = firstKeyword isRegexSpace input := by
      unfold firstKeyword
      rw [← hpre, List.takeWhile_eq_self_iff.mpr hall]
    rw [hsame]
    exact hmem

/-- What `handleCommand` does with a chunk that is not empty and no command
name: the panic of its last line. -/
theorem handleCommand_unknown (fuel : Nat) (input : String) (fs : filesystem)
    (hne : firstKeyword isRegexSpace input ≠ "")
    (hunknown : firstKeyword isRegexSpace input ∉ commands) :
    handleCommand fuel input fs = .error .panic := by
  simp only [commands, List.mem_cons, List.mem_singleton, List.mem_nil_iff, or_false,
    not_or] at hunknown
  obtain ⟨h1, h2, h3, h4, h5, h6⟩ := hunknown
  unfold handleCommand
  rw [getCommand_eq]
  simp only [if_neg h1, if_neg h2, if_neg h3, if_neg h4, if_neg h5, if_neg h6, if_neg hne]

/-- What `handleCommand` does with an empty first chunk: no line, and the
filesystem as it was. -/
theorem handleCommand_empty (fuel : Nat) (input : String) (fs : filesystem)
    (hempty : firstKeyword isRegexSpace input = "") :
    handleCommand fuel input fs = .ok (fs, []) := by
  unfold handleCommand
  rw [getCommand_eq, hempty]
  rfl

/-- The first piece of a line cut at its whitespace: the characters before
the first whitespace character. -/
theorem splitBy_head (ws : Char → Bool) (cs : List Char) :
    ∃ ts, splitBy ws cs = cs.takeWhile (fun c => !ws c) :: ts := by
  induction cs with
  | nil => exact ⟨[], rfl⟩
  | cons c cs ih =>
    obtain ⟨ts, hts⟩ := ih
    by_cases hc : ws c = true
    · refine ⟨splitBy ws cs, ?_⟩
      simp only [splitBy, hc, if_true, List.takeWhile_cons, Bool.not_true, Bool.false_eq_true,
        if_false]
    · refine ⟨ts, ?_⟩
      simp only [splitBy, hc, if_false, hts, List.takeWhile_cons, Bool.not_eq_true,
        Bool.not_false, if_true, Bool.false_eq_true]

/-- The first token of a line that does not start with whitespace: the
characters before the first whitespace character. -/
theorem tokens_head (ws : Char → Bool) (input keyword : String) (rest : List String)
    (htok : tokens ws input = keyword :: rest)
    (hstart : startsWithSpace ws input.data = false) :
    keyword = firstKeyword ws input ∧ keyword ≠ "" := by
  obtain ⟨ts, hts⟩ := splitBy_head ws input.data
  unfold tokens at htok
  rw [hts] at htok
  cases hcs : input.data with
  | nil =>
    rw [hcs] at hts htok
    have hnil : ts = [] := by
      have h := (List.cons.inj hts).2
      exact h.symm
    rw [hnil] at htok
    cases htok
  | cons c cs =>
    rw [hcs] at hstart htok
    have hc : ws c = false := hstart
    have htw : (c :: cs).takeWhile (fun c => !ws c)
        = c :: cs.takeWhile (fun c => !ws c) := by
      simp only [List.takeWhile_cons, hc, Bool.not_false, if_true]
    rw [htw] at htok
    have hkey : keyword = String.mk (c :: cs.takeWhile (fun c => !ws c)) :=
      (List.cons.inj htok).1.symm
    constructor
    · unfold firstKeyword
      rw [hcs, htw]
      exact hkey
    · rw [hkey]
      intro h
      have hd := congrArg String.data h
      cases hd

/-- A line that starts with a character of the class `\s` has an empty first
chunk. -/
theorem firstKeyword_of_startsWithSpace (input : String)
    (hstart : startsWithSpace isRegexSpace input.data = true) :
    firstKeyword isRegexSpace input = "" := by
  unfold firstKeyword
  cases hcs : input.data with
  | nil => rfl
  | cons c cs =>
    rw [hcs] at hstart
    have hc : isRegexSpace c = true := hstart
    simp only [List.takeWhile_cons, hc, Bool.not_true, Bool.false_eq_true, if_false]

/-! ## The claim on unknown commands -/

/-- C19, as the code has it: `handleCommand` takes as the keyword what stands
before the first whitespace character of the line. For every input line that
does not start with whitespace and whose first whitespace-delimited token is
not one of `dir`, `mkdir`, `up`, `cd`, `tree`, `mv` (for any notion `ws` of
whitespace that holds the class `\s` of the code and no character of a
command name), `handleCommand` panics, whatever the filesystem, and returns
no output and no new filesystem: the panic is the last line of
`handleCommand`, reached with no method of the filesystem called. For the
empty input, and for every input that starts with a character of the class
`\s`, whatever follows it, `handleCommand` returns no output line and the
filesystem it was called on. -/
theorem C19_handleCommand_unknown_keyword (ws : Char → Bool)
    (hws : ∀ c, isRegexSpace c = true → ws c = true)
    (hnames : ∀ name ∈ commands, ∀ c ∈ name.data, ws c = false)
    (fuel : Nat) (input : String) (fs : filesystem) :
    (∀ keyword rest, tokens ws input = keyword :: rest →
      startsWithSpace ws input.data = false → keyword ∉ commands →
      handleCommand fuel input fs = .error .panic) ∧
    handleCommand fuel "" fs = .ok (fs, []) ∧
    (startsWithSpace isRegexSpace input.data = true →
      handleCommand fuel input fs = .ok (fs, [])) := by
  refine ⟨fun keyword rest htok hstart hunknown => ?_, rfl, fun hstart =>
    handleCommand_empty fuel input fs (firstKeyword_of_startsWithSpace input hstart)⟩
  obtain ⟨hkey, hne⟩ := tokens_head ws input keyword rest htok hstart
  rw [hkey] at hne hunknown
  obtain ⟨h1, h2⟩ := firstKeyword_unknown ws hws hnames input hne hunknown
  exact handleCommand_unknown fuel input fs h1 h2

/-- With the whitespace of `unicode.IsSpace`, on the input `move sub1 sub2`
in `exampleState`. -/
theorem C19_handleCommand_unknown_keyword_witness :
    tokens isSpace "move sub1 sub2" = ["move", "sub1", "sub2"] ∧
    handleCommand 3 "move sub1 sub2" exampleState = .error .panic ∧
    handleCommand 3 "" exampleState = .ok (exampleState, []) ∧
    handleCommand 3 "\t dir" exampleState = .ok (exampleState, []) := by
  have h := C19_handleCommand_unknown_keyword isSpace (by
      intro c hc
      simp only [isRegexSpace, Bool.or_eq_true, decide_eq_true_eq] at hc
      rcases hc with (((rfl | rfl) | rfl) | rfl) | rfl <;> rfl)
    (by decide) 3 "move sub1 sub2" exampleState
  have h2 := C19_handleCommand_unknown_keyword isSpace (by
      intro c hc
      simp only [isRegexSpace, Bool.or_eq_true, decide_eq_true_eq] at hc
      rcases hc with (((rfl | rfl) | rfl) | rfl) | rfl <;> rfl)
    (by decide) 3 "\t dir" exampleState
  exact ⟨by decide, h.1 "move" ["sub1", "sub2"] (by decide) (by decide) (by decide), h.2.1,
    h2.2.2 (by decide)⟩

/-- C19 as stated fails for a line that starts with whitespace: the first
whitespace-delimited keyword of the line `move` after a space is `move`,
which is not empty and no command name, but `handleCommand` returns no output
line and the filesystem as it was, and does not panic. -/
theorem C19_counterexample :
    tokens isRegexSpace " move" = ["move"] ∧ "move" ≠ "" ∧ "move" ∉ commands ∧
    ∀ fuel fs, handleCommand fuel " move" fs = .ok (fs, []) := by
  refine ⟨by decide, by decide, by decide, fun fuel fs => ?_⟩
  exact handleCommand_empty fuel " move" fs (by decide)

/-! ## The argument of `mkdir` and `cd` -/

/-- The encoding of a character has as many bytes as `utf8Size` tells. -/
theorem length_utf8Bytes (c : Char) : (utf8Bytes c).length = c.utf8Size := by
  unfold utf8Bytes Char.utf8Size
  simp only
  split_ifs <;> first | rfl | contradiction

/-- The bytes of a character after the first are continuation bytes. -/
theorem continuation_of_mem_drop (c : Char) (k : Nat) :
    ∀ b ∈ (utf8Bytes c).drop (k + 1), 0x80 ≤ b ∧ b < 0xC0 := by
  intro b hb
  unfold utf8Bytes at hb
  split_ifs at hb
  · simp at hb
  · simp only [List.drop_succ_cons] at hb
    have := List.mem_of_mem_drop hb
    simp only [List.mem_singleton] at this
    omega
  · simp only [List.drop_succ_cons] at hb
    have := List.mem_of_mem_drop hb
    simp only [List.mem_cons, List.mem_singleton, List.mem_nil_iff, or_false] at this
    omega
  · simp only [List.drop_succ_cons] at hb
    have := List.mem_of_mem_drop hb
    simp only [List.mem_cons, List.mem_singleton, List.mem_nil_iff, or_false] at this
    omega

/-- The number of bytes of a text. -/
theorem length_bytesOf (cs : List Char) : (bytesOf cs).length = String.utf8Len cs := by
  induction cs with
  | nil => rfl
  | cons c cs ih =>
    unfold bytesOf
    rw [List.length_append, length_utf8Bytes, ih, String.utf8Len_cons]
    omega

/-- The bytes of a string and its length `len`. -/
theorem length_bytesOf_data (s : String) : (bytesOf s.data).length = len s := by
  rw [length_bytesOf, len_eq_utf8Len]

/-- What the slice `s[n:]` is, for `n` up to the length of `s`: the bytes of
`s` from the byte offset `n` on, which are stray continuation bytes followed
by text. -/
theorem sliceFrom_spec (cs : List Char) :
    ∀ n, n ≤ String.utf8Len cs →
      ∃ stray rest, sliceFrom cs n = .ok (stray, rest) ∧
        stray ++ bytesOf rest = (bytesOf cs).drop n ∧
        ∀ b ∈ stray, 0x80 ≤ b ∧ b < 0xC0 := by
  induction cs with
  | nil =>
    intro n hn
    have h0 : n = 0 := Nat.le_zero.mp hn
    rw [h0]
    exact ⟨[], [], rfl, rfl, fun b hb => by cases hb⟩
  | cons c cs ih =>
    intro n hn
    cases n with
    | zero => exact ⟨[], c :: cs, rfl, rfl, fun b hb => by cases hb⟩
    | succ n =>
      rw [String.utf8Len_cons] at hn
      have hb : bytesOf (c :: cs) = utf8Bytes c ++ bytesOf cs := rfl
      rw [hb]
      unfold sliceFrom
      by_cases hle : c.utf8Size ≤ n + 1
      · rw [if_pos hle]
        obtain ⟨stray, rest, hs, hbytes, hcont⟩ := ih (n + 1 - c.utf8Size) (by omega)
        refine ⟨stray, rest, hs, ?_, hcont⟩
        have hd : (utf8Bytes c ++ bytesOf cs).drop (n + 1)
            = (bytesOf cs).drop (n + 1 - c.utf8Size) := by
          rw [List.drop_append_eq_append_drop, length_utf8Bytes,
            List.drop_of_length_le (by rw [length_utf8Bytes]; exact hle), List.nil_append]
        rw [hd]
        exact hbytes
      · rw [if_neg hle]
        refine ⟨(utf8Bytes c).drop (n + 1), cs, rfl, ?_, continuation_of_mem_drop c n⟩
        rw [List.drop_append_of_le_length (by rw [length_utf8Bytes]; omega)]

/-- Slicing a string at the end of a prefix: no stray byte. -/
theorem sliceFrom_append (a b : List Char) :
    sliceFrom (a ++ b) (String.utf8Len a) = .ok ([], b) := by
  induction a with
  | nil =>
    cases b <;> rfl
  | cons c a ih =>
    rw [String.utf8Len_cons, List.cons_append]
    obtain ⟨k, hk⟩ : ∃ k, String.utf8Len a + c.utf8Size = k + 1 :=
      ⟨String.utf8Len a + c.utf8Size - 1, by have := utf8Size_pos c; omega⟩
    rw [hk]
    unfold sliceFrom
    have hle : c.utf8Size ≤ k + 1 := by omega
    rw [if_pos hle]
    have hsub : k + 1 - c.utf8Size = String.utf8Len a := by omega
    rw [hsub]
    exact ih

/-- What a dropped prefix of whitespace leaves starts with no whitespace. -/
theorem head?_dropWhile_isSpace (s : List Char) (c : Char)
    (h : (s.dropWhile isSpace).head? = some c) : isSpace c = false := by
  have := List.head?_dropWhile_not isSpace s
  rw [h] at this
  exact this

/-- The parts of a trimmed string: `TrimSpace` takes a run of whitespace
from each end of the string. -/
theorem TrimSpace_parts (s : List Char) :
    s = s.takeWhile isSpace ++ TrimSpace s
      ++ ((s.dropWhile isSpace).reverse.takeWhile isSpace).reverse := by
  have h1 := (List.takeWhile_append_dropWhile isSpace s).symm
  have h2 := congrArg List.reverse
    (List.takeWhile_append_dropWhile isSpace (s.dropWhile isSpace).reverse)
  rw [List.reverse_append, List.reverse_reverse] at h2
  unfold TrimSpace
  rw [List.append_assoc, h2]
  exact h1

/-- The string that `TrimSpace` returns starts with no whitespace. -/
theorem TrimSpace_head (s : List Char) (c : Char) (h : (TrimSpace s).head? = some c) :
    isSpace c = false := by
  apply head?_dropWhile_isSpace s c
  have h2 := congrArg List.reverse
    (List.takeWhile_append_dropWhile isSpace (s.dropWhile isSpace).reverse)
  rw [List.reverse_append, List.reverse_reverse] at h2
  have hne : TrimSpace s ≠ [] := by
    intro hnil
    rw [hnil] at h
    cases h
  rw [← h2, ← h]
  exact List.head?_append_of_ne_nil _ hne

/-- The string that `TrimSpace` returns ends with no whitespace. -/
theorem TrimSpace_getLast (s : List Char) (c : Char) (h : (TrimSpace s).getLast? = some c) :
    isSpace c = false := by
  unfold TrimSpace at h
  rw [List.getLast?_reverse] at h
  exact head?_dropWhile_isSpace _ c h

/-- The strings that `TrimSpace` empties are those of whitespace only. -/
theorem TrimSpace_eq_nil_iff (s : List Char) :
    TrimSpace s = [] ↔ ∀ c ∈ s, isSpace c = true := by
  unfold TrimSpace
  rw [List.reverse_eq_nil_iff, List.dropWhile_eq_nil_iff]
  constructor
  · intro h
    have hm : s.dropWhile isSpace = [] := by
      cases hd : s.dropWhile isSpace with
      | nil => rfl
      | cons a m =>
        have h1 := head?_dropWhile_isSpace s a (by rw [hd]; rfl)
        have h2 := h a (by rw [hd]; simp)
        rw [h1] at h2
        cases h2
    exact List.dropWhile_eq_nil_iff.mp hm
  · intro h
    rw [List.dropWhile_eq_nil_iff.mpr h]
    intro x hx
    simp at hx

/-- A string without bytes is the empty string. -/
theorem len_eq_zero_iff (s : String) : len s = 0 ↔ s = "" := by
  constructor
  · intro h
    have hl := length_le_len s
    rw [h] at hl
    cases s with
    | mk cs =>
      have : cs = [] := List.length_eq_zero.mp (Nat.le_zero.mp hl)
      rw [this]
  · rintro rfl
    rfl

/-- The parts of a string trimmed on its right: the spaces at its end are
taken, and what is left ends with no whitespace. -/
theorem trimRight_parts (s : List Char) :
    s = (s.reverse.dropWhile isSpace).reverse ++ (s.reverse.takeWhile isSpace).reverse ∧
    (∀ c ∈ (s.reverse.takeWhile isSpace).reverse, isSpace c = true) ∧
    ∀ c, (s.reverse.dropWhile isSpace).reverse.getLast? = some c → isSpace c = false := by
  refine ⟨?_, ?_, ?_⟩
  · have h := congrArg List.reverse (List.takeWhile_append_dropWhile isSpace s.reverse)
    rw [List.reverse_append, List.reverse_reverse] at h
    exact h.symm
  · intro c hc
    exact List.mem_takeWhile_imp (List.mem_reverse.mp hc)
  · intro c hc
    rw [List.getLast?_reverse] at hc
    exact head?_dropWhile_isSpace _ c hc

/-- What `getArg` returns on an input of at least nine bytes, from the slice
at the byte offset 8. -/
theorem getArg_eq_of_slice (input : String) (stray : List Nat) (rest : List Char)
    (hlen : 9 ≤ len input) (hs : sliceFrom input.data 8 = .ok (stray, rest)) :
    getArg input =
      if stray = [] then
        if TrimSpace rest = [] then .ok ([], "", some .ErrWrongNumberOfArguments)
        else .ok ([], String.mk (TrimSpace rest), none)
      else .ok (stray, String.mk (rest.reverse.dropWhile isSpace).reverse, none) := by
  unfold getArg
  rw [if_neg (by omega), hs]
  cases stray with
  | nil =>
    simp only [TrimSpaceCut, List.length_nil, Nat.zero_add, if_true]
    by_cases ht : TrimSpace rest = []
    · rw [if_pos ht, ht]
      rfl
    · rw [if_neg ht, if_neg]
      rw [len_eq_zero_iff]
      intro h
      exact ht (congrArg String.data h)
  | cons b stray =>
    simp only [TrimSpaceCut, List.length_cons]
    rw [if_neg (by omega), if_neg (List.cons_ne_nil _ _)]

/-- What `getArg` returns on an input of at least nine bytes of which the
first eight are the string `pre`. -/
theorem getArg_eq (pre rest : String) (hpre : len pre = 8) (hlen : 9 ≤ len (pre ++ rest)) :
    getArg (pre ++ rest) =
      if TrimSpace rest.data = [] then .ok ([], "", some .ErrWrongNumberOfArguments)
      else .ok ([], String.mk (TrimSpace rest.data), none) := by
  have h8 : 8 = String.utf8Len pre.data := by
    rw [← len_eq_utf8Len, hpre]
  have hs : sliceFrom (pre ++ rest).data 8 = .ok ([], rest.data) := by
    rw [String.data_append]
    conv_lhs => rw [h8, sliceFrom_append]
  rw [getArg_eq_of_slice _ _ _ hlen hs, if_pos rfl]

/-- The three outcomes of `getArg`: the error, an argument of text that is
not empty, or an argument that starts with stray bytes. -/
theorem getArg_cases (input : String) :
    getArg input = .ok ([], "", some .ErrWrongNumberOfArguments) ∨
    (∃ arg, arg ≠ "" ∧ getArg input = .ok ([], arg, none)) ∨
    (∃ b stray arg, getArg input = .ok (b :: stray, arg, none)) := by
  by_cases hlen : len input < 9
  · left
    unfold getArg
    rw [if_pos hlen]
  · obtain ⟨stray, rest, hs, _, _⟩ := sliceFrom_spec input.data 8
      (by rw [← len_eq_utf8Len]; omega)
    rw [getArg_eq_of_slice input stray rest (by omega) hs]
    cases stray with
    | nil =>
      rw [if_pos rfl]
      by_cases ht : TrimSpace rest = []
      · rw [if_pos ht]
        exact Or.inl rfl
      · rw [if_neg ht]
        exact Or.inr (Or.inl ⟨_, fun h => ht (congrArg String.data h), rfl⟩)
    | cons b stray =>
      rw [if_neg (List.cons_ne_nil _ _)]
      exact Or.inr (Or.inr ⟨b, stray, _, rfl⟩)

/-- Under the invariant `handleMkdir` does not panic. -/
theorem handleMkdir_ok (fs : filesystem) (arg : String) (h : Inv fs) :
    ∃ res, handleMkdir fs arg = some res := by
  obtain ⟨fs1, e, hadd, _⟩ := AddSubdir_inv fs arg h
  unfold handleMkdir
  rw [hadd]
  cases e <;> exact ⟨_, rfl⟩

/-- Under the invariant `handleCd` does not panic. -/
theorem handleCd_ok (fs : filesystem) (arg : String) (h : Inv fs) :
    ∃ res, handleCd fs arg = some res := by
  obtain ⟨fs1, e, hcd, _⟩ := Cd_inv fs arg h
  unfold handleCd
  rw [hcd]
  cases e <;> exact ⟨_, rfl⟩

/-- The branch `mkdir` of `handleCommand`. -/
theorem handleCommand_mkdir (fuel : Nat) (input : String) (fs : filesystem)
    (hcmd : getCommand input = .ok "mkdir") :
    handleCommand fuel input fs =
      match getArg input with
      | .error f => .error f
      | .ok (_, _, some _) => .error .panic
      | .ok ([], arg, none) => orPanic (handleMkdir fs arg)
      | .ok (_ :: _, _, none) => .error .notText := by
  unfold handleCommand
  rw [hcmd]
  rfl

/-- The branch `cd` of `handleCommand`. -/
theorem handleCommand_cd (fuel : Nat) (input : String) (fs : filesystem)
    (hcmd : getCommand input = .ok "cd") :
    handleCommand fuel input fs =
      match getArg input with
      | .error f => .error f
      | .ok (_, _, some _) => .error .panic
      | .ok ([], arg, none) => orPanic (handleCd fs arg)
      | .ok (_ :: _, _, none) => orPanic (handleCdNoText fs) := by
  unfold handleCommand
  rw [hcmd]
  rfl

/-- What the commands `mkdir` and `cd` do, from what `getArg` returns, in a
state with the invariant: a panic on the error of `getArg`; a result on an
argument of text; on an argument that starts with stray bytes, the error
line of `cd`, and for `mkdir` a directory that the embedding cannot hold. -/
theorem handleCommand_arg (fuel : Nat) (input : String) (fs : filesystem) (h : Inv fs)
    (hcmd : getCommand input = .ok "mkdir" ∨ getCommand input = .ok "cd") :
    (getArg input = .ok ([], "", some .ErrWrongNumberOfArguments) →
      handleCommand fuel input fs = .error .panic) ∧
    (∀ arg, getArg input = .ok ([], arg, none) →
      ∃ res, handleCommand fuel input fs = .ok res) ∧
    (∀ b stray arg, getArg input = .ok (b :: stray, arg, none) →
      (getCommand input = .ok "cd" →
        handleCommand fuel input fs = .ok (fs, [FsError.ErrSubdirDoesNotExist.Error])) ∧
      (getCommand input = .ok "mkdir" → handleCommand fuel input fs = .error .notText)) := by
  obtain ⟨c, hc, _⟩ := h.current
  refine ⟨fun hg => ?_, fun arg hg => ?_, fun b stray arg hg => ⟨fun hcd => ?_, fun hmk => ?_⟩⟩
  · rcases hcmd with hcmd | hcmd
    · rw [handleCommand_mkdir fuel input fs hcmd, hg]
    · rw [handleCommand_cd fuel input fs hcmd, hg]
  · rcases hcmd with hcmd | hcmd
    · rw [handleCommand_mkdir fuel input fs hcmd, hg]
      obtain ⟨res, hres⟩ := handleMkdir_ok fs arg h
      exact ⟨res, by simp only [hres, orPanic]⟩
    · rw [handleCommand_cd fuel input fs hcmd, hg]
      obtain ⟨res, hres⟩ := handleCd_ok fs arg h
      exact ⟨res, by simp only [hres, orPanic]⟩
  · rw [handleCommand_cd fuel input fs hcd, hg]
    simp only [handleCdNoText, hc, orPanic]
  · rw [handleCommand_mkdir fuel input fs hmk, hg]

/-- Under the invariant the commands `mkdir` and `cd` panic exactly when
`getArg` returns its error. -/
theorem handleCommand_arg_panic_iff (fuel : Nat) (input : String) (fs : filesystem)
    (h : Inv fs) (hcmd : getCommand input = .ok "mkdir" ∨ getCommand input = .ok "cd") :
    handleCommand fuel input fs = .error .panic ↔
      getArg input = .ok ([], "", some .ErrWrongNumberOfArguments) := by
  obtain ⟨herr, hok, hstray⟩ := handleCommand_arg fuel input fs h hcmd
  refine ⟨fun hp => ?_, herr⟩
  rcases getArg_cases input with hg | ⟨arg, _, hg⟩ | ⟨b, stray, arg, hg⟩
  · exact hg
  · obtain ⟨res, hres⟩ := hok arg hg
    rw [hres] at hp
    cases hp
  · rcases hcmd with hcmd | hcmd
    · rw [(hstray b stray arg hg).2 hcmd] at hp
      cases hp
    · rw [(hstray b stray arg hg).1 hcmd] at hp
      cases hp

/-! ## The claim on `getArg` -/

/-- C20: `getArg` returns `ErrWrongNumberOfArguments` when the input has less
than 9 bytes. On an input of at least 9 bytes, its bytes from the byte offset
8 on are some stray continuation bytes `stray`, the end of a character that
the offset cuts (none when the offset falls between two characters),
followed by a text `rest`; `getArg` returns the error when there is no stray
byte and `rest` holds whitespace only, and else it returns no error and the
argument, which is not empty: with no stray byte, `rest` without the
whitespace at its two ends; with stray bytes, which are no whitespace, the
stray bytes and `rest` without the whitespace at its end. In particular,
whatever the string `pre` of the first 8 bytes, on `pre ++ rest` it returns
the error when `rest` holds whitespace only and else `rest` without the
whitespace at its two ends. Whitespace is that of `unicode.IsSpace`. In a
state with the invariant, `handleCommand` for `mkdir` and `cd` panics exactly
when `getArg` returns the error; else it returns a result, but for `mkdir`
with an argument that starts with stray bytes, where it creates a directory
whose name is no text (`notText`, no panic). -/
theorem C20_getArg (fuel : Nat) (input : String) (fs : filesystem) (h : Inv fs) :
    (bytesOf input.data).length = len input ∧
    (len input < 9 → getArg input = .ok ([], "", some .ErrWrongNumberOfArguments)) ∧
    (9 ≤ len input →
      ∃ stray rest, stray ++ bytesOf rest = (bytesOf input.data).drop 8 ∧
        (∀ b ∈ stray, 0x80 ≤ b ∧ b < 0xC0) ∧
        (stray = [] → (∀ c ∈ rest, isSpace c = true) →
          getArg input = .ok ([], "", some .ErrWrongNumberOfArguments)) ∧
        (stray = [] → ¬ (∀ c ∈ rest, isSpace c = true) →
          ∃ lead arg trail, rest = lead ++ arg ++ trail ∧
            (∀ c ∈ lead, isSpace c = true) ∧ (∀ c ∈ trail, isSpace c = true) ∧
            arg ≠ [] ∧ (∀ c, arg.head? = some c → isSpace c = false) ∧
            (∀ c, arg.getLast? = some c → isSpace c = false) ∧
            getArg input = .ok ([], String.mk arg, none)) ∧
        (stray ≠ [] →
          ∃ arg trail, rest = arg ++ trail ∧ (∀ c ∈ trail, isSpace c = true) ∧
            (∀ c, arg.getLast? = some c → isSpace c = false) ∧
            getArg input = .ok (stray, String.mk arg, none))) ∧
    (∀ pre rest : String, input = pre ++ rest → len pre = 8 → 9 ≤ len input →
      ((∀ c ∈ rest.data, isSpace c = true) →
        getArg input = .ok ([], "", some .ErrWrongNumberOfArguments)) ∧
      (¬ (∀ c ∈ rest.data, isSpace c = true) →
        TrimSpace rest.data ≠ [] ∧
        getArg input = .ok ([], String.mk (TrimSpace rest.data), none))) ∧
    (getCommand input = .ok "mkdir" ∨ getCommand input = .ok "cd" →
      (handleCommand fuel input fs = .error .panic ↔
        getArg input = .ok ([], "", some .ErrWrongNumberOfArguments)) ∧
      (∀ arg, getArg input = .ok ([], arg, none) →
        ∃ res, handleCommand fuel input fs = .ok res) ∧
      (∀ b stray arg, getArg input = .ok (b :: stray, arg, none) →
        (getCommand input = .ok "cd" →
          handleCommand fuel input fs = .ok (fs, [FsError.ErrSubdirDoesNotExist.Error])) ∧
        (getCommand input = .ok "mkdir" →
          handleCommand fuel input fs = .error .notText))) := by
  refine ⟨length_bytesOf_data input, fun hlen => ?_, fun hlen => ?_,
    fun pre rest hin hpre hlen => ?_, fun hcmd => ?_⟩
  · unfold getArg
    rw [if_pos hlen]
  · obtain ⟨stray, rest, hs, hbytes, hcont⟩ := sliceFrom_spec input.data 8
      (by rw [← len_eq_utf8Len]; omega)
    have heq := getArg_eq_of_slice input stray rest hlen hs
    refine ⟨stray, rest, hbytes, hcont, ?_, ?_, ?_⟩
    · intro hnil hall
      rw [heq, if_pos hnil, if_pos ((TrimSpace_eq_nil_iff _).mpr hall)]
    · intro hnil hnot
      have hne : TrimSpace rest ≠ [] := fun ht => hnot ((TrimSpace_eq_nil_iff _).mp ht)
      rw [heq, if_pos hnil, if_neg hne]
      exact ⟨rest.takeWhile isSpace, TrimSpace rest,
        ((rest.dropWhile isSpace).reverse.takeWhile isSpace).reverse, TrimSpace_parts rest,
        fun c hc => List.mem_takeWhile_imp hc,
        fun c hc => List.mem_takeWhile_imp (List.mem_reverse.mp hc), hne,
        TrimSpace_head rest, TrimSpace_getLast rest, rfl⟩
    · intro hne
      rw [heq, if_neg hne]
      obtain ⟨hparts, htrail, hlast⟩ := trimRight_parts rest
      exact ⟨_, _, hparts, htrail, hlast, rfl⟩
  · subst hin
    rw [getArg_eq pre rest hpre hlen]
    constructor
    · intro hall
      rw [if_pos ((TrimSpace_eq_nil_iff _).mpr hall)]
    · intro hnot
      have hne : TrimSpace rest.data ≠ [] := fun ht => hnot ((TrimSpace_eq_nil_iff _).mp ht)
      rw [if_neg hne]
      exact ⟨hne, rfl⟩
  · obtain ⟨_, hok, hstray⟩ := handleCommand_arg fuel input fs h hcmd
    exact ⟨handleCommand_arg_panic_iff fuel input fs h hcmd, hok, hstray⟩

/-- In `exampleState`: an argument between spaces is trimmed; spaces only
from the byte offset 8 on, and an input of 7 bytes, give the error and the
panic; the byte offset 8 in the middle of the character `é` gives an argument
that starts with the second byte of `é`. -/
theorem C20_getArg_witness :
    Inv exampleState ∧
    getArg "mkdir     sub3  " = .ok ([], "sub3", none) ∧
    (∃ res, handleCommand 0 "mkdir     sub3  " exampleState = .ok res) ∧
    getArg "mkdir      " = .ok ([], "", some .ErrWrongNumberOfArguments) ∧
    handleCommand 0 "mkdir      " exampleState = .error .panic ∧
    getArg "mkdir a" = .ok ([], "", some .ErrWrongNumberOfArguments) ∧
    handleCommand 0 "mkdir a" exampleState = .error .panic ∧
    bytesOf "mkdir  éabc ".data
      = [109, 107, 100, 105, 114, 32, 32, 0xC3, 0xA9, 97, 98, 99, 32] ∧
    getArg "mkdir  éabc " = .ok ([0xA9], "abc", none) ∧
    handleCommand 0 "mkdir  éabc " exampleState = .error .notText ∧
    getArg "cd     éabc" = .ok ([0xA9], "abc", none) ∧
    handleCommand 0 "cd     éabc" exampleState
      = .ok (exampleState, ["Subdirectory does not exist"]) :=
  ⟨Inv_exampleState, rfl,
    (C20_getArg 0 "mkdir     sub3  " exampleState Inv_exampleState).2.2.2.2
      (Or.inl rfl) |>.2.1 "sub3" rfl,
    rfl,
    ((C20_getArg 0 "mkdir      " exampleState Inv_exampleState).2.2.2.2 (Or.inl rfl)).1.mpr rfl,
    rfl,
    ((C20_getArg 0 "mkdir a" exampleState Inv_exampleState).2.2.2.2 (Or.inl rfl)).1.mpr rfl,
    by decide, rfl,
    ((C20_getArg 0 "mkdir  éabc " exampleState Inv_exampleState).2.2.2.2 (Or.inl rfl)).2.2
      0xA9 [] "abc" rfl |>.2 rfl,
    rfl,
    ((C20_getArg 0 "cd     éabc" exampleState Inv_exampleState).2.2.2.2 (Or.inr rfl)).2.2
      0xA9 [] "abc" rfl |>.1 rfl⟩

/-! ## The name of the root -/

/-- The code of `Mv` after the loop keeps the root and its name. -/
theorem finishMv_root_name (fs : filesystem) (X c : Nat) (res : Resolution) (h : Inv fs)
    (hX : X ∈ (deref fs.heap c).subs)
    (hfound : ∀ D, res = .found D → D < fs.heap.length)
    (hrename : ∀ D step, res = .rename D step →
      D < fs.heap.length ∧ findSub fs.heap step (deref fs.heap D).subs = none) :
    ∃ fs1 e, finishMv fs X res = some (fs1, e) ∧ fs1.root = fs.root ∧
      ∀ r, fs.root = some r → (deref fs1.heap r).name = (deref fs.heap r).name := by
  cases res with
  | notFound => exact ⟨fs, _, rfl, rfl, fun _ _ => rfl⟩
  | rename D step =>
    obtain ⟨hD, hf⟩ := hrename D step rfl
    obtain ⟨heap2, hmv, hlen, hderef, hinv⟩ := moveDirectory_heapInv
      (moveReady_rename step h.heapInv hX hD (findSub_eq_none_iff.mp hf))
    refine ⟨{ fs with heap := heap2 }, none, ?_, rfl, ?_⟩
    · rw [finishMv_rename, hmv]
    · intro r hr
      obtain ⟨r2, hr2, _, hrp⟩ := h.root
      rw [hr] at hr2
      cases hr2
      have hrX : r ≠ X := by
        rintro rfl
        rw [(h.heapInv.child c r hX).2] at hrp
        cases hrp
      show (deref heap2 r).name = _
      rw [hderef, movedDir_name, deref_rename_name _ _ _ _ (h.heapInv.child c X hX).1,
        if_neg hrX]
  | found D =>
    have hD := hfound D rfl
    rw [finishMv_found]
    by_cases hcond : D = X ∨ some D = fs.current
    · rw [if_pos hcond]
      exact ⟨fs, _, rfl, rfl, fun _ _ => rfl⟩
    · rw [if_neg hcond]
      cases hf : findSub fs.heap (deref fs.heap X).name (deref fs.heap D).subs with
      | some s => exact ⟨fs, _, rfl, rfl, fun _ _ => rfl⟩
      | none =>
        obtain ⟨heap2, hmv, hlen, hderef, hinv⟩ := moveDirectory_heapInv
          (moveReady_of_heapInv h.heapInv hX hD (findSub_eq_none_iff.mp hf))
        refine ⟨{ fs with heap := heap2 }, none, ?_, rfl, ?_⟩
        · simp only [hmv]
        · intro r _
          show (deref heap2 r).name = _
          rw [hderef, movedDir_name]

/-- Every call keeps the root and its name. -/
theorem applyOp_root_name (fs : filesystem) (op : Op) (h : Inv fs) :
    ∃ fs1 e, applyOp fs op = some (fs1, e) ∧ fs1.root = fs.root ∧
      ∀ r, fs.root = some r → (deref fs1.heap r).name = (deref fs.heap r).name := by
  obtain ⟨c, hc, hlt⟩ := h.current
  cases op with
  | AddSubdir subName =>
    show ∃ fs1 e, AddSubdir fs subName = some (fs1, e) ∧ _
    cases hf : findSub fs.heap subName (deref fs.heap c).subs with
    | some s =>
      refine ⟨fs, some .ErrSubdirAlreadyExists, ?_, rfl, fun _ _ => rfl⟩
      unfold AddSubdir
      rw [hc]
      simp only
      rw [hf]
    | none =>
      obtain ⟨heap1, hadd, _, hderef⟩ := AddSubdir_eq fs subName c hc hlt hf
      refine ⟨_, _, hadd, rfl, ?_⟩
      intro r hr
      obtain ⟨r2, hr2, hrlt, _⟩ := h.root
      rw [hr] at hr2
      cases hr2
      show (deref heap1 r).name = _
      rw [hderef]
      unfold addedDir
      rw [if_neg (Nat.ne_of_lt hrlt)]
      by_cases hrc : r = c
      · rw [if_pos hrc, hrc]
      · rw [if_neg hrc]
  | Up =>
    show ∃ fs1 e, Up fs = some (fs1, e) ∧ _
    unfold Up
    by_cases hcr : fs.current = fs.root
    · rw [if_pos hcr]
      exact ⟨fs, _, rfl, rfl, fun _ _ => rfl⟩
    · rw [if_neg hcr, hc]
      exact ⟨_, none, rfl, rfl, fun _ _ => rfl⟩
  | Cd dirName =>
    show ∃ fs1 e, Cd fs dirName = some (fs1, e) ∧ _
    unfold Cd
    rw [hc]
    simp only
    cases findSub fs.heap dirName (deref fs.heap c).subs with
    | some s => exact ⟨_, none, rfl, rfl, fun _ _ => rfl⟩
    | none => exact ⟨fs, _, rfl, rfl, fun _ _ => rfl⟩
  | Mv src dst =>
    show ∃ fs1 e, Mv fs src dst = some (fs1, e) ∧ _
    rw [Mv_eq fs src dst c hc]
    cases hf : findSub fs.heap src (deref fs.heap c).subs with
    | none => exact ⟨fs, _, rfl, rfl, fun _ _ => rfl⟩
    | some X =>
      have hspec := resolveSteps_spec h.heapInv (Split dst) c hlt
      exact finishMv_root_name fs X c _ h (findSub_some hf).1 hspec.1 hspec.2

/-- A run keeps the root and its name. -/
theorem runOps_root_name (ops : List Op) :
    ∀ fs, Inv fs → ∃ fs1, runOps fs ops = some fs1 ∧ fs1.root = fs.root ∧
      ∀ r, fs.root = some r → (deref fs1.heap r).name = (deref fs.heap r).name := by
  induction ops with
  | nil => exact fun fs _ => ⟨fs, rfl, rfl, fun _ _ => rfl⟩
  | cons op ops ih =>
    intro fs h
    obtain ⟨fs1, e, hop, hroot, hname⟩ := applyOp_root_name fs op h
    obtain ⟨fs1b, eb, hopb, hinv⟩ := applyOp_inv fs op h
    rw [hop] at hopb
    cases hopb
    obtain ⟨fs2, hrun, hroot2, hname2⟩ := ih fs1 hinv
    refine ⟨fs2, ?_, hroot2.trans hroot, ?_⟩
    · unfold runOps
      rw [hop]
      exact hrun
    · intro r hr
      rw [hname2 r (hroot.trans hr), hname r hr]

/-- In every state reached from `CreateFilesystem()` the root is the
directory created first, and its name is `root`. -/
theorem root_name_of_runOps {ops : List Op} {fs : filesystem}
    (h : runOps CreateFilesystem ops = some fs) :
    fs.root = some 0 ∧ (deref fs.heap 0).name = "root" := by
  obtain ⟨fs1, hrun, hroot, hname⟩ := runOps_root_name ops CreateFilesystem Inv_CreateFilesystem
  rw [h] at hrun
  cases hrun
  exact ⟨hroot, hname 0 rfl⟩

/-- The headers of `dir` and `tree` in the states reached from
`CreateFilesystem()`: with `P` the path of the current directory, which is
`root` at the root, the first line of `tree` is `Tree of P:`, and `dir`
either panics, in a directory without children other than the root, or
returns lines of which the first is `Directory of P:`. -/
theorem headers_of_runOps {ops : List Op} {fs : filesystem}
    (h : runOps CreateFilesystem ops = some fs) :
    ∃ c n, fs.current = some c ∧ ancestor fs.heap n c = some 0 ∧
      (c = 0 → pathOf fs.heap n c = "root") ∧
      (∃ k, ∀ fuel, k ≤ fuel → ∃ rest,
        handleTree fuel fs = .ok (("Tree of " ++ pathOf fs.heap n c ++ ":") :: rest)) ∧
      ∀ fuel, n ≤ fuel →
        (handleDir fuel fs = .error .panic ∧ (deref fs.heap c).subs = [] ∧ c ≠ 0) ∨
        ∃ rest, handleDir fuel fs
          = .ok (("Directory of " ++ pathOf fs.heap n c ++ ":") :: rest) := by
  have hinv := inv_of_runOps h
  obtain ⟨hroot, hname⟩ := root_name_of_runOps h
  obtain ⟨c, hc, _⟩ := hinv.current
  obtain ⟨n, hn⟩ := hinv.rooted c hc
  rw [hroot] at hn
  obtain ⟨r2, hr2, _, hrp⟩ := hinv.root
  rw [hroot] at hr2
  cases hr2
  refine ⟨c, n, hc, hn, ?_, handleTree_header hinv hc hroot hn,
    fun fuel hfuel => handleDir_header hinv hc hroot hn fuel hfuel⟩
  rintro rfl
  cases n with
  | zero =>
    rw [pathOf_zero]
    exact hname
  | succ n =>
    rw [ancestor_succ_of_parent_none hrp] at hn
    cases hn


/-! ## The chunks of a line and its tokens -/

theorem splitBy_ne_nil (ws : Char → Bool) (cs : List Char) : splitBy ws cs ≠ [] := by
  cases cs with
  | nil => exact List.cons_ne_nil _ _
  | cons c cs =>
    unfold splitBy
    by_cases hc : ws c = true
    · rw [if_pos hc]
      exact List.cons_ne_nil _ _
    · rw [if_neg hc]
      cases splitBy ws cs <;> exact List.cons_ne_nil _ _

/-- The chunks of the code are the pieces of the line cut at every character
of the class `\s`, without the empty pieces between two such characters. -/
theorem splitChars_replaceAllSpaces_eq (cs : List Char) :
    splitChars ' ' (replaceAllSpaces true cs) = squeeze (splitBy isRegexSpace cs) ∧
    splitChars ' ' (replaceAllSpaces false cs) = keepFirst (splitBy isRegexSpace cs) := by
  induction cs with
  | nil => exact ⟨rfl, rfl⟩
  | cons c cs ih =>
    obtain ⟨ih1, ih2⟩ := ih
    by_cases hc : isRegexSpace c = true
    · have hsplit : splitBy isRegexSpace (c :: cs) = [] :: splitBy isRegexSpace cs := by
        simp only [splitBy, hc, if_true]
      rw [hsplit]
      constructor
      · have hrep : replaceAllSpaces true (c :: cs) = replaceAllSpaces true cs := by
          simp only [replaceAllSpaces, hc, if_true]
        rw [hrep, ih1]
        cases hP : splitBy isRegexSpace cs with
        | nil => exact absurd hP (splitBy_ne_nil _ _)
        | cons q r => rfl
      · have hrep : replaceAllSpaces false (c :: cs) = ' ' :: replaceAllSpaces true cs := by
          simp only [replaceAllSpaces, hc, if_true, Bool.false_eq_true, if_false]
        rw [hrep]
        simp only [splitChars, if_true, ih1, keepFirst]
    · have hsp : c ≠ ' ' := by
        rintro rfl
        exact hc rfl
      have hrep : ∀ b, replaceAllSpaces b (c :: cs) = c :: replaceAllSpaces false cs := by
        intro b
        simp only [replaceAllSpaces, hc, if_false, Bool.false_eq_true]
      have hchunks : splitChars ' ' (c :: replaceAllSpaces false cs)
          = match keepFirst (splitBy isRegexSpace cs) with
            | [] => [[c]]
            | t :: ts => (c :: t) :: ts := by
        simp only [splitChars, hsp, if_false, ih2]
      have hsplit : splitBy isRegexSpace (c :: cs)
          = match splitBy isRegexSpace cs with
            | [] => [[c]]
            | t :: ts => (c :: t) :: ts := by
        simp only [splitBy, hc, if_false, Bool.false_eq_true]
      rw [hrep, hrep, hchunks, hsplit]
      cases splitBy isRegexSpace cs with
      | nil => exact ⟨rfl, rfl⟩
      | cons t ts =>
        cases ts with
        | nil => exact ⟨rfl, rfl⟩
        | cons q r => exact ⟨rfl, rfl⟩

/-- What `squeeze` leaves: the pieces that are not empty, and an empty last
piece. -/
theorem squeeze_eq (P : List (List Char)) (hP : P ≠ []) :
    squeeze P = P.filter (fun t => !t.isEmpty)
      ++ (if P.getLast? = some [] then [[]] else []) := by
  induction P with
  | nil => exact absurd rfl hP
  | cons p rest ih =>
    cases rest with
    | nil =>
      cases p with
      | nil => rfl
      | cons a p => rfl
    | cons q r =>
      have ih2 := ih (List.cons_ne_nil _ _)
      have hlast : (p :: q :: r).getLast? = (q :: r).getLast? := List.getLast?_cons_cons
      rw [hlast]
      cases p with
      | nil =>
        show squeeze (q :: r) = _
        rw [ih2]
        rfl
      | cons a p =>
        show (a :: p) :: squeeze (q :: r) = _
        rw [ih2]
        rfl

/-- What `keepFirst` leaves, unless the line is empty: the pieces that are
not empty, with an empty first piece and an empty last piece. -/
theorem keepFirst_eq (P : List (List Char)) (hP : P ≠ []) (hP2 : P ≠ [[]]) :
    keepFirst P = (if P.head? = some [] then [[]] else [])
      ++ P.filter (fun t => !t.isEmpty)
      ++ (if P.getLast? = some [] then [[]] else []) := by
  cases P with
  | nil => exact absurd rfl hP
  | cons p rest =>
    cases rest with
    | nil =>
      cases p with
      | nil => exact absurd rfl hP2
      | cons a p => rfl
    | cons q r =>
      have hlast : (p :: q :: r).getLast? = (q :: r).getLast? := List.getLast?_cons_cons
      rw [hlast]
      show p :: squeeze (q :: r) = _
      rw [squeeze_eq (q :: r) (List.cons_ne_nil _ _)]
      cases p with
      | nil => rfl
      | cons a p => rfl

/-- Only the empty line is cut into one empty piece. -/
theorem splitBy_eq_singleton_nil (ws : Char → Bool) (cs : List Char)
    (h : splitBy ws cs = [[]]) : cs = [] := by
  cases cs with
  | nil => rfl
  | cons c cs =>
    exfalso
    unfold splitBy at h
    by_cases hc : ws c = true
    · rw [if_pos hc] at h
      exact splitBy_ne_nil ws cs (List.cons.inj h).2
    · rw [if_neg hc] at h
      cases hP : splitBy ws cs with
      | nil =>
        rw [hP] at h
        cases h
      | cons t ts =>
        rw [hP] at h
        cases h

/-- The first piece is empty exactly when the line starts with whitespace or
is empty. -/
theorem head?_splitBy (ws : Char → Bool) (cs : List Char) (hcs : cs ≠ []) :
    ((splitBy ws cs).head? = some []) ↔ startsWithSpace ws cs = true := by
  cases cs with
  | nil => exact absurd rfl hcs
  | cons c cs =>
    unfold splitBy startsWithSpace
    by_cases hc : ws c = true
    · rw [if_pos hc]
      exact ⟨fun _ => hc, fun _ => rfl⟩
    · rw [if_neg hc]
      constructor
      · intro h
        cases hP : splitBy ws cs with
        | nil =>
          rw [hP] at h
          cases h
        | cons t ts =>
          rw [hP] at h
          cases h
      · intro h
        exact absurd h hc

/-- The last piece is empty exactly when the line ends with whitespace or is
empty. -/
theorem getLast?_splitBy (ws : Char → Bool) (cs : List Char) (hcs : cs ≠ []) :
    ((splitBy ws cs).getLast? = some []) ↔ endsWithSpace ws cs = true := by
  induction cs with
  | nil => exact absurd rfl hcs
  | cons c cs ih =>
    cases cs with
    | nil =>
      unfold splitBy endsWithSpace
      by_cases hc : ws c = true
      · rw [if_pos hc]
        exact ⟨fun _ => hc, fun _ => rfl⟩
      · rw [if_neg hc]
        constructor
        · intro h
          cases h
        · intro h
          exact absurd h hc
    | cons d cs =>
      have ih2 := ih (List.cons_ne_nil _ _)
      have hends : endsWithSpace ws (c :: d :: cs) = endsWithSpace ws (d :: cs) := rfl
      rw [hends, ← ih2]
      have hne := splitBy_ne_nil ws (d :: cs)
      have hne2 : splitBy ws (d :: cs) ≠ [[]] := fun h => by
        cases splitBy_eq_singleton_nil ws _ h
      by_cases hc : ws c = true
      · have hsplit : splitBy ws (c :: d :: cs) = [] :: splitBy ws (d :: cs) := by
          conv_lhs => unfold splitBy
          rw [if_pos hc]
        rw [hsplit]
        cases hP : splitBy ws (d :: cs) with
        | nil => exact absurd hP hne
        | cons t ts => rw [List.getLast?_cons_cons]
      · have hsplit : splitBy ws (c :: d :: cs)
            = match splitBy ws (d :: cs) with
              | [] => [[c]]
              | t :: ts => (c :: t) :: ts := by
          conv_lhs => unfold splitBy
          rw [if_neg hc]
        rw [hsplit]
        cases hP : splitBy ws (d :: cs) with
        | nil => exact absurd hP hne
        | cons t ts =>
          cases ts with
          | nil =>
            have ht : t ≠ [] := by
              rintro rfl
              exact hne2 hP
            constructor
            · intro h
              cases h
            · intro h
              exact absurd (Option.some.inj h) ht
          | cons q r =>
            show ((c :: t) :: q :: r).getLast? = some [] ↔ (t :: q :: r).getLast? = some []
            rw [List.getLast?_cons_cons, List.getLast?_cons_cons]

/-- The chunks of a line that is not empty: its tokens, after an empty chunk
when the line starts with whitespace, and before an empty chunk when it ends
with whitespace. -/
theorem chunksOf_eq (input : String) (hne : input ≠ "") :
    chunksOf input
      = (if startsWithSpace isRegexSpace input.data = true then [""] else [])
        ++ tokens isRegexSpace input
        ++ (if endsWithSpace isRegexSpace input.data = true then [""] else []) := by
  have hcs : input.data ≠ [] := by
    intro h
    apply hne
    apply String.ext
    rw [h]
  unfold chunksOf tokens
  rw [(splitChars_replaceAllSpaces_eq input.data).2,
    keepFirst_eq _ (splitBy_ne_nil _ _) (fun h => hcs (splitBy_eq_singleton_nil _ _ h))]
  simp only [head?_splitBy isRegexSpace _ hcs, getLast?_splitBy isRegexSpace _ hcs,
    List.map_append]
  by_cases h1 : startsWithSpace isRegexSpace input.data = true <;>
    by_cases h2 : endsWithSpace isRegexSpace input.data = true <;>
    simp only [h1, h2, if_true, if_false, List.map_cons, List.map_nil, Bool.false_eq_true]

/-- The chunks of the empty line. -/
theorem chunksOf_empty : chunksOf "" = [""] := by
  decide

/-- The pieces of a line hold no whitespace character. -/
theorem not_ws_of_mem_splitBy (ws : Char → Bool) (cs : List Char) :
    ∀ p ∈ splitBy ws cs, ∀ c ∈ p, ws c = false := by
  induction cs with
  | nil =>
    intro p hp c hc
    rw [List.mem_singleton.mp hp] at hc
    cases hc
  | cons a cs ih =>
    intro p hp c hc
    unfold splitBy at hp
    by_cases ha : ws a = true
    · rw [if_pos ha] at hp
      rcases List.mem_cons.mp hp with rfl | hp
      · cases hc
      · exact ih p hp c hc
    · rw [if_neg ha] at hp
      cases hP : splitBy ws cs with
      | nil =>
        rw [hP] at hp
        rw [List.mem_singleton.mp hp] at hc
        rw [List.mem_singleton.mp hc]
        exact Bool.eq_false_iff.mpr ha
      | cons t ts =>
        rw [hP] at hp ih
        rcases List.mem_cons.mp hp with rfl | hp
        · rcases List.mem_cons.mp hc with rfl | hc
          · exact Bool.eq_false_iff.mpr ha
          · exact ih t (List.mem_cons_self _ _) c hc
        · exact ih p (List.mem_cons_of_mem _ hp) c hc

/-- A token is not empty and holds no whitespace character. -/
theorem tokens_spec (ws : Char → Bool) (input : String) :
    ∀ t ∈ tokens ws input, t ≠ "" ∧ ∀ c ∈ t.data, ws c = false := by
  intro t ht
  unfold tokens at ht
  obtain ⟨p, hp, rfl⟩ := List.mem_map.mp ht
  obtain ⟨hmem, hne⟩ := List.mem_filter.mp hp
  refine ⟨?_, not_ws_of_mem_splitBy ws _ p hmem⟩
  intro h
  have hnil : p = [] := congrArg String.data h
  rw [hnil] at hne
  cases hne

/-! ## The claim on `getArgs` -/

/-- C21, as the code has it: `getArgs` splits the collapsed line at its
spaces, so it sees the whitespace-delimited tokens of the line (whitespace
being the class `\s`), with an empty chunk before them when the line starts
with whitespace and an empty chunk after them when it ends with whitespace;
it succeeds exactly when these chunks are three, and returns the second and
the third. For a line with no whitespace around its tokens it succeeds
exactly when the tokens are three, and returns the second and the third
token, whatever the amount of whitespace between them. -/
theorem C21_getArgs (input : String) :
    getArgs input =
      (match (if startsWithSpace isRegexSpace input.data = true then [""] else [])
          ++ tokens isRegexSpace input
          ++ (if endsWithSpace isRegexSpace input.data = true then [""] else []) with
        | [_, arg1, arg2] => .ok (arg1, arg2, none)
        | _ => .ok ("", "", some .ErrWrongNumberOfArguments)) ∧
    (startsWithSpace isRegexSpace input.data = false →
      endsWithSpace isRegexSpace input.data = false →
      getArgs input =
        match tokens isRegexSpace input with
        | [_, arg1, arg2] => .ok (arg1, arg2, none)
        | _ => .ok ("", "", some .ErrWrongNumberOfArguments)) ∧
    (∀ t ∈ tokens isRegexSpace input, t ≠ "" ∧ ∀ c ∈ t.data, isRegexSpace c = false) := by
  have hmain : getArgs input =
      (match (if startsWithSpace isRegexSpace input.data = true then [""] else [])
          ++ tokens isRegexSpace input
          ++ (if endsWithSpace isRegexSpace input.data = true then [""] else []) with
        | [_, arg1, arg2] => .ok (arg1, arg2, none)
        | _ => .ok ("", "", some .ErrWrongNumberOfArguments)) := by
    by_cases hne : input = ""
    · rw [hne]
      rfl
    · unfold getArgs
      rw [chunksOf_eq input hne]
  refine ⟨hmain, fun h1 h2 => ?_, tokens_spec isRegexSpace input⟩
  rw [hmain, h1, h2]
  simp only [Bool.false_eq_true, if_false, List.nil_append, List.append_nil]

/-- On the line `mv   sub1  sub2`, with several spaces between the tokens. -/
theorem C21_getArgs_witness :
    tokens isRegexSpace "mv   sub1  sub2" = ["mv", "sub1", "sub2"] ∧
    getArgs "mv   sub1  sub2" = .ok ("sub1", "sub2", none) ∧
    getArgs "mv   sub1  sub2" =
      (match tokens isRegexSpace "mv   sub1  sub2" with
        | [_, arg1, arg2] => .ok (arg1, arg2, none)
        | _ => .ok ("", "", some .ErrWrongNumberOfArguments)) :=
  ⟨by decide, rfl, (C21_getArgs "mv   sub1  sub2").2.1 rfl rfl⟩

/-- C21 as stated fails for whitespace around the tokens: the line
`mv sub1 sub2` followed by a space has exactly three tokens, but `getArgs`
returns the error, and `handleCommand` panics; the line `sub1 sub2` after a
space has two tokens, but `getArgs` returns them with no error. -/
theorem C21_counterexample :
    tokens isRegexSpace "mv sub1 sub2 " = ["mv", "sub1", "sub2"] ∧
    getArgs "mv sub1 sub2 " = .ok ("", "", some .ErrWrongNumberOfArguments) ∧
    handleCommand 0 "mv sub1 sub2 " exampleState = .error .panic ∧
    tokens isRegexSpace " sub1 sub2" = ["sub1", "sub2"] ∧
    getArgs " sub1 sub2" = .ok ("sub1", "sub2", none) := by
  refine ⟨by decide, rfl, rfl, by decide, rfl⟩


/-! ## The echo of a command -/

/-- The chunks of a line start with the chunk that `getCommand` returns. -/
theorem chunksOf_cons (input : String) :
    ∃ args, chunksOf input = firstKeyword isRegexSpace input :: args := by
  obtain ⟨ts, hts⟩ := splitChars_replaceAllSpaces input.data
  refine ⟨ts.map String.mk, ?_⟩
  unfold chunksOf firstKeyword
  rw [hts]
  rfl

/-- Padding a string of one-byte characters that is not longer than the
width: spaces up to the width, counted in bytes. -/
theorem padRight_len (width : Nat) (s : String) (h : len s = s.length)
    (hw : s.length ≤ width) :
    ∃ pad : String, padRight width s = s ++ pad ∧ (∀ c ∈ pad.data, c = ' ') ∧
      len (s ++ pad) = width ∧ (s ++ pad).length = width := by
  refine ⟨String.mk (List.replicate (width - s.length) ' '), rfl, ?_, ?_, ?_⟩
  · intro c hc
    exact List.eq_of_mem_replicate hc
  · rw [len_append, len_spaces, h]
    omega
  · rw [String.length_append, length_spaces]
    omega

/-- The length of the echo before the arguments. -/
theorem len_command_echo (command : String) :
    len ("Command: " ++ command) = 9 + len command ∧
    ("Command: " ++ command).length = 9 + command.length := by
  constructor
  · rw [len_append]
    rfl
  · rw [String.length_append]
    rfl

/-- What `getCommandEcho` returns, from the chunks of the line. -/
theorem getCommandEcho_eq (input : String) (hne : input ≠ "") :
    getCommandEcho input =
      match chunksOf input with
      | [] => .error .panic
      | [command] => .ok ("Command: " ++ command)
      | [command, arg1] => .ok (padRight 17 ("Command: " ++ command) ++ arg1)
      | command :: arg1 :: arg2 :: _ =>
        .ok (padRight 25 (padRight 17 ("Command: " ++ command) ++ arg1) ++ arg2) := by
  unfold getCommandEcho
  rw [if_neg (fun h => hne ((len_eq_zero_iff input).mp h))]
  cases chunksOf input with
  | nil => rfl
  | cons command args =>
    cases args with
    | nil => rfl
    | cons arg1 rest =>
      cases rest with
      | nil => rfl
      | cons arg2 rest2 => rfl

/-- A text that fills the width is not padded. -/
theorem padRight_of_le (width : Nat) (s : String) (h : width ≤ s.length) :
    padRight width s = s := by
  unfold padRight
  rw [Nat.sub_eq_zero_of_le h]
  exact String.append_empty s

/-- The echo of long tokens: a command of 8 characters or more is followed
by the first argument with no space between them, and a first argument of 8
characters or more is followed by the second argument with no space between
them. -/
theorem getCommandEcho_long_tokens (input command arg1 : String) (args : List String)
    (hne : input ≠ "") (hchunks : chunksOf input = command :: arg1 :: args) :
    (8 ≤ command.length → args = [] →
      getCommandEcho input = .ok ("Command: " ++ command ++ arg1)) ∧
    (8 ≤ arg1.length → ∀ arg2 rest, args = arg2 :: rest →
      getCommandEcho input
        = .ok (padRight 17 ("Command: " ++ command) ++ arg1 ++ arg2)) := by
  have heq := getCommandEcho_eq input hne
  rw [hchunks] at heq
  constructor
  · rintro hlong rfl
    have hw : 17 ≤ ("Command: " ++ command).length := by
      rw [(len_command_echo command).2]
      omega
    rw [← padRight_of_le 17 _ hw]
    exact heq
  · rintro hlong arg2 rest rfl
    have hw : 25 ≤ (padRight 17 ("Command: " ++ command) ++ arg1).length := by
      rw [String.length_append, length_padRight]
      omega
    rw [← padRight_of_le 25 _ hw]
    exact heq

/-! ## The claim on the echo of a command -/

/-- The columns of the echo, as the code has it, for short tokens of one-byte
characters: for a line that is not empty, with `command` its first chunk (what `getCommand` returns) and `args` the chunks after it,
`getCommandEcho` returns a record that starts with `Command: ` and `command`.
When there is a second chunk `arg1` and `command` has at most 8 characters,
of one byte each, `arg1` starts at the byte offset 17, after spaces; when
there is a third chunk `arg2` and `arg1` too has at most 8 characters, of one
byte each, `arg2` starts at the byte offset 25, after spaces. Chunks after
the third are not echoed. -/
theorem getCommandEcho_columns (input : String) (hne : input ≠ "") :
    ∃ command args, chunksOf input = command :: args ∧ getCommand input = .ok command ∧
      (∃ tail, getCommandEcho input = .ok ("Command: " ++ command ++ tail)) ∧
      (args = [] → getCommandEcho input = .ok ("Command: " ++ command)) ∧
      (∀ arg1 rest, args = arg1 :: rest → len command = command.length →
        command.length ≤ 8 →
        ∃ pad1 tail : String, (∀ c ∈ pad1.data, c = ' ') ∧
          len ("Command: " ++ command ++ pad1) = 17 ∧
          getCommandEcho input = .ok ("Command: " ++ command ++ pad1 ++ arg1 ++ tail) ∧
          (rest = [] → tail = "") ∧
          (∀ arg2 rest2, rest = arg2 :: rest2 → len arg1 = arg1.length → arg1.length ≤ 8 →
            ∃ pad2 : String, (∀ c ∈ pad2.data, c = ' ') ∧
              len ("Command: " ++ command ++ pad1 ++ arg1 ++ pad2) = 25 ∧
              tail = pad2 ++ arg2)) := by
  obtain ⟨args, hchunks⟩ := chunksOf_cons input
  have heq := getCommandEcho_eq input hne
  rw [hchunks] at heq
  obtain ⟨hlenE, hlengthE⟩ := len_command_echo (firstKeyword isRegexSpace input)
  refine ⟨firstKeyword isRegexSpace input, args, hchunks, getCommand_eq input, ?_, ?_, ?_⟩
  · cases args with
    | nil => exact ⟨"", by rw [heq, String.append_empty]⟩
    | cons arg1 rest =>
      cases rest with
      | nil =>
        refine ⟨String.mk (List.replicate (17 - ("Command: "
          ++ firstKeyword isRegexSpace input).length) ' ') ++ arg1, ?_⟩
        rw [heq, ← String.append_assoc]
        rfl
      | cons arg2 rest2 =>
        refine ⟨String.mk (List.replicate (17 - ("Command: "
          ++ firstKeyword isRegexSpace input).length) ' ') ++ arg1
          ++ String.mk (List.replicate (25 - (padRight 17 ("Command: "
            ++ firstKeyword isRegexSpace input) ++ arg1).length) ' ') ++ arg2, ?_⟩
        rw [heq, ← String.append_assoc, ← String.append_assoc, ← String.append_assoc]
        rfl
  · rintro rfl
    exact heq
  · intro arg1 rest hargs hbytes hshort
    obtain ⟨pad1, hpad, hspaces, hlen17, hlength17⟩ := padRight_len 17
      ("Command: " ++ firstKeyword isRegexSpace input) (by rw [hlenE, hlengthE, hbytes])
      (by rw [hlengthE]; omega)
    rw [hargs] at heq
    cases rest with
    | nil =>
      have heq2 : getCommandEcho input
          = .ok (padRight 17 ("Command: " ++ firstKeyword isRegexSpace input) ++ arg1) := heq
      rw [hpad] at heq2
      refine ⟨pad1, "", hspaces, hlen17, by rw [heq2, String.append_empty], fun _ => rfl, ?_⟩
      intro arg2 rest2 h
      cases h
    | cons arg2 rest2 =>
      have heq2 : getCommandEcho input
          = .ok (padRight 25 (padRight 17 ("Command: " ++ firstKeyword isRegexSpace input)
              ++ arg1) ++ arg2) := heq
      rw [hpad] at heq2
      refine ⟨pad1, String.mk (List.replicate (25 - ("Command: "
        ++ firstKeyword isRegexSpace input ++ pad1 ++ arg1).length) ' ') ++ arg2, hspaces,
        hlen17, ?_, fun h => (by cases h), ?_⟩
      · rw [heq2, ← String.append_assoc]
        rfl
      · intro arg3 rest3 h hbytes1 hshort1
        cases h
        refine ⟨_, ?_, ?_, rfl⟩
        · intro c hc
          exact List.eq_of_mem_replicate hc
        · rw [len_append, len_spaces, String.length_append, hlength17, len_append, hlen17,
            hbytes1]
          omega

/-- On the line `mv sub1 sub2`. -/
theorem getCommandEcho_columns_example :
    getCommandEcho "mv sub1 sub2" = .ok "Command: mv      sub1    sub2" ∧
    ∃ command args, chunksOf "mv sub1 sub2" = command :: args ∧
      getCommand "mv sub1 sub2" = .ok command ∧
      (∃ tail, getCommandEcho "mv sub1 sub2" = .ok ("Command: " ++ command ++ tail)) ∧
      (args = [] → getCommandEcho "mv sub1 sub2" = .ok ("Command: " ++ command)) ∧
      (∀ arg1 rest, args = arg1 :: rest → len command = command.length →
        command.length ≤ 8 →
        ∃ pad1 tail : String, (∀ c ∈ pad1.data, c = ' ') ∧
          len ("Command: " ++ command ++ pad1) = 17 ∧
          getCommandEcho "mv sub1 sub2"
            = .ok ("Command: " ++ command ++ pad1 ++ arg1 ++ tail) ∧
          (rest = [] → tail = "") ∧
          (∀ arg2 rest2, rest = arg2 :: rest2 → len arg1 = arg1.length → arg1.length ≤ 8 →
            ∃ pad2 : String, (∀ c ∈ pad2.data, c = ' ') ∧
              len ("Command: " ++ command ++ pad1 ++ arg1 ++ pad2) = 25 ∧
              tail = pad2 ++ arg2)) :=
  ⟨rfl, getCommandEcho_columns "mv sub1 sub2" (by decide)⟩

/-- C22 fails on the code: the comments of `getCommandEcho` say `first
argument in column 18` and `second argument in column 26`, but
`fmt.Sprintf("%-17s%s", ...)` and `fmt.Sprintf("%-25s%s", ...)` only pad a
shorter text, and count its characters. On the line `mv subdirectory1 sub2`
the second argument follows the first with no space, at the byte offset 30;
on `mkdirectory sub1` the argument starts at the byte offset 20; on
`mv é sub2` the second argument starts at the byte offset 26. -/
theorem C22_echo_glues_long_argument :
    getCommandEcho "mv subdirectory1 sub2" = .ok "Command: mv      subdirectory1sub2" ∧
    len "Command: mv      subdirectory1" = 30 ∧
    getCommandEcho "mkdirectory sub1" = .ok "Command: mkdirectorysub1" ∧
    len "Command: mkdirectory" = 20 ∧
    getCommandEcho "mv é sub2" = .ok "Command: mv      é       sub2" ∧
    len "Command: mv      é       " = 26 := by
  refine ⟨rfl, by decide, rfl, by decide, rfl, by decide⟩

/-! ## A move into the subtree of the directory moved -/

/-- After `X` has been given the parent `D`, a directory below `X` is still
below `X`. -/
theorem ancestor_of_moved {heap heap2 : List dir} {X D : Nat}
    (hpar : ∀ q, (deref heap2 q).parent = if q = X then some D else (deref heap q).parent)
    (m : Nat) :
    ∀ q, ancestor heap m q = some X → ∃ j, ancestor heap2 j q = some X := by
  induction m with
  | zero =>
    intro q hq
    cases hq
    exact ⟨0, rfl⟩
  | succ m ih =>
    intro q hq
    by_cases hqX : q = X
    · exact ⟨0, by rw [hqX]; rfl⟩
    · cases hp : (deref heap q).parent with
      | none =>
        rw [ancestor_succ_of_parent_none hp] at hq
        cases hq
      | some p =>
        rw [ancestor_succ_of_parent m hp] at hq
        obtain ⟨j, hj⟩ := ih p hq
        have hp2 : (deref heap2 q).parent = some p := by
          rw [hpar, if_neg hqX, hp]
        exact ⟨j + 1, by rw [ancestor_succ_of_parent j hp2]; exact hj⟩

/-- After `X` has been given a parent `D` below `X`, `X` is one of its own
ancestors. -/
theorem cycle_of_moved {heap heap2 : List dir} {X D : Nat}
    (hpar : ∀ q, (deref heap2 q).parent = if q = X then some D else (deref heap q).parent)
    (m : Nat) (hD : ancestor heap m D = some X) :
    ∃ k, ancestor heap2 (k + 1) X = some X := by
  obtain ⟨j, hj⟩ := ancestor_of_moved hpar m D hD
  have hX : (deref heap2 X).parent = some D := by
    rw [hpar, if_pos rfl]
  exact ⟨j, by rw [ancestor_succ_of_parent j hX]; exact hj⟩

/-- A directory on a cycle of `parent` pointers, and the directories below
it, cannot be reached from a directory without parent. -/
theorem not_reachable_of_cycle {heap2 : List dir} (h2 : HeapInv heap2) {X r : Nat}
    (hr : (deref heap2 r).parent = none) (k : Nat)
    (hcycle : ancestor heap2 (k + 1) X = some X) :
    (∀ n, ancestor heap2 n X ≠ some r) ∧
    ∀ q j, ancestor heap2 j q = some X → ¬ Reachable heap2 r q := by
  have hnever : ∀ n, ancestor heap2 n X ≠ some r :=
    fun n hn => ancestor_ne_self n hn hr k hcycle
  refine ⟨hnever, fun q j hj hreach => ?_⟩
  obtain ⟨n, hn⟩ := ancestor_of_reachable h2 hreach
  rcases Nat.le_total j n with hjn | hnj
  · exact hnever _ (ancestor_sub hj hn hjn)
  · have h := ancestor_sub hn hj hnj
    cases hd : j - n with
    | zero =>
      rw [hd] at h
      cases h
      exact hnever 0 rfl
    | succ d =>
      rw [hd, ancestor_succ_of_parent_none hr] at h
      cases h

/-- The two ways in which `Mv` reaches `moveDirectory` with a destination `D`
in the subtree of the directory `X` it moves: the heap after the call, in
which `X` has the parent `D` and is no child of the current directory. -/
theorem Mv_into_subtree {fs : filesystem} {c X D : Nat} {dst : String} (h : Inv fs)
    (hc : fs.current = some c) (hX : X ∈ (deref fs.heap c).subs)
    (hD : Reachable fs.heap X D)
    (hbranch : (∃ pre t, Split dst = pre ++ [t] ∧ resolvePath fs.heap pre c = some D ∧
        t ≠ "." ∧ t ≠ ".." ∧ t ∉ childNames fs.heap D) ∨
      (resolvePath fs.heap (Split dst) c = some D ∧ D ≠ X ∧
        (deref fs.heap X).name ∉ childNames fs.heap D)) :
    ∃ heap2, Mv fs (deref fs.heap X).name dst = some ({ fs with heap := heap2 }, none) ∧
      HeapInv heap2 ∧
      (∀ q, (deref heap2 q).parent = if q = X then some D else (deref fs.heap q).parent) ∧
      (deref heap2 c).subs = (deref fs.heap c).subs.erase X := by
  have hDc : D ≠ c := by
    rintro rfl
    exact h.not_reachable_current hc hX hD
  rcases hbranch with ⟨pre, t, hsplit, hres, ht1, ht2, ht3⟩ | ⟨hres, hDX, hfresh⟩
  · obtain ⟨heap2, hmv, _, hinv, _, hderef⟩ := Mv_rename_eq h hc hX hsplit hres ht1 ht2 ht3
    refine ⟨heap2, hmv, hinv, ?_, ?_⟩
    · intro q
      rw [hderef, movedDir_parent, deref_rename_parent]
    · rw [hderef]
      unfold movedDir
      simp only
      rw [if_neg (Ne.symm hDc), if_pos trivial, deref_rename_subs]
  · obtain ⟨heap2, hmv, _, hinv, _, hderef⟩ := Mv_move_eq h hc hX hres hDc hDX hfresh
    refine ⟨heap2, hmv, hinv, ?_, ?_⟩
    · intro q
      rw [hderef, movedDir_parent]
    · rw [hderef]
      unfold movedDir
      simp only
      rw [if_neg (Ne.symm hDc), if_pos trivial]

/-! ## The claim on a move into the own subtree -/

/-- C23: in a state with the invariant, for a child `X` of the current
directory and a path with which `Mv` reaches `moveDirectory` for a
destination `D` in the subtree of `X` (in the renaming branch `D` is `X` or
below `X`; in the branch without renaming `D` is below `X` and has no child
with the name of `X`): `Mv` returns no error and keeps the invariant, the
cursor and the root; `X` has the parent `D`, is no child of the current
directory any more, and is one of its own ancestors, on a cycle of `parent`
pointers that does not hold the root; and no directory of the former subtree
of `X`, `X` included, can be reached from the root: none is a child of the
root, which is what `dir` lists at the root, and none is in a pre-order
listing of the directories under the root, which is what `tree` lists. -/
theorem C23_Mv_into_own_subtree (fs : filesystem) (c r X D : Nat) (dst : String)
    (h : Inv fs) (hc : fs.current = some c) (hr : fs.root = some r)
    (hX : X ∈ (deref fs.heap c).subs) (hD : Reachable fs.heap X D)
    (hbranch : (∃ pre t, Split dst = pre ++ [t] ∧ resolvePath fs.heap pre c = some D ∧
        t ≠ "." ∧ t ≠ ".." ∧ t ∉ childNames fs.heap D) ∨
      (resolvePath fs.heap (Split dst) c = some D ∧ D ≠ X ∧
        (deref fs.heap X).name ∉ childNames fs.heap D)) :
    ∃ fs1, Mv fs (deref fs.heap X).name dst = some (fs1, none) ∧ Inv fs1 ∧
      fs1.current = some c ∧ fs1.root = some r ∧
      (deref fs1.heap X).parent = some D ∧ X ∉ (deref fs1.heap c).subs ∧
      (∃ k, ancestor fs1.heap (k + 1) X = some X) ∧
      (∀ n, ancestor fs1.heap n X ≠ some r) ∧
      ∀ q, Reachable fs.heap X q →
        ¬ Reachable fs1.heap r q ∧ q ∉ (deref fs1.heap r).subs ∧
        ∀ nodes, PreOrder fs1.heap (deref fs1.heap r).subs nodes → q ∉ nodes := by
  obtain ⟨heap2, hmv, hinv2, hpar, hsubs⟩ := Mv_into_subtree h hc hX hD hbranch
  obtain ⟨fs1, e, hmv1, hinv1⟩ := Mv_inv fs (deref fs.heap X).name dst h
  rw [hmv] at hmv1
  cases hmv1
  obtain ⟨r2, hr2, _, hrp⟩ := h.root
  rw [hr] at hr2
  cases hr2
  have hrX : r ≠ X := by
    rintro rfl
    rw [(h.heapInv.child c r hX).2] at hrp
    cases hrp
  have hrp2 : (deref heap2 r).parent = none := by
    rw [hpar, if_neg hrX, hrp]
  obtain ⟨m, hm⟩ := ancestor_of_reachable h.heapInv hD
  obtain ⟨k, hcycle⟩ := cycle_of_moved hpar m hm
  obtain ⟨hnever, hunreach⟩ := not_reachable_of_cycle hinv2 hrp2 k hcycle
  refine ⟨_, hmv, hinv1, hc, hr, ?_, ?_, ⟨k, hcycle⟩, hnever, ?_⟩
  · show (deref heap2 X).parent = some D
    rw [hpar, if_pos rfl]
  · show X ∉ (deref heap2 c).subs
    rw [hsubs]
    intro hmem
    exact ((nodup_of_sorted (h.heapInv.sorted c)).mem_erase_iff.mp hmem).1 rfl
  · intro q hq
    obtain ⟨n, hn⟩ := ancestor_of_reachable h.heapInv hq
    obtain ⟨j, hj⟩ := ancestor_of_moved hpar n q hn
    have hnot : ¬ Reachable heap2 r q := hunreach q j hj
    refine ⟨hnot, ?_, ?_⟩
    · intro hmem
      exact hnot (Reachable.step Reachable.refl hmem)
    · intro nodes hpre hmem
      obtain ⟨x, hx, hreach⟩ := (mem_preOrder hpre q).mp hmem
      exact hnot (reachable_of_child hx hreach)

/-- In `exampleState`, `Mv("sub2", "sub2\\sub1")` moves `sub2`, at address 2,
into its own child `sub1`, at address 3, and `Mv("sub2", "sub2\\foo")` moves
it into itself under the name `foo`. -/
theorem C23_Mv_into_own_subtree_witness :
    Inv exampleState ∧
    (∃ fs1, Mv exampleState "sub2" "sub2\\sub1" = some (fs1, none) ∧
      (deref fs1.heap 2).parent = some 3 ∧ 2 ∉ (deref fs1.heap 0).subs ∧
      (∃ k, ancestor fs1.heap (k + 1) 2 = some 2) ∧
      ¬ Reachable fs1.heap 0 2 ∧ ¬ Reachable fs1.heap 0 3) ∧
    ∃ fs2, Mv exampleState "sub2" "sub2\\foo" = some (fs2, none) ∧
      (deref fs2.heap 2).parent = some 2 ∧ ¬ Reachable fs2.heap 0 2 := by
  refine ⟨Inv_exampleState, ?_, ?_⟩
  · obtain ⟨fs1, hmv, _, _, _, hp, hnot, hcycle, _, hun⟩ :=
      C23_Mv_into_own_subtree exampleState 0 0 2 3 "sub2\\sub1" Inv_exampleState rfl rfl
        (by decide) (Reachable.step Reachable.refl (by decide))
        (Or.inr ⟨by decide, by decide, by decide⟩)
    exact ⟨fs1, hmv, hp, hnot, hcycle, (hun 2 Reachable.refl).1,
      (hun 3 (Reachable.step Reachable.refl (by decide))).1⟩
  · obtain ⟨fs2, hmv, _, _, _, hp, _, _, _, hun⟩ :=
      C23_Mv_into_own_subtree exampleState 0 0 2 2 "sub2\\foo" Inv_exampleState rfl rfl
        (by decide) Reachable.refl
        (Or.inl ⟨["sub2"], "foo", by decide, by decide, by decide, by decide, by decide⟩)
    exact ⟨fs2, hmv, hp, (hun 2 Reachable.refl).1⟩


/-! ## The claim on `Cd` followed by `Up` -/

/-- In a state with the invariant, `Cd` to a child of the current directory
and `Up` from there both succeed and give back the state. -/
theorem Cd_Up_roundtrip {fs : filesystem} {c s : Nat} (h : Inv fs)
    (hc : fs.current = some c) (hs : s ∈ (deref fs.heap c).subs) :
    Cd fs (deref fs.heap s).name = some ({ fs with current := some s }, none) ∧
    Up { fs with current := some s } = some (fs, none) := by
  constructor
  · unfold Cd
    rw [hc]
    simp only
    rw [h.heapInv.findSub_eq_some hs]
  · obtain ⟨r, hr, _, hrp⟩ := h.root
    have hsp := (h.heapInv.child c s hs).2
    have hsr : some s ≠ fs.root := by
      rw [hr]
      intro heq
      cases heq
      rw [hsp] at hrp
      cases hrp
    unfold Up
    simp only
    rw [if_neg hsr, hsp, ← hc]

/-- C24: in every state reached from `CreateFilesystem()` by any sequence of
`AddSubdir`, `Up`, `Cd` and `Mv` calls, the current directory can be reached
from the root, and for every name `n` of a child of the current directory,
`Cd(n)` returns no error and moves the cursor to the child of that name, the
tree and the root being as before, and `Up()` after it returns no error and
gives back exactly the state before `Cd`. -/
theorem C24_Cd_then_Up_restores (ops : List Op) :
    ∃ fs r c, runOps CreateFilesystem ops = some fs ∧ fs.root = some r ∧
      fs.current = some c ∧ Reachable fs.heap r c ∧
      ∀ n ∈ childNames fs.heap c, ∃ fs1 s, Cd fs n = some (fs1, none) ∧
        s ∈ (deref fs.heap c).subs ∧ (deref fs.heap s).name = n ∧
        fs1.current = some s ∧ fs1.heap = fs.heap ∧ fs1.root = fs.root ∧
        Up fs1 = some (fs, none) := by
  obtain ⟨fs, hrun, hinv⟩ := runOps_inv ops CreateFilesystem Inv_CreateFilesystem
  obtain ⟨r, hr, _, _⟩ := hinv.root
  obtain ⟨c, hc, _⟩ := hinv.current
  refine ⟨fs, r, c, hrun, hr, hc, hinv.reachable_current hr hc, ?_⟩
  intro n hn
  obtain ⟨s, hs, hname⟩ := mem_childNames.mp hn
  obtain ⟨hcd, hup⟩ := Cd_Up_roundtrip hinv hc hs
  rw [hname] at hcd
  exact ⟨_, s, hcd, hs, hname, rfl, rfl, rfl, hup⟩

end DirSimulator
